import Mathlib

/-!
# xv6 MLFQ + Stride scheduler and LWP facility (`proc.c`)

A shallow embedding of the scheduling part of `proc.c`.

* C `int` values are `Int`; pointers into `ptable.proc` are slot indices
  (`Option Nat`, `none` is the null pointer). The two accumulators that
  grow without bound, `p->pass` and `mlfq_pass`, are 32-bit: the additions
  `p->pass += p->stride` and `mlfq_pass += mlfq_stride` of the scheduler
  are reduced to the range of `int` by `wrap_int`, as the x86 `add` of the
  compiled kernel does. The other `int` fields (ticks, shares, counters)
  stay far from the bounds and are not reduced.
* Fixed-size C arrays are lists; an access outside the array, a dereference
  of a null or dangling slot pointer and a division by zero are undefined
  in C and make the embedded function return `none`.
* `myproc()` is the explicit argument `cur`.
* Fields of `struct proc` owned by the trap and file subsystems (`tf`,
  `context`, `ofile`, `cwd`, `name`) are not represented; no function below
  branches on them.
-/

namespace Xv6

/-! ## Data model -/

/-- The C `enum procstate`. -/
inductive procstate where
  | UNUSED
  | EMBRYO
  | SLEEPING
  | RUNNABLE
  | RUNNING
  | ZOMBIE
deriving DecidableEq, Repr

/-- A wait channel (`void *chan`): the address of a process slot, or some
other kernel address. -/
inductive Chan where
  | slot (i : Nat)
  | addr (a : Nat)
deriving DecidableEq, Repr

/-- The scheduling and LWP part of `struct proc`. -/
structure proc where
  sz : Nat
  pgdir : Option Nat
  kstack : Option Nat
  state : procstate
  pid : Int
  parent : Option Nat
  chan : Option Chan
  killed : Int
  level : Int
  ticks : Int
  cpu_share : Int
  stride : Int
  pass : Int
  is_LWP : Int
  num_LWP : Int
  all_LWP : Int
  tid : Int
  wtid : Int
  retval : Int
deriving DecidableEq, Repr

/-- A C array of three cells (`q_count[3]`, the three rows of `q[3][NPROC]`,
`allotment[3]`). -/
structure Arr3 (α : Type) where
  a0 : α
  a1 : α
  a2 : α
deriving DecidableEq, Repr

/-- Read cell `i` of a three-cell array; `none` outside `0..2`. -/
def Arr3.get? {α : Type} (a : Arr3 α) (i : Int) : Option α :=
  if i = 0 then some a.a0
  else if i = 1 then some a.a1
  else if i = 2 then some a.a2
  else none

/-- Write cell `i` of a three-cell array (no change outside `0..2`; every use
below is guarded by a successful `get?` of the same index). -/
def Arr3.set {α : Type} (a : Arr3 α) (i : Int) (x : α) : Arr3 α :=
  if i = 0 then { a with a0 := x }
  else if i = 1 then { a with a1 := x }
  else if i = 2 then { a with a2 := x }
  else a

/-- One row `q[level]` of the multi level queue: `NPROC` cells, each a slot
pointer. -/
abbrev Row := List (Option Nat)

/-- The global variables of `proc.c`. -/
structure Kernel where
  ptable : List proc
  initproc : Option Nat
  nextpid : Int
  mlfq_pass : Int
  mlfq_stride : Int
  mlfq_share : Int
  totalticks : Int
  q_count : Arr3 Int
  q : Arr3 Row
deriving DecidableEq

/-- The initialiser `int allotment[3] = {5, 10, 1000}`. -/
def allotment : Arr3 Int := ⟨5, 10, 1000⟩

/-! ## Memory access helpers -/

/-- Read `row[i]`; `none` when `i` is outside the row. -/
def rd (row : Row) (i : Int) : Option (Option Nat) :=
  if 0 ≤ i then row[i.toNat]? else none

/-- Write `row[i] = v`; `none` when `i` is outside the row. -/
def wr (row : Row) (i : Int) (v : Option Nat) : Option Row :=
  if 0 ≤ i ∧ i.toNat < row.length then some (row.set i.toNat v) else none

/-- C integer division `a / b`; `none` on division by zero. -/
def cdiv (a b : Int) : Option Int :=
  if b = 0 then none else some (Int.tdiv a b)

/-- Dereference a slot pointer. -/
def getProc (s : Kernel) (i : Nat) : Option proc := s.ptable[i]?

/-- Store through a slot pointer. -/
def setProc (s : Kernel) (i : Nat) (p : proc) : Kernel :=
  { s with ptable := s.ptable.set i p }

/-- The entries of `q[level]` that are in use: cells `0 .. q_count[level]`. -/
def qlist (s : Kernel) (level : Int) : List (Option Nat) :=
  match s.q.get? level, s.q_count.get? level with
  | some row, some c => row.take (c + 1).toNat
  | _, _ => []

/-! ## set_cpu_share -/

/-- The scan `for(p = ptable.proc; ...) if (p->state == RUNNABLE && p->stride != 0)
min_pass = (min_pass > p->pass) ? p->pass : min_pass;` of `set_cpu_share`. -/
def min_pass_scan (ps : List proc) (init : Int) : Int :=
  ps.foldl (fun m p =>
    if p.state = procstate.RUNNABLE ∧ p.stride ≠ 0 then (if m > p.pass then p.pass else m)
    else m) init

/-- The loop `for (j = i; j < cnt; j++) row[j] = row[j + 1];` run for `n`
iterations starting at `j`. -/
def shift_left : Nat → Row → Int → Option Row
  | 0, row, _ => some row
  | n + 1, row, j =>
    match rd row (j + 1) with
    | none => none
    | some v =>
      match wr row j v with
      | none => none
      | some row1 => shift_left n row1 (j + 1)

/-- The outer loop of "delete in mlfq" in `set_cpu_share` (lines 679-684),
`n` iterations left, at index `i`: no `break` after a hit. -/
def scs_delete_loop (cur : Nat) (cnt : Int) : Nat → Row → Int → Option Row
  | 0, row, _ => some row
  | n + 1, row, i =>
    match rd row i with
    | none => none
    | some e =>
      if e = some cur then
        match shift_left (cnt - i).toNat row i with
        | none => none
        | some row1 => scs_delete_loop cur cnt n row1 (i + 1)
      else scs_delete_loop cur cnt n row (i + 1)

/-- Lines 679-686 of `set_cpu_share`: the deletion loop, then
`q[p->level][q_count[p->level]] = 0; q_count[p->level]--;`. -/
def scs_delete (s : Kernel) (cur : Nat) (level : Int) : Option Kernel :=
  match s.q_count.get? level, s.q.get? level with
  | some cnt, some row =>
    match scs_delete_loop cur cnt (cnt + 1).toNat row 0 with
    | none => none
    | some row1 =>
      match wr row1 cnt none with
      | none => none
      | some row2 =>
        some { s with q := s.q.set level row2, q_count := s.q_count.set level (cnt - 1) }
  | _, _ => none

/-- The function `set_cpu_share(share)` called by the process in slot `cur`:
the return value and the new state. -/
def set_cpu_share (s : Kernel) (cur : Nat) (share : Int) : Option (Int × Kernel) :=
  if share < 0 then some (-1, s)
  else if s.mlfq_share - share ≤ 20 then some (-1, s)
  else
    let min_pass := min_pass_scan s.ptable s.mlfq_pass
    match getProc s cur with
    | none => none
    | some p =>
      match scs_delete s cur p.level with
      | none => none
      | some s1 =>
        let share1 := s1.mlfq_share - share
        match cdiv 10000 share1 with
        | none => none
        | some mstride =>
          let s2 := { s1 with mlfq_share := share1, mlfq_stride := mstride }
          if p.num_LWP > 0 then
            match cdiv share p.num_LWP with
            | none => none
            | some d =>
              let avg_share := d + 1
              match cdiv 10000 avg_share with
              | none => none
              | some st =>
                let p1 := { p with cpu_share := avg_share, stride := st, pass := min_pass }
                let s3 := setProc s2 cur p1
                some (share, { s3 with ptable := s3.ptable.map (fun ip =>
                  if ip.parent = some cur then
                    { ip with cpu_share := avg_share, stride := st, pass := min_pass }
                  else ip) })
          else
            match cdiv 10000 share with
            | none => none
            | some st =>
              some (share, setProc s2 cur
                { p with cpu_share := share, stride := st, pass := min_pass })

/-! ## scheduler: the Stride decision (lines 736-761) -/

/-- The scan "Find minimum pass of process" of `scheduler`: `i` is the index
of the head of the remaining table, the accumulator is `(min, min_pass)`;
`min` is kept as the slot index together with the slot it points to. -/
def stride_scan : List proc → Nat → Option (Nat × proc) × Int → Option (Nat × proc) × Int
  | [], _, acc => acc
  | p :: ps, i, (min, min_pass) =>
    if p.state = procstate.RUNNABLE ∧ p.cpu_share ≠ 0 ∧ p.pass ≤ min_pass then
      stride_scan ps (i + 1) (some (i, p), p.pass)
    else stride_scan ps (i + 1) (min, min_pass)

/-- The value a 32-bit C `int` holds after an addition whose mathematical
result is `x`: `x` reduced modulo `2^32` into `[-2^31, 2^31)`. -/
def wrap_int (x : Int) : Int := (x + 2147483648) % 4294967296 - 2147483648

/-- One scheduler decision, lines 736-761 up to the context switch: the
chosen Stride slot (`none` when the turn goes to the MLFQ) and the state in
which the switch happens. In the Stride branch `p->pass += p->stride` and
`p->state = RUNNING`; in the MLFQ branch `mlfq_pass += mlfq_stride`. Both
additions are on `int` and wrap at `2^31`. -/
def scheduler_decide (s : Kernel) : Option Nat × Kernel :=
  match (stride_scan s.ptable 0 (none, s.mlfq_pass)).1 with
  | some (i, p) =>
    (some i, setProc s i
      { p with pass := wrap_int (p.pass + p.stride), state := procstate.RUNNING })
  | none => (none, { s with mlfq_pass := wrap_int (s.mlfq_pass + s.mlfq_stride) })

/-- The function `yield` up to `sched()`: `myproc()->state = RUNNABLE`. -/
def yield (s : Kernel) (cur : Nat) : Option Kernel :=
  match getProc s cur with
  | none => none
  | some p => some (setProc s cur { p with state := procstate.RUNNABLE })

/-! ## scheduler: the MLFQ turn (lines 763-827) -/

/-- One of the two boosting loops (lines 766-773 with `src = 1`, 775-782 with
`src = 2`): `n` iterations left, at source index `i` and target index `j`. -/
def boost_loop (src : Int) : Nat → Int → Int → Kernel → Option Kernel
  | 0, _, _, s => some s
  | n + 1, i, j, s =>
    match s.q.get? src with
    | none => none
    | some srow =>
      match rd srow i with
      | none => none
      | some e =>
        match wr s.q.a0 j e with
        | none => none
        | some row0 =>
          match e with
          | none => none
          | some pidx =>
            let s1 := { s with q := s.q.set 0 row0 }
            match getProc s1 pidx with
            | none => none
            | some p =>
              let s2 := setProc s1 pidx { p with level := 0, ticks := 0 }
              match s2.q.get? src with
              | none => none
              | some srow2 =>
                match wr srow2 i none with
                | none => none
                | some srow3 =>
                  boost_loop src n (i + 1) (j + 1)
                    { s2 with q := s2.q.set src srow3,
                              q_count := s2.q_count.set 0 (s2.q_count.a0 + 1) }

/-- The boosting step of an MLFQ turn, lines 764-785. -/
def boost (s : Kernel) : Option Kernel :=
  if s.totalticks ≥ 100 then
    match boost_loop 1 (s.q_count.a1 + 1).toNat 0 (s.q_count.a0 + 1) s with
    | none => none
    | some s1 =>
      let s2 := { s1 with q_count := s1.q_count.set 1 (-1) }
      match boost_loop 2 (s2.q_count.a2 + 1).toNat 0 (s2.q_count.a0 + 1) s2 with
      | none => none
      | some s3 => some { s3 with q_count := s3.q_count.set 2 (-1), totalticks := 0 }
  else some s

/-- The demotion step, lines 811-823, run when the process `pidx` (both `p`
and `c->proc`) that was switched into from `q[level][i]` has switched back. -/
def demote (s : Kernel) (level : Int) (i : Int) (pidx : Nat) : Option Kernel :=
  match getProc s pidx with
  | none => none
  | some p =>
    if level = 2 then some s
    else
      match allotment.get? level with
      | none => none
      | some a =>
        if p.ticks ≥ a then
          match s.q_count.get? (level + 1) with
          | none => none
          | some c1 =>
            let s1 := { s with q_count := s.q_count.set (level + 1) (c1 + 1) }
            let s2 := setProc s1 pidx { p with level := p.level + 1, ticks := 0 }
            match s2.q.get? (level + 1) with
            | none => none
            | some row1 =>
              match wr row1 (c1 + 1) (some pidx) with
              | none => none
              | some row1a =>
                let s3 := { s2 with q := s2.q.set (level + 1) row1a }
                match s3.q_count.get? level, s3.q.get? level with
                | some c, some row =>
                  match shift_left (c - i).toNat row i with
                  | none => none
                  | some rowa =>
                    match wr rowa c none with
                    | none => none
                    | some rowb =>
                      some { s3 with q := s3.q.set level rowb,
                                     q_count := s3.q_count.set level (c - 1) }
                | _, _ => none
        else some s

/-- What a process does between the `swtch` into it and its `swtch` back to
the scheduler; the argument is the slot that runs. -/
abbrev Body := Nat → Kernel → Kernel

/-- Result of a loop that is run with a bound on its iterations. -/
inductive Outcome (α : Type) where
  | done (a : α)
  | fault
  | timeout
deriving DecidableEq, Repr

/-- The loop `for (i = 0; i <= q_count[level]; i++)` of lines 798-825, at
index `i` with `n` iterations allowed. The state carries `mlfq_turn` and the
list of slots switched into so far. -/
def mlfq_inner (body : Body) (level : Int) :
    Nat → Int → Kernel → Bool → List Nat → Outcome (Kernel × Bool × List Nat)
  | 0, _, _, _, _ => Outcome.timeout
  | n + 1, i, s, turn, ran =>
    match s.q_count.get? level, s.q.get? level with
    | some cnt, some row =>
      if i ≤ cnt then
        match rd row i with
        | some (some pidx) =>
          match getProc s pidx with
          | none => Outcome.fault
          | some p =>
            if p.state ≠ procstate.RUNNABLE then mlfq_inner body level n (i + 1) s turn ran
            else
              let s1 := setProc s pidx { p with state := procstate.RUNNING }
              let s2 := body pidx s1
              match demote s2 level i pidx with
              | none => Outcome.fault
              | some s3 => mlfq_inner body level n (i + 1) s3 false (ran ++ [pidx])
        | _ => Outcome.fault
      else Outcome.done (s, turn, ran)
    | _, _ => Outcome.fault

/-- The loop `for (level = 0; level < 3; level++)` of lines 787-827 with its
restart rule (`level = -1; continue;`), `n` iterations allowed. -/
def level_scan (body : Body) :
    Nat → Int → Kernel → Bool → List Nat → Outcome (Kernel × List Nat)
  | 0, level, s, _, ran => if level < 3 then Outcome.timeout else Outcome.done (s, ran)
  | n + 1, level, s, turn, ran =>
    if level < 3 then
      if turn = true ∧ ((level = 1 ∧ s.q_count.a0 ≠ -1) ∨
          (level = 2 ∧ s.q_count.a1 ≠ -1 ∧ s.q_count.a2 ≠ -1)) then
        level_scan body n 0 s turn ran
      else
        match s.q_count.get? level with
        | none => Outcome.fault
        | some c =>
          if c ≠ -1 ∧ turn = true then
            match mlfq_inner body level n 0 s turn ran with
            | Outcome.done (s1, turn1, ran1) => level_scan body n (level + 1) s1 turn1 ran1
            | Outcome.fault => Outcome.fault
            | Outcome.timeout => Outcome.timeout
          else level_scan body n (level + 1) s turn ran
    else Outcome.done (s, ran)

/-- The MLFQ branch of one scheduler iteration, lines 760-827, entered in the
state left by `scheduler_decide`: boosting, then the level scan. The result
lists the slots that were switched into. -/
def mlfq_turn (body : Body) (fuel : Nat) (s : Kernel) : Outcome (Kernel × List Nat) :=
  match boost s with
  | none => Outcome.fault
  | some s1 => level_scan body fuel 0 s1 true []

/-! ## wakeup1 -/

/-- The loop `for (i = q_count[0]; i > 0; i--) q[0][i] = q[0][i - 1];` of
`wakeup1`, `n` iterations left, at index `i`. -/
def shift_right : Nat → Row → Int → Option Row
  | 0, row, _ => some row
  | n + 1, row, i =>
    match rd row (i - 1) with
    | none => none
    | some v =>
      match wr row i v with
      | none => none
      | some row1 => shift_right n row1 (i - 1)

/-- The inner scan of `wakeup1` (lines 972-974) for the woken slot `me`:
`if (sp != p && sp->stride && sp->state == RUNNABLE) min_pass = ...`; `i` is
the index of the head of the remaining table. -/
def wakeup_min_pass (me : Nat) : List proc → Nat → Int → Int
  | [], _, m => m
  | sp :: ps, i, m =>
    if i ≠ me ∧ sp.stride ≠ 0 ∧ sp.state = procstate.RUNNABLE then
      wakeup_min_pass me ps (i + 1) (if m > sp.pass then sp.pass else m)
    else wakeup_min_pass me ps (i + 1) m

/-- The table scan of `wakeup1` from slot `i` on, `n` slots left; `min_pass`
is the function-level variable that survives from one woken slot to the next. -/
def wakeup1_loop (chan : Option Chan) : Nat → Nat → Kernel → Int → Option Kernel
  | 0, _, s, _ => some s
  | n + 1, i, s, min_pass =>
    match getProc s i with
    | none => none
    | some p =>
      if p.state = procstate.SLEEPING ∧ p.chan = chan then
        let p1 := { p with ticks := 0, level := 0, state := procstate.RUNNABLE }
        let s1 := setProc s i p1
        if p1.stride = 0 then
          let c := s1.q_count.a0 + 1
          match shift_right c.toNat s1.q.a0 c with
          | none => none
          | some row =>
            match wr row 0 (some i) with
            | none => none
            | some row1 =>
              wakeup1_loop chan n (i + 1)
                { s1 with q_count := s1.q_count.set 0 c, q := s1.q.set 0 row1 } min_pass
        else
          let m := wakeup_min_pass i s1.ptable 0 min_pass
          wakeup1_loop chan n (i + 1) (setProc s1 i { p1 with pass := m }) m
      else wakeup1_loop chan n (i + 1) s min_pass

/-- The function `wakeup1(chan)`. -/
def wakeup1 (s : Kernel) (chan : Option Chan) : Option Kernel :=
  wakeup1_loop chan s.ptable.length 0 s s.mlfq_pass

/-! ## Dequeueing with `break` (exit, wait, sleep, thread_exit, thread_join) -/

/-- The search loop `for (i = 0; i <= q_count[level]; i++) if (p == q[level][i])
{ shift; [q[level][q_count[level]] = 0;] q_count[level]--; break; }`; the flag
`zero` tells whether the variant clears the vacated cell (`wait` and
`thread_join` do not). Returns the row and whether the slot was found. -/
def dequeue_loop (zero : Bool) (pidx : Nat) (cnt : Int) : Nat → Row → Int → Option (Row × Bool)
  | 0, row, _ => some (row, false)
  | n + 1, row, i =>
    match rd row i with
    | none => none
    | some e =>
      if e = some pidx then
        match shift_left (cnt - i).toNat row i with
        | none => none
        | some row1 =>
          if zero then
            match wr row1 cnt none with
            | none => none
            | some row2 => some (row2, true)
          else some (row1, true)
      else dequeue_loop zero pidx cnt n row (i + 1)

/-- Remove the slot `pidx` from `q[level]` the way the loops with `break` do. -/
def dequeue (zero : Bool) (s : Kernel) (pidx : Nat) (level : Int) : Option Kernel :=
  match s.q_count.get? level, s.q.get? level with
  | some cnt, some row =>
    match dequeue_loop zero pidx cnt (cnt + 1).toNat row 0 with
    | none => none
    | some (row1, found) =>
      some { s with q := s.q.set level row1,
                    q_count := s.q_count.set level (if found then cnt - 1 else cnt) }
  | _, _ => none

/-! ## wait and thread_join -/

/-- How one scan of `wait` / `thread_join` ends: the function returns `v`, or
the caller goes on to `sleep(curproc, &ptable.lock)`. -/
inductive ScanResult where
  | ret (v : Int)
  | block
deriving DecidableEq, Repr

/-- The slot scrubbing shared by `wait` (lines 613-634) and `thread_join`
(lines 1245-1265), without the queue and share updates. -/
def scrub (p : proc) : proc :=
  { p with kstack := none, pid := 0, parent := none, killed := 0, level := 0, ticks := 0,
           cpu_share := 0, stride := 0, pass := 0, is_LWP := 0, num_LWP := 0, all_LWP := 0,
           tid := -1, wtid := -1, state := procstate.UNUSED }

/-- Reclaim the ZOMBIE child in slot `i` (lines 599-634 of `wait`, 1229-1265 of
`thread_join`): dequeue it if `stride == 0`, credit its share, scrub it. -/
def reap (s : Kernel) (i : Nat) (p : proc) : Option Kernel :=
  match (if p.stride = 0 then dequeue false s i p.level else some s) with
  | none => none
  | some s1 =>
    let share1 := s1.mlfq_share + p.cpu_share
    match cdiv 10000 share1 with
    | none => none
    | some mstride =>
      some (setProc { s1 with mlfq_share := share1, mlfq_stride := mstride } i (scrub p))

/-- The table scan of `wait` from slot `i` on, `n` slots left: the reclaimed
child's pid and the new state, or `havekids` when no ZOMBIE child was found. -/
def wait_loop (cur : Nat) : Nat → Nat → Kernel → Bool → Option ((Option Int × Bool) × Kernel)
  | 0, _, s, havekids => some ((none, havekids), s)
  | n + 1, i, s, havekids =>
    match getProc s i with
    | none => none
    | some p =>
      if p.parent ≠ some cur then wait_loop cur n (i + 1) s havekids
      else if p.state = procstate.ZOMBIE then
        match reap s i p with
        | none => none
        | some s1 => some ((some p.pid, true), s1)
      else wait_loop cur n (i + 1) s true

/-- One pass of the `for(;;)` body of `wait` called by slot `cur`. -/
def wait_scan (s : Kernel) (cur : Nat) : Option (ScanResult × Kernel) :=
  match wait_loop cur s.ptable.length 0 s false with
  | none => none
  | some ((some pid, _), s1) => some (ScanResult.ret pid, s1)
  | some ((none, havekids), s1) =>
    match getProc s1 cur with
    | none => none
    | some curproc =>
      if havekids = false ∨ curproc.killed ≠ 0 then some (ScanResult.ret (-1), s1)
      else some (ScanResult.block, s1)

/-- The table scan of `thread_join` from slot `i` on, `n` slots left: the
joined thread's `retval` and the new state, or `havekids`. -/
def thread_join_loop (cur : Nat) (thread : Int) :
    Nat → Nat → Kernel → Bool → Option ((Option Int × Bool) × Kernel)
  | 0, _, s, havekids => some ((none, havekids), s)
  | n + 1, i, s, havekids =>
    match getProc s i with
    | none => none
    | some p =>
      if p.parent ≠ some cur then thread_join_loop cur thread n (i + 1) s havekids
      else if p.state = procstate.ZOMBIE ∧ p.tid = thread then
        match reap s i p with
        | none => none
        | some s1 => some ((some p.retval, true), s1)
      else thread_join_loop cur thread n (i + 1) s true

/-- The store `curproc->wtid = thread` and one pass of the `for(;;)` body of
`thread_join(thread, retval)` called by slot `cur`: how the pass ends, the
value stored through `retval` (if any) and the new state. -/
def thread_join_scan (s : Kernel) (cur : Nat) (thread : Int) :
    Option (ScanResult × Option Int × Kernel) :=
  match getProc s cur with
  | none => none
  | some c0 =>
    let s0 := setProc s cur { c0 with wtid := thread }
    match thread_join_loop cur thread s0.ptable.length 0 s0 false with
    | none => none
    | some ((some rv, _), s1) => some (ScanResult.ret 0, some rv, s1)
    | some ((none, havekids), s1) =>
      match getProc s1 cur with
      | none => none
      | some curproc =>
        if curproc.killed ≠ 0 ∨ havekids = false then some (ScanResult.ret (-1), none, s1)
        else some (ScanResult.block, none, s1)

/-! ## allocproc and thread_create -/

/-- The search `for(p = ptable.proc; ...) if(p->state == UNUSED) goto found;`:
index of the first UNUSED slot, counting from `i`. -/
def find_unused : List proc → Nat → Option Nat
  | [], _ => none
  | p :: ps, i => if p.state = procstate.UNUSED then some i else find_unused ps (i + 1)

/-- The function `allocproc`; `kalloc` is the result of the kernel-stack
allocation (`none` when `kalloc()` returns 0). Returns the new slot (`none`
for the null pointer) and the new state. -/
def allocproc (s : Kernel) (kalloc : Option Nat) : Option (Option Nat × Kernel) :=
  match find_unused s.ptable 0 with
  | none => some (none, s)
  | some i =>
    match getProc s i with
    | none => none
    | some p =>
      let c := s.q_count.a0 + 1
      match wr s.q.a0 c (some i) with
      | none => none
      | some row =>
        let p1 := { p with state := procstate.EMBRYO, pid := s.nextpid, level := 0, ticks := 0,
                           cpu_share := 0, stride := 0, pass := 0, is_LWP := 0, num_LWP := 0,
                           all_LWP := 0, tid := -1, wtid := -1 }
        let s1 := { setProc s i p1 with nextpid := s.nextpid + 1,
                                        q_count := s.q_count.set 0 c, q := s.q.set 0 row }
        match kalloc with
        | none => some (none, setProc s1 i { p1 with kstack := none, state := procstate.UNUSED })
        | some k => some (some i, setProc s1 i { p1 with kstack := some k })

/-- Modelled from the spec: the page size `PGSIZE` of the absent `mmu.h`. -/
def PGSIZE : Nat := 4096

/-- Modelled from the spec: `PGROUNDUP` of the absent `mmu.h`, "page-round up
the parent's `sz`". -/
def PGROUNDUP (sz : Nat) : Nat := (sz + PGSIZE - 1) / PGSIZE * PGSIZE

/-- The share split of `thread_create`, lines 1116-1127, for the parent slot
`par` (`np->parent`). -/
def share_split (s : Kernel) (par : Nat) : Option Kernel :=
  match getProc s par with
  | none => none
  | some pp =>
    if pp.cpu_share ≠ 0 then
      match cdiv pp.cpu_share pp.num_LWP with
      | none => none
      | some d =>
        let avg_share := d + 1
        match cdiv 10000 avg_share with
        | none => none
        | some st =>
          let s1 := setProc s par { pp with cpu_share := avg_share, stride := st }
          some { s1 with ptable := s1.ptable.map (fun p =>
            if p.parent = some par then
              { p with cpu_share := avg_share, stride := st, pass := pp.pass }
            else p) }
    else some s

/-- The function `thread_create` called by slot `cur`. The collaborators are
arguments: `kalloc` as in `allocproc`, `allocuvm old new` is the size returned
by `allocuvm(pgdir, old, new)` (0 on failure), `copyout_ok` tells whether
`copyout` succeeded. Returns the return value, the tid stored through
`thread` (if any) and the new state. -/
def thread_create (s : Kernel) (cur : Nat) (kalloc : Option Nat)
    (allocuvm : Nat → Nat → Nat) (copyout_ok : Bool) : Option (Int × Option Int × Kernel) :=
  match allocproc s kalloc with
  | none => none
  | some (none, s1) => some (-1, none, s1)
  | some (some np, s1) =>
    match getProc s1 cur with
    | none => none
    | some c0 =>
      let sz0 := PGROUNDUP c0.sz
      let sz1 := allocuvm sz0 (sz0 + 2 * PGSIZE)
      let s2 := setProc s1 cur { c0 with sz := sz1 }
      if sz1 = 0 then some (-1, none, s2)
      else
        match getProc s2 np with
        | none => none
        | some n0 =>
          let n1 := { n0 with is_LWP := 1, parent := some cur }
          let s3 := setProc s2 np n1
          match getProc s3 cur with
          | none => none
          | some c1 =>
            let s4 := setProc s3 cur { c1 with num_LWP := c1.num_LWP + 1 }
            match getProc s4 np with
            | none => none
            | some n2 =>
              let n3 := { n2 with tid := c1.num_LWP, all_LWP := n2.all_LWP + 1,
                                  pgdir := c1.pgdir, sz := sz1 }
              let s5 := setProc s4 np n3
              if copyout_ok = false then some (-1, some n3.tid, s5)
              else
                match getProc s5 np with
                | none => none
                | some n4 =>
                  let s6 := setProc s5 np { n4 with state := procstate.RUNNABLE }
                  match share_split s6 cur with
                  | none => none
                  | some s7 => some (0, some n3.tid, s7)

/-! ## Concrete states used to exercise the theorems -/

/-- A slot as zero-initialised static storage leaves it. -/
def proc.zero : proc :=
  { sz := 0, pgdir := none, kstack := none, state := procstate.UNUSED, pid := 0,
    parent := none, chan := none, killed := 0, level := 0, ticks := 0, cpu_share := 0,
    stride := 0, pass := 0, is_LWP := 0, num_LWP := 0, all_LWP := 0, tid := 0, wtid := 0,
    retval := 0 }

/-- A heavyweight MLFQ process at level 0 in the given state. -/
def mlfq_proc (pid : Int) (parent : Option Nat) (st : procstate) : proc :=
  { proc.zero with sz := 4096, pgdir := some 1, kstack := some 1, state := st, pid := pid,
                   parent := parent, tid := -1, wtid := -1 }

/-- Four slots (init, two more MLFQ processes, one free slot), all three
processes in `q[0]`, `mlfq_share == 100`; slot 1 is running. -/
def ex_mlfq : Kernel :=
  { ptable := [mlfq_proc 1 none procstate.RUNNABLE, mlfq_proc 2 (some 0) procstate.RUNNING,
               mlfq_proc 3 (some 0) procstate.RUNNABLE, proc.zero],
    initproc := some 0, nextpid := 4, mlfq_pass := 0, mlfq_stride := 100, mlfq_share := 100,
    totalticks := 0, q_count := ⟨2, -1, -1⟩,
    q := ⟨[some 0, some 1, some 2, none], [none, none, none, none], [none, none, none, none]⟩ }

/-- A process that reserved a share of 20 and is running (slot 1), with a
ZOMBIE Stride child holding a share of 20 (slot 2); `mlfq_share == 60`. -/
def ex_zombie : Kernel :=
  { ptable := [mlfq_proc 1 none procstate.RUNNABLE,
               { mlfq_proc 2 (some 0) procstate.RUNNING with
                   cpu_share := 20, stride := 500, pass := 1000 },
               { mlfq_proc 3 (some 1) procstate.ZOMBIE with
                   cpu_share := 20, stride := 500, pass := 0 },
               proc.zero],
    initproc := some 0, nextpid := 4, mlfq_pass := 1000, mlfq_stride := 166, mlfq_share := 60,
    totalticks := 0, q_count := ⟨0, -1, -1⟩,
    q := ⟨[some 0, none, none, none], [none, none, none, none], [none, none, none, none]⟩ }

/-- An MLFQ process (slot 1, running) with one live thread (slot 2, tid 0). -/
def ex_thread : Kernel :=
  { ptable := [mlfq_proc 1 none procstate.RUNNABLE,
               { mlfq_proc 2 (some 0) procstate.RUNNING with num_LWP := 1 },
               { mlfq_proc 3 (some 1) procstate.RUNNABLE with is_LWP := 1, tid := 0 },
               proc.zero],
    initproc := some 0, nextpid := 4, mlfq_pass := 0, mlfq_stride := 100, mlfq_share := 100,
    totalticks := 0, q_count := ⟨2, -1, -1⟩,
    q := ⟨[some 0, some 1, some 2, none], [none, none, none, none], [none, none, none, none]⟩ }

/-- A Stride process (slot 1, running, share 20) that has forked a
heavyweight MLFQ child (slot 2, `is_LWP == 0`); slot 3 is free. -/
def ex_stride_fork : Kernel :=
  { ptable := [mlfq_proc 1 none procstate.RUNNABLE,
               { mlfq_proc 2 (some 0) procstate.RUNNING with
                   cpu_share := 20, stride := 500, pass := 1000 },
               mlfq_proc 3 (some 1) procstate.RUNNABLE,
               proc.zero],
    initproc := some 0, nextpid := 4, mlfq_pass := 1000, mlfq_stride := 125, mlfq_share := 80,
    totalticks := 0, q_count := ⟨1, -1, -1⟩,
    q := ⟨[some 0, some 2, none, none], [none, none, none, none], [none, none, none, none]⟩ }

/-! ## Executions of the scheduler loop -/

/-- What happens between two scheduler decisions, as far as the Stride slot
`b` is concerned: whatever ran in between (the chosen process up to its
`yield`, the rest of an MLFQ turn) has left `mlfq_pass`, `mlfq_stride` and the
share fields of `b` alone, `b` is RUNNABLE again, and no other slot has a
share. -/
def stride_undisturbed (b : Nat) (s s1 : Kernel) : Prop :=
  s1.mlfq_pass = s.mlfq_pass ∧ s1.mlfq_stride = s.mlfq_stride ∧
  (∀ p, s.ptable[b]? = some p →
    ∃ p1, s1.ptable[b]? = some p1 ∧ p1.state = procstate.RUNNABLE ∧
      p1.cpu_share = p.cpu_share ∧ p1.stride = p.stride ∧ p1.pass = p.pass) ∧
  (∀ (j : Nat) (p1 : proc), j ≠ b → s1.ptable[j]? = some p1 → p1.cpu_share = 0)

/-- Number of decisions among the `n` consecutive ones starting with the
`k`-th of the execution `tr` (the state before each decision) in which the
Stride slot `b` is chosen. -/
def stride_wins (tr : Nat → Kernel) (b k : Nat) : Nat → Nat
  | 0 => 0
  | n + 1 => stride_wins tr b k n +
      (if (scheduler_decide (tr (k + n))).1 = some b then 1 else 0)

/-- `ex_mlfq` after the process in slot 1 has reserved a share of 20. -/
def ex_admitted : Kernel :=
  match set_cpu_share ex_mlfq 1 20 with
  | some (_, s1) => s1
  | none => ex_mlfq

/-- One round of an execution in which the chosen Stride process yields at
once and an MLFQ turn leaves the table alone. -/
def ex_round (s : Kernel) : Kernel :=
  match scheduler_decide s with
  | (some i, s1) => (yield s1 i).getD s1
  | (none, s1) => s1

/-- An execution that starts when the process in slot 1 of `ex_admitted`
yields for the first time. -/
def ex_trace : Nat → Kernel
  | 0 => (yield ex_admitted 1).getD ex_admitted
  | k + 1 => ex_round (ex_trace k)

/-- The state `ex_mlfq` after 21,474,836 scheduler decisions that all went to
the MLFQ: `mlfq_pass` has grown from 0 to 2,147,483,600 in steps of
`mlfq_stride == 100`. -/
def ex_mlfq_late : Kernel := { ex_mlfq with mlfq_pass := 2147483600 }

/-- `ex_mlfq_late` after the process in slot 1 has reserved a share of 20. -/
def ex_late_admitted : Kernel :=
  match set_cpu_share ex_mlfq_late 1 20 with
  | some (_, s1) => s1
  | none => ex_mlfq_late

/-- The execution of `ex_trace`, started from the late admission
`ex_late_admitted`. -/
def ex_late_trace : Nat → Kernel
  | 0 => (yield ex_late_admitted 1).getD ex_late_admitted
  | k + 1 => ex_round (ex_late_trace k)

/-- The part of the state one decision of the scenario reads: slot `b` is
RUNNABLE with share 20 and stride 500, its pass is `d` ahead of `mlfq_pass`,
`mlfq_stride == 125` and no other slot has a share. -/
def ahead (b : Nat) (d : Int) (t : Kernel) : Prop :=
  t.mlfq_stride = 125 ∧
  (∃ p, t.ptable[b]? = some p ∧ p.state = procstate.RUNNABLE ∧ p.cpu_share = 20 ∧
    p.stride = 500 ∧ p.pass = t.mlfq_pass + d) ∧
  (∀ (j : Nat) (p1 : proc), j ≠ b → t.ptable[j]? = some p1 → p1.cpu_share = 0)

/-- The lead of the Stride pass over `mlfq_pass` before decision `k`. -/
def lead (k : Nat) : Int :=
  if k % 5 = 0 then 0 else 625 - 125 * (k % 5 : Nat)

/-! ## A CPU-bound process under the timer -/

/-- Modelled from the spec: the timer-tick driver of the absent `trap.c`, which
"increments a per-process tick counter and a global boost counter, then calls
`yield`"; used as the body of a CPU-bound process that runs for one tick. -/
def tick_yield : Body := fun pidx s =>
  match getProc s pidx with
  | none => s
  | some p =>
    let s1 := setProc { s with totalticks := s.totalticks + 1 } pidx
      { p with ticks := p.ticks + 1 }
    (yield s1 pidx).getD s1

/-- One iteration of the `for(;;)` loop of `scheduler`: the decision, then
either the chosen Stride process runs or the MLFQ turn takes place. -/
def scheduler_iter (body : Body) (fuel : Nat) (s : Kernel) : Outcome Kernel :=
  match scheduler_decide s with
  | (some i, s1) => Outcome.done (body i s1)
  | (none, s1) =>
    match mlfq_turn body fuel s1 with
    | Outcome.done (s2, _) => Outcome.done s2
    | Outcome.fault => Outcome.fault
    | Outcome.timeout => Outcome.timeout

/-- The first `n` iterations of the scheduler loop. -/
def run_scheduler (body : Body) (fuel : Nat) : Nat → Kernel → Outcome Kernel
  | 0, s => Outcome.done s
  | n + 1, s =>
    match scheduler_iter body fuel s with
    | Outcome.done s1 => run_scheduler body fuel n s1
    | Outcome.fault => Outcome.fault
    | Outcome.timeout => Outcome.timeout

/-- The level and tick count of slot `i` in a finished run. -/
def level_ticks_of (o : Outcome Kernel) (i : Nat) : Option (Int × Int) :=
  match o with
  | Outcome.done s => (getProc s i).map (fun p => (p.level, p.ticks))
  | _ => none

/-- A system whose only process is RUNNABLE at level 0 with no ticks used. -/
def ex_sole : Kernel :=
  { ptable := [mlfq_proc 1 none procstate.RUNNABLE, proc.zero],
    initproc := some 0, nextpid := 2, mlfq_pass := 0, mlfq_stride := 100, mlfq_share := 100,
    totalticks := 0, q_count := ⟨0, -1, -1⟩,
    q := ⟨[some 0, none], [none, none], [none, none]⟩ }

/-- Slot 1 of a four-slot system has just run from `q[0][1]` and used up its
allotment of 5 ticks; slot 2 already sits in `q[1]`. -/
def ex_used_up : Kernel :=
  { ptable := [mlfq_proc 1 none procstate.RUNNABLE,
               { mlfq_proc 2 (some 0) procstate.RUNNABLE with ticks := 5 },
               { mlfq_proc 3 (some 0) procstate.RUNNABLE with level := 1 },
               mlfq_proc 4 (some 0) procstate.RUNNABLE],
    initproc := some 0, nextpid := 5, mlfq_pass := 0, mlfq_stride := 100, mlfq_share := 100,
    totalticks := 5, q_count := ⟨2, 0, -1⟩,
    q := ⟨[some 0, some 1, some 3, none], [some 2, none, none, none],
          [none, none, none, none]⟩ }

/-- The two stores `p->level = 0; p->ticks = 0;` of the boosting loops. -/
def boosted (p : proc) : proc := { p with level := 0, ticks := 0 }

/-- Four MLFQ processes, one at level 0, two at level 1 and one at level 2,
with 100 ticks on the boost counter. -/
def ex_boost : Kernel :=
  { ptable := [mlfq_proc 1 none procstate.RUNNABLE,
               { mlfq_proc 2 (some 0) procstate.RUNNABLE with level := 1, ticks := 3 },
               { mlfq_proc 3 (some 0) procstate.RUNNABLE with level := 1, ticks := 7 },
               { mlfq_proc 4 (some 0) procstate.RUNNABLE with level := 2, ticks := 40 }],
    initproc := some 0, nextpid := 5, mlfq_pass := 0, mlfq_stride := 100, mlfq_share := 100,
    totalticks := 100, q_count := ⟨0, 1, 0⟩,
    q := ⟨[some 0, none, none, none], [some 1, some 2, none, none],
          [some 3, none, none, none]⟩ }

/-- The slots of the table `ps` (whose head is slot `i`) that `wakeup1(chan)`
puts back into `q[0]`: SLEEPING on `chan` with `stride == 0`, in table order. -/
def woken_mlfq (chan : Option Chan) : List proc → Nat → List Nat
  | [], _ => []
  | p :: ps, i =>
    if p.state = procstate.SLEEPING ∧ p.chan = chan ∧ p.stride = 0 then
      i :: woken_mlfq chan ps (i + 1)
    else woken_mlfq chan ps (i + 1)

/-- Slot 1 sleeps on channel 7 (and is in no queue); slots 2 and 3 are in
`q[0]`. -/
def ex_sleeper : Kernel :=
  { ptable := [mlfq_proc 1 none procstate.RUNNING,
               { mlfq_proc 2 (some 0) procstate.SLEEPING with
                   chan := some (Chan.addr 7), level := 1, ticks := 4 },
               mlfq_proc 3 (some 0) procstate.RUNNABLE,
               mlfq_proc 4 (some 0) procstate.RUNNABLE],
    initproc := some 0, nextpid := 5, mlfq_pass := 0, mlfq_stride := 100, mlfq_share := 100,
    totalticks := 0, q_count := ⟨1, -1, -1⟩,
    q := ⟨[some 2, some 3, none, none], [none, none, none, none],
          [none, none, none, none]⟩ }

/-! ## sleep, kill, thread_exit and exit -/

/-- The part of `sleep(chan, lk)` before `sched()` (lines 916-935), called by
slot `cur`: leave the MLFQ queue or reset the Stride pass, then
`p->chan = chan; p->state = SLEEPING`. -/
def sleep (s : Kernel) (cur : Nat) (chan : Option Chan) : Option Kernel :=
  match getProc s cur with
  | none => none
  | some p =>
    match (if p.stride = 0 then dequeue true s cur p.level
           else some (setProc s cur { p with pass := 0 })) with
    | none => none
    | some s1 =>
      match getProc s1 cur with
      | none => none
      | some p1 => some (setProc s1 cur { p1 with chan := chan, state := procstate.SLEEPING })

/-- The table scan of `kill(pid)` over the table `ps` whose head is slot `i`:
the first slot with that pid gets `killed = 1` and, if SLEEPING, becomes
RUNNABLE. -/
def kill_loop (pid : Int) : List proc → Nat → Kernel → Option Kernel
  | [], _, _ => none
  | p :: ps, i, s =>
    if p.pid = pid then
      some (setProc s i { p with
        killed := 1,
        state := (if p.state = procstate.SLEEPING then procstate.RUNNABLE else p.state) })
    else kill_loop pid ps (i + 1) s

/-- The function `kill(pid)`: the return value and the new state. -/
def kill (s : Kernel) (pid : Int) : Int × Kernel :=
  match kill_loop pid s.ptable 0 s with
  | some s1 => (0, s1)
  | none => (-1, s)

/-- A process pointer used as a wait channel. -/
def chan_of (ptr : Option Nat) : Option Chan := ptr.map Chan.slot

/-- The loop "Pass abandoned children to init" of `exit` (lines 303-309) and
`thread_exit` (lines 1169-1175), from slot `i` on, `n` slots left. -/
def reparent_loop (cur : Nat) : Nat → Nat → Kernel → Option Kernel
  | 0, _, s => some s
  | n + 1, i, s =>
    match getProc s i with
    | none => none
    | some p =>
      if p.parent = some cur then
        let s1 := setProc s i { p with parent := s.initproc }
        if p.state = procstate.ZOMBIE then
          match wakeup1 s1 (chan_of s.initproc) with
          | none => none
          | some s2 => reparent_loop cur n (i + 1) s2
        else reparent_loop cur n (i + 1) s1
      else reparent_loop cur n (i + 1) s

/-- The end of every exit path: `curproc->state = ZOMBIE`, then leave the MLFQ
queue (`stride == 0`) or reset the Stride pass. -/
def become_zombie (s : Kernel) (i : Nat) : Option Kernel :=
  match getProc s i with
  | none => none
  | some p =>
    let s1 := setProc s i { p with state := procstate.ZOMBIE }
    if p.stride = 0 then dequeue true s1 i p.level
    else some (setProc s1 i { p with state := procstate.ZOMBIE, pass := 0 })

/-- The function `thread_exit(retval)` called by slot `cur`, up to `sched()`.
The `panic` for `initproc` is modelled like a fault. -/
def thread_exit (s : Kernel) (cur : Nat) (retval : Int) : Option Kernel :=
  if some cur = s.initproc then none
  else
    match getProc s cur with
    | none => none
    | some c =>
      match wakeup1 s (chan_of c.parent) with
      | none => none
      | some s1 =>
        match reparent_loop cur s1.ptable.length 0 s1 with
        | none => none
        | some s2 =>
          match getProc s2 cur with
          | none => none
          | some c2 =>
            let s3 := setProc s2 cur { c2 with state := procstate.ZOMBIE, retval := retval }
            if c2.stride = 0 then dequeue true s3 cur c2.level
            else some (setProc s3 cur
              { c2 with state := procstate.ZOMBIE, retval := retval, pass := 0 })

/-- The dismantling of one thread in slot `i` by `exit` (lines 355-398 and
460-498): `p->parent->num_LWP--`, the slot is freed, taken out of its queue
(or its pass reset), its share credited to `mlfq_share`, its fields reset. -/
def dismantle (s : Kernel) (i : Nat) : Option Kernel :=
  match getProc s i with
  | none => none
  | some p =>
    match p.parent with
    | none => none
    | some par =>
      match getProc s par with
      | none => none
      | some pp =>
        let s1 := setProc s par { pp with num_LWP := pp.num_LWP - 1 }
        match getProc s1 i with
        | none => none
        | some p1 =>
          let p2 := { p1 with kstack := none, pid := 0, parent := none, killed := 0,
                              state := procstate.UNUSED }
          let s2 := setProc s1 i p2
          match (if p2.stride = 0 then dequeue true s2 i p2.level
                 else some (setProc s2 i { p2 with pass := 0 })) with
          | none => none
          | some s3 =>
            match getProc s3 i with
            | none => none
            | some p3 =>
              let share1 := s3.mlfq_share + p3.cpu_share
              match cdiv 10000 share1 with
              | none => none
              | some mstride =>
                some (setProc { s3 with mlfq_share := share1, mlfq_stride := mstride } i
                  { p3 with level := 0, ticks := 0, cpu_share := 0, stride := 0, pass := 0,
                            is_LWP := 0, num_LWP := 0, all_LWP := 0, tid := -1, wtid := -1 })

/-- The loop of `exit` over the threads of the process `cur` (lines 336-399),
from slot `i` on, `n` slots left. -/
def exit_threads_loop (cur : Nat) : Nat → Nat → Kernel → Option Kernel
  | 0, _, s => some s
  | n + 1, i, s =>
    match getProc s i with
    | none => none
    | some p =>
      if p.parent = some cur ∧ p.is_LWP ≠ 0 then
        match dismantle s i with
        | none => none
        | some s1 => exit_threads_loop cur n (i + 1) s1
      else exit_threads_loop cur n (i + 1) s

/-- The loop of `exit` called by the thread `cur` over its peers (lines
444-499), from slot `i` on, `n` slots left. -/
def exit_peers_loop (cur : Nat) : Nat → Nat → Kernel → Option Kernel
  | 0, _, s => some s
  | n + 1, i, s =>
    match getProc s i, getProc s cur with
    | some p, some c =>
      if p.parent = c.parent ∧ p.is_LWP ≠ 0 ∧ i ≠ cur then
        match dismantle s i with
        | none => none
        | some s1 => exit_peers_loop cur n (i + 1) s1
      else exit_peers_loop cur n (i + 1) s
    | _, _ => none

/-- The function `exit` called by slot `cur`, up to `sched()`; `deallocuvm old
new` is the size returned by `deallocuvm(pgdir, old, new)`. The `panic` for
`initproc` is modelled like a fault. -/
def exit (s : Kernel) (cur : Nat) (deallocuvm : Nat → Nat → Nat) : Option Kernel :=
  if some cur = s.initproc then none
  else
    match getProc s cur with
    | none => none
    | some c =>
      if c.is_LWP = 0 ∧ c.num_LWP = 0 then
        -- a process without threads
        match wakeup1 s (chan_of c.parent) with
        | none => none
        | some s1 =>
          match reparent_loop cur s1.ptable.length 0 s1 with
          | none => none
          | some s2 => become_zombie s2 cur
      else if c.is_LWP = 0 then
        -- a process with threads
        match exit_threads_loop cur s.ptable.length 0 s with
        | none => none
        | some s1 =>
          match getProc s1 cur with
          | none => none
          | some c1 =>
            match wakeup1 s1 (chan_of c1.parent) with
            | none => none
            | some s2 => become_zombie s2 cur
      else
        -- a thread
        match c.parent with
        | none => none
        | some parent =>
          match exit_peers_loop cur s.ptable.length 0 s with
          | none => none
          | some s1 =>
            match getProc s1 parent with
            | none => none
            | some pp =>
              let pp1 := { pp with num_LWP := pp.num_LWP - 1 }
              let pp2 :=
                if pp1.num_LWP = 0 ∧ pp1.all_LWP ≠ 0 then
                  { pp1 with
                    sz := deallocuvm pp1.sz
                      (((pp1.sz : Int) - (pp1.all_LWP - 1) * 2 * PGSIZE) % 2 ^ 32).toNat,
                    all_LWP := 0 }
                else pp1
              let s2 := setProc s1 parent pp2
              match getProc s2 cur with
              | none => none
              | some c2 =>
                let s3 := setProc s2 cur { c2 with parent := some cur }
                match become_zombie s3 cur with
                | none => none
                | some s4 =>
                  match getProc s4 parent with
                  | none => none
                  | some pp3 =>
                    match wakeup1 s4 (chan_of pp3.parent) with
                    | none => none
                    | some s5 => become_zombie s5 parent

/-! ## Queue membership predicates and further concrete states -/

/-- The used entries of the three level queues, one after the other. -/
def all_queues (s : Kernel) : List (Option Nat) := qlist s 0 ++ qlist s 1 ++ qlist s 2

/-- Every RUNNABLE slot with `cpu_share == 0` occurs exactly once in the level
queues. -/
def runnable_mlfq_queued (s : Kernel) : Bool :=
  (List.range s.ptable.length).all (fun i =>
    match s.ptable[i]? with
    | some p =>
      if p.state = procstate.RUNNABLE ∧ p.cpu_share = 0 then
        (all_queues s).count (some i) == 1
      else true
    | none => true)

/-- Every slot with `cpu_share > 0` occurs in none of the level queues. -/
def stride_unqueued (s : Kernel) : Bool :=
  (List.range s.ptable.length).all (fun i =>
    match s.ptable[i]? with
    | some p => if p.cpu_share > 0 then !(all_queues s).contains (some i) else true
    | none => true)

/-- A Stride process (slot 1, running, share 20, in no queue) beside init and
two free slots; `mlfq_share == 80`. -/
def ex_stride : Kernel :=
  { ptable := [mlfq_proc 1 none procstate.RUNNABLE,
               { mlfq_proc 2 (some 0) procstate.RUNNING with
                   cpu_share := 20, stride := 500, pass := 1000 },
               proc.zero, proc.zero],
    initproc := some 0, nextpid := 3, mlfq_pass := 1000, mlfq_stride := 125, mlfq_share := 80,
    totalticks := 0, q_count := ⟨0, -1, -1⟩,
    q := ⟨[some 0, none, none, none], [none, none, none, none], [none, none, none, none]⟩ }

/-- A thread group: init (slot 0) is the parent of the process in slot 1, which
has three live threads in slots 2, 3 and 4 (tids 0, 1, 2); the thread in slot 2
is running. Slot 5 is free. -/
def ex_group : Kernel :=
  { ptable := [mlfq_proc 1 none procstate.RUNNABLE,
               { mlfq_proc 2 (some 0) procstate.RUNNABLE with num_LWP := 3 },
               { mlfq_proc 3 (some 1) procstate.RUNNING with is_LWP := 1, tid := 0 },
               { mlfq_proc 4 (some 1) procstate.RUNNABLE with is_LWP := 1, tid := 1 },
               { mlfq_proc 5 (some 1) procstate.RUNNABLE with is_LWP := 1, tid := 2 },
               proc.zero],
    initproc := some 0, nextpid := 6, mlfq_pass := 0, mlfq_stride := 100, mlfq_share := 100,
    totalticks := 0, q_count := ⟨4, -1, -1⟩,
    q := ⟨[some 0, some 1, some 2, some 3, some 4, none],
          [none, none, none, none, none, none], [none, none, none, none, none, none]⟩ }

/-- The states of all slots. -/
def states_of (s : Kernel) : List procstate := s.ptable.map (fun p => p.state)

/-- The slots switched into by a finished MLFQ turn. -/
def ran_of (o : Outcome (Kernel × List Nat)) : Option (List Nat) :=
  match o with
  | Outcome.done (_, ran) => some ran
  | _ => none

/-- The sequence of claim C11 on a concrete state: slot `cur` creates a thread
(all allocations succeed), the new thread in slot `th` calls `thread_exit(42)`,
then `cur` joins tid 0. -/
def ex_round_trip (s : Kernel) (cur th : Nat) : Option (ScanResult × Option Int × Kernel) :=
  match thread_create s cur (some 7) (fun _ n => n) true with
  | some (0, some 0, s1) =>
    match thread_exit s1 th 42 with
    | some s2 => thread_join_scan s2 cur 0
    | none => none
  | _ => none

/-- The sequence of claim C13 on `ex_group`: the thread in slot 2 calls `exit`,
then init (slot 0) calls `wait`. -/
def ex_group_exit : Option (ScanResult × Kernel) :=
  match exit ex_group 2 (fun _ n => n) with
  | some s1 => wait_scan s1 0
  | none => none

/-! ## Share accounting: invariants and executions -/

/-- A slot that holds a process which can still run: neither UNUSED nor
ZOMBIE. -/
def live (st : procstate) : Prop := st ≠ procstate.UNUSED ∧ st ≠ procstate.ZOMBIE

/-- The `cpu_share` of every slot, in table order. -/
def shares (s : Kernel) : List Int := s.ptable.map (fun p => p.cpu_share)

/-- The sum of `cpu_share` over all slots. -/
def total_share (s : Kernel) : Int := (shares s).sum

/-- The sum of `cpu_share` over the Stride slots (`cpu_share > 0`) that are
RUNNABLE or RUNNING. -/
def stride_load (s : Kernel) : Int :=
  ((s.ptable.filter (fun p => decide (0 < p.cpu_share ∧
      (p.state = procstate.RUNNABLE ∨ p.state = procstate.RUNNING)))).map
    (fun p => p.cpu_share)).sum

/-- What an operation that does no share accounting leaves alone in a slot:
`cpu_share` and `num_LWP`; and it does not revive a dead slot. -/
def slot_kept (p p1 : proc) : Prop :=
  p1.cpu_share = p.cpu_share ∧ p1.num_LWP = p.num_LWP ∧ (live p1.state → live p.state)

/-- The relation between the states before and after an operation that does
no share accounting (wakeup1, the dequeue loops, the reparenting loop, ...). -/
def neutral (s s1 : Kernel) : Prop :=
  s1.mlfq_share = s.mlfq_share ∧ s1.mlfq_stride = s.mlfq_stride ∧
  s1.ptable.length = s.ptable.length ∧
  ∀ (i : Nat) (p p1 : proc), s.ptable[i]? = some p → s1.ptable[i]? = some p1 → slot_kept p p1

/-- The invariant behind `mlfq_share >= 20`: besides the bound and the derived
stride, no slot has a negative share, and no live slot outside `X` has a
negative thread count. -/
def share_inv (X : Nat → Prop) (s : Kernel) : Prop :=
  20 ≤ s.mlfq_share ∧ s.mlfq_stride = 10000 / s.mlfq_share ∧
  ∀ (i : Nat) (p : proc), s.ptable[i]? = some p →
    0 ≤ p.cpu_share ∧ (¬ X i → live p.state → 0 ≤ p.num_LWP)

/-- The invariant behind the bound of 100 on the reserved shares. -/
def total_inv (s : Kernel) : Prop :=
  s.mlfq_share + total_share s ≤ 100 ∧
  ∀ (i : Nat) (p : proc), s.ptable[i]? = some p → 0 ≤ p.cpu_share

/-- The state `ex_admitted` after the Stride process in slot 1 has called `exit`. -/
def ex_exited : Kernel :=
  match exit ex_admitted 1 (fun _ n => n) with
  | some s1 => s1
  | none => ex_admitted

/-- The state `ex_exited` after init (slot 0) has called `wait`. -/
def ex_reaped : Kernel :=
  match wait_scan ex_exited 0 with
  | some (_, s1) => s1
  | none => ex_exited

/-- The relation between the states before and after an operation that does
no share accounting but may also allocate slots: every slot keeps its
`cpu_share` or has it reset to 0, and every slot outside `X` keeps its
`num_LWP` (and is not revived) or has it reset to 0. -/
def quiet (X : Nat → Prop) (s s1 : Kernel) : Prop :=
  s1.mlfq_share = s.mlfq_share ∧ s1.mlfq_stride = s.mlfq_stride ∧
  s1.ptable.length = s.ptable.length ∧
  ∀ (i : Nat) (p p1 : proc), s.ptable[i]? = some p → s1.ptable[i]? = some p1 →
    (p1.cpu_share = p.cpu_share ∨ p1.cpu_share = 0) ∧
    (¬ X i → (p1.num_LWP = p.num_LWP ∧ (live p1.state → live p.state)) ∨ p1.num_LWP = 0)

/-- The relation between the states before and after the reclaiming of slot
`i` (in `wait`, `thread_join` and the loops of `exit`): its `cpu_share` is
credited to `mlfq_share`, `mlfq_stride` is recomputed, the slot is UNUSED with
no share; the other slots keep their share and state, and those outside `X`
their `num_LWP`. -/
def credit (X : Nat → Prop) (i : Nat) (s s1 : Kernel) : Prop :=
  ∃ p, s.ptable[i]? = some p ∧
    s1.mlfq_share = s.mlfq_share + p.cpu_share ∧ s1.mlfq_share ≠ 0 ∧
    s1.mlfq_stride = Int.tdiv 10000 s1.mlfq_share ∧
    s1.ptable.length = s.ptable.length ∧
    (∃ p1, s1.ptable[i]? = some p1 ∧ p1.cpu_share = 0 ∧ p1.state = procstate.UNUSED) ∧
    ∀ (j : Nat) (q q1 : proc), j ≠ i → s.ptable[j]? = some q → s1.ptable[j]? = some q1 →
      q1.cpu_share = q.cpu_share ∧ q1.state = q.state ∧ q1.parent = q.parent ∧
      (¬ X j → q1.num_LWP = q.num_LWP)

/-- A sequence of `quiet` and `credit` stages. -/
inductive chain (X : Nat → Prop) : Kernel → Kernel → Prop where
  | refl (s : Kernel) : chain X s s
  | quiet {s s1 s2 : Kernel} : quiet X s s1 → chain X s1 s2 → chain X s s2
  | credit {s s1 s2 : Kernel} (i : Nat) : credit X i s s1 → chain X s1 s2 → chain X s s2

/-- The state at boot: the initialisers `mlfq_stride = (int)(10000 / 100)`,
`mlfq_share = 100`, and a zero-initialised process table. -/
def boot (s : Kernel) : Prop :=
  s.mlfq_share = 100 ∧ s.mlfq_stride = 100 ∧ ∀ p ∈ s.ptable, p = proc.zero

/-- One operation of a sequential execution. The five operations that change
shares are the functions of the source, called by a slot `cur`; `thread_create`
is called by a RUNNING slot. Every other kernel operation (scheduling, sleep,
wakeup, kill, fork, ...) is a `quiet` stage. With `restricted`, `set_cpu_share`
is only called by a process without threads and `thread_create` only by a
process without a share. -/
inductive share_step (restricted : Bool) : Kernel → Kernel → Prop where
  | set_cpu_share (s s1 : Kernel) (cur : Nat) (p : proc) (share r : Int) :
      getProc s cur = some p → (restricted = true → p.num_LWP = 0) →
      Xv6.set_cpu_share s cur share = some (r, s1) → share_step restricted s s1
  | thread_create (s s1 : Kernel) (cur : Nat) (p : proc) (kalloc : Option Nat)
      (allocuvm : Nat → Nat → Nat) (copyout_ok : Bool) (r : Int) (tid : Option Int) :
      getProc s cur = some p → p.state = procstate.RUNNING →
      (restricted = true → p.cpu_share = 0) →
      Xv6.thread_create s cur kalloc allocuvm copyout_ok = some (r, tid, s1) →
      share_step restricted s s1
  | wait (s s1 : Kernel) (cur : Nat) (r : ScanResult) :
      wait_scan s cur = some (r, s1) → share_step restricted s s1
  | thread_join (s s1 : Kernel) (cur : Nat) (thread : Int) (r : ScanResult)
      (rv : Option Int) :
      thread_join_scan s cur thread = some (r, rv, s1) → share_step restricted s s1
  | exit (s s1 : Kernel) (cur : Nat) (deallocuvm : Nat → Nat → Nat) :
      Xv6.exit s cur deallocuvm = some s1 → share_step restricted s s1
  | other (s s1 : Kernel) : quiet (fun _ => False) s s1 → share_step restricted s s1

/-- The states of the sequential executions that start at boot. -/
inductive reachable (restricted : Bool) : Kernel → Prop where
  | start (s : Kernel) : boot s → reachable restricted s
  | step (s s1 : Kernel) : reachable restricted s → share_step restricted s s1 →
      reachable restricted s1

/-- The state at boot with four slots. -/
def ex_boot : Kernel :=
  { ptable := [proc.zero, proc.zero, proc.zero, proc.zero],
    initproc := none, nextpid := 1, mlfq_pass := 0, mlfq_stride := 100, mlfq_share := 100,
    totalticks := 0, q_count := ⟨-1, -1, -1⟩,
    q := ⟨[none, none, none, none], [none, none, none, none], [none, none, none, none]⟩ }

/-- The relation between the states before and after a `thread_create` called
by a slot that held `c`: every slot keeps its `cpu_share`, has it reset to 0
(the new slot) or gets the split share `c.cpu_share / (c.num_LWP + 1) + 1`;
every slot has `num_LWP == 0` (the new slot) or keeps it or has it incremented
(the caller) and is not revived. -/
def spawn_rel (c : proc) (s s1 : Kernel) : Prop :=
  s1.mlfq_share = s.mlfq_share ∧ s1.mlfq_stride = s.mlfq_stride ∧
  s1.ptable.length = s.ptable.length ∧
  ∀ (j : Nat) (q q1 : proc), s.ptable[j]? = some q → s1.ptable[j]? = some q1 →
    (q1.cpu_share = q.cpu_share ∨ q1.cpu_share = 0 ∨
      (c.cpu_share ≠ 0 ∧ q1.cpu_share = Int.tdiv c.cpu_share (c.num_LWP + 1) + 1)) ∧
    (q1.num_LWP = 0 ∨ ((live q1.state → live q.state) ∧
      (q1.num_LWP = q.num_LWP ∨ q1.num_LWP = q.num_LWP + 1)))

/-! ## fork, and the concrete states of the last claims -/

/-- The function `fork` called by slot `cur` (lines 224-267). The
collaborators are arguments: `kalloc` as in `allocproc`, `copyuvm` is the page
directory returned by `copyuvm` (`none` when it returns 0). Returns the return
value and the new state. -/
def fork (s : Kernel) (cur : Nat) (kalloc copyuvm : Option Nat) : Option (Int × Kernel) :=
  match allocproc s kalloc with
  | none => none
  | some (none, s1) => some (-1, s1)
  | some (some np, s1) =>
    match getProc s1 np with
    | none => none
    | some n0 =>
      match copyuvm with
      | none =>
        some (-1, setProc s1 np
          { n0 with pgdir := none, kstack := none, state := procstate.UNUSED })
      | some pg =>
        match getProc s1 cur with
        | none => none
        | some c =>
          some (n0.pid, setProc s1 np
            { n0 with pgdir := some pg, sz := c.sz, parent := some cur,
                      state := procstate.RUNNABLE })

/-- The parent pointers of all slots. -/
def parents_of (s : Kernel) : List (Option Nat) := s.ptable.map (fun p => p.parent)

/-- A heavyweight process without threads (slot 1, running) that has forked a
heavyweight child (slot 2); init is slot 0, slot 3 is free. -/
def ex_child : Kernel :=
  { ptable := [mlfq_proc 1 none procstate.RUNNABLE, mlfq_proc 2 (some 0) procstate.RUNNING,
               mlfq_proc 3 (some 1) procstate.RUNNABLE, proc.zero],
    initproc := some 0, nextpid := 4, mlfq_pass := 0, mlfq_stride := 100, mlfq_share := 100,
    totalticks := 0, q_count := ⟨2, -1, -1⟩,
    q := ⟨[some 0, some 1, some 2, none], [none, none, none, none], [none, none, none, none]⟩ }

/-- A heavyweight process (slot 1, running) with one live thread (slot 2) and
one forked heavyweight child (slot 3); init is slot 0, slot 4 is free. -/
def ex_family : Kernel :=
  { ptable := [mlfq_proc 1 none procstate.RUNNABLE,
               { mlfq_proc 2 (some 0) procstate.RUNNING with num_LWP := 1 },
               { mlfq_proc 3 (some 1) procstate.RUNNABLE with is_LWP := 1, tid := 0 },
               mlfq_proc 4 (some 1) procstate.RUNNABLE, proc.zero],
    initproc := some 0, nextpid := 5, mlfq_pass := 0, mlfq_stride := 100, mlfq_share := 100,
    totalticks := 0, q_count := ⟨3, -1, -1⟩,
    q := ⟨[some 0, some 1, some 2, some 3, none], [none, none, none, none, none],
          [none, none, none, none, none]⟩ }

/-- Init (slot 0) and a heavyweight MLFQ process without threads (slot 1,
running, `sz` one page, `all_LWP == 0`); slots 2 and 3 are free. -/
def ex_two_free : Kernel :=
  { ptable := [mlfq_proc 1 none procstate.RUNNABLE, mlfq_proc 2 (some 0) procstate.RUNNING,
               proc.zero, proc.zero],
    initproc := some 0, nextpid := 3, mlfq_pass := 0, mlfq_stride := 100, mlfq_share := 100,
    totalticks := 0, q_count := ⟨1, -1, -1⟩,
    q := ⟨[some 0, some 1, none, none], [none, none, none, none], [none, none, none, none]⟩ }

/-- The state after the process in slot 1 of `ex_two_free` has made two
successful `thread_create` calls (every allocation succeeds). -/
def ex_two_threads : Option Kernel :=
  match thread_create ex_two_free 1 (some 7) (fun _ n => n) true with
  | some (0, _, s1) =>
    match thread_create s1 1 (some 8) (fun _ n => n) true with
    | some (0, _, s2) => some s2
    | _ => none
  | _ => none

/-- The state `ex_two_threads` after the thread in slot 2 has called `exit`,
which takes the whole group down; `deallocuvm` returns the size asked for. -/
def ex_last_thread_exit : Option Kernel :=
  match ex_two_threads with
  | some s => exit s 2 (fun _ n => n)
  | none => none

/-- What the claims about `all_LWP` read in a slot. -/
def lwp_fields (s : Kernel) (i : Nat) : Option (procstate × Int × Int × Nat) :=
  (getProc s i).map (fun p => (p.state, p.num_LWP, p.all_LWP, p.sz))

/-- A Stride process (slot 1, running, share 20) is forking: the child (slot
2) is still an EMBRYO and is the only entry of `q[0]`; init (slot 0) sleeps in
`wait` and is in no queue; an MLFQ process (slot 3) is RUNNABLE in `q[1]`. -/
def ex_stuck : Kernel :=
  { ptable := [{ mlfq_proc 1 none procstate.SLEEPING with chan := some (Chan.slot 0) },
               { mlfq_proc 2 (some 0) procstate.RUNNABLE with
                   cpu_share := 20, stride := 500, pass := 1000 },
               { mlfq_proc 4 none procstate.EMBRYO with pgdir := none },
               { mlfq_proc 3 (some 0) procstate.RUNNABLE with level := 1 }],
    initproc := some 0, nextpid := 5, mlfq_pass := 100, mlfq_stride := 125, mlfq_share := 80,
    totalticks := 7, q_count := ⟨0, 0, -1⟩,
    q := ⟨[some 2, none, none, none], [some 3, none, none, none], [none, none, none, none]⟩ }

/-! ## Theorems -/

/-- Claim C1: for every state and every share with `share < 0` or
`mlfq_share - share <= 20`, `set_cpu_share(share)` returns -1 and leaves the
whole kernel state (process table, queues, counters, `mlfq_share`,
`mlfq_stride`, `mlfq_pass`) unchanged. -/
theorem set_cpu_share_rejects (s : Kernel) (cur : Nat) (share : Int)
    (h : share < 0 ∨ s.mlfq_share - share ≤ 20) :
    set_cpu_share s cur share = some (-1, s) := by
  unfold set_cpu_share
  rcases h with h | h
  · simp [h]
  · by_cases h0 : share < 0
    · simp [h0]
    · simp [h0, h]

/-- Running C1 on `ex_mlfq`: a negative share is rejected. -/
theorem set_cpu_share_rejects_witness :
    ((-3 : Int) < 0 ∨ ex_mlfq.mlfq_share - (-3) ≤ 20) ∧
      set_cpu_share ex_mlfq 1 (-3) = some (-1, ex_mlfq) :=
  ⟨by decide, set_cpu_share_rejects ex_mlfq 1 (-3) (by decide)⟩

@[simp]
theorem rd_natCast (row : Row) (k : Nat) : rd row (k : Int) = row[k]? := by
  simp [rd]

theorem rd_eq_some {row : Row} {i : Int} {v : Option Nat} (h : rd row i = some v) :
    0 ≤ i ∧ row[i.toNat]? = some v := by
  unfold rd at h
  split at h
  · exact ⟨by assumption, h⟩
  · cases h

theorem wr_natCast (row : Row) (k : Nat) (v : Option Nat) (h : k < row.length) :
    wr row (k : Int) v = some (row.set k v) := by
  simp [wr, h]

theorem wr_length {row row1 : Row} {i : Int} {v : Option Nat} (h : wr row i v = some row1) :
    row1.length = row.length := by
  unfold wr at h
  split at h
  · cases h; simp
  · cases h

@[simp]
theorem Arr3.get?_zero {α : Type} (a : Arr3 α) : a.get? 0 = some a.a0 := by
  simp [Arr3.get?]

@[simp]
theorem Arr3.get?_one {α : Type} (a : Arr3 α) : a.get? 1 = some a.a1 := by
  simp [Arr3.get?]

@[simp]
theorem Arr3.get?_two {α : Type} (a : Arr3 α) : a.get? 2 = some a.a2 := by
  simp [Arr3.get?]

theorem Arr3.get?_set_self {α : Type} (a : Arr3 α) (i : Int) (x y : α)
    (h : a.get? i = some y) : (a.set i x).get? i = some x := by
  unfold Arr3.get? at h
  unfold Arr3.get? Arr3.set
  split_ifs at h ⊢ <;> simp_all

theorem Arr3.get?_set_ne {α : Type} (a : Arr3 α) (i j : Int) (x : α) (h : i ≠ j) :
    (a.set i x).get? j = a.get? j := by
  unfold Arr3.get? Arr3.set
  split_ifs <;> simp_all

theorem Arr3.get?_isSome {α : Type} (a : Arr3 α) (i : Int) (y : α) (h : a.get? i = some y) :
    i = 0 ∨ i = 1 ∨ i = 2 := by
  unfold Arr3.get? at h
  split_ifs at h <;> simp_all

theorem shift_left_spec (n : Nat) : ∀ (row : Row) (j : Nat), j + n < row.length →
    ∃ row1, shift_left n row (j : Int) = some row1 ∧ row1.length = row.length ∧
      ∀ k, row1[k]? = if j ≤ k ∧ k < j + n then row[k + 1]? else row[k]? := by
  induction n with
  | zero =>
    intro row j _
    refine ⟨row, rfl, rfl, ?_⟩
    intro k
    have : ¬ (j ≤ k ∧ k < j + 0) := by omega
    rw [if_neg this]
  | succ n ih =>
    intro row j h
    have h1 : j + 1 < row.length := by omega
    have hj : j < row.length := by omega
    obtain ⟨row1, e1, l1, p1⟩ := ih (row.set j row[j + 1]) (j + 1) (by simp; omega)
    refine ⟨row1, ?_, ?_, ?_⟩
    · have hr : rd row ((j : Int) + 1) = some row[j + 1] := by
        have : ((j : Int) + 1) = ((j + 1 : Nat) : Int) := by push_cast; rfl
        rw [this, rd_natCast]
        exact List.getElem?_eq_getElem h1
      have e2 : ((j : Int) + 1) = ((j + 1 : Nat) : Int) := by push_cast; rfl
      simp only [shift_left, hr, wr_natCast row j _ hj]
      rw [e2]
      exact e1
    · simpa using l1
    · intro k
      rw [p1 k]
      by_cases hk : j + 1 ≤ k ∧ k < j + 1 + n
      · have : j ≤ k ∧ k < j + (n + 1) := by omega
        rw [if_pos hk, if_pos this]
        rw [List.getElem?_set_ne (by omega)]
      · rw [if_neg hk]
        by_cases hkj : k = j
        · subst hkj
          have : k ≤ k ∧ k < k + (n + 1) := by omega
          rw [if_pos this, List.getElem?_set_self hj]
          exact (List.getElem?_eq_getElem h1).symm
        · have : ¬ (j ≤ k ∧ k < j + (n + 1)) := by omega
          rw [if_neg this, List.getElem?_set_ne (by omega)]

theorem stride_scan_spec (ps : List proc) : ∀ (i : Nat) (min : Option (Nat × proc)) (mp : Int),
    (stride_scan ps i (min, mp) = (min, mp) ∧
        ∀ p ∈ ps, ¬ ((p.state = procstate.RUNNABLE ∧ p.cpu_share ≠ 0) ∧ p.pass ≤ mp)) ∨
    (∃ k p, stride_scan ps i (min, mp) = (some (i + k, p), p.pass) ∧ ps[k]? = some p ∧
        (p.state = procstate.RUNNABLE ∧ p.cpu_share ≠ 0) ∧ p.pass ≤ mp ∧
        ∀ q ∈ ps, (q.state = procstate.RUNNABLE ∧ q.cpu_share ≠ 0) → p.pass ≤ q.pass) := by
  induction ps with
  | nil => intro i min mp; left; simp [stride_scan]
  | cons p ps ih =>
    intro i min mp
    by_cases hc : p.state = procstate.RUNNABLE ∧ p.cpu_share ≠ 0 ∧ p.pass ≤ mp
    · right
      have hs : stride_scan (p :: ps) i (min, mp) = stride_scan ps (i + 1) (some (i, p), p.pass) := by
        simp only [stride_scan]; rw [if_pos hc]
      rcases ih (i + 1) (some (i, p)) p.pass with ⟨e, hn⟩ | ⟨k, q, e, hk, hq, hle, hmin⟩
      · refine ⟨0, p, ?_, by simp, ⟨hc.1, hc.2.1⟩, hc.2.2, ?_⟩
        · rw [hs, e]; simp
        · intro q hq hcand
          rcases List.mem_cons.1 hq with rfl | hq
          · exact le_refl _
          · have := hn q hq
            by_contra hlt
            exact this ⟨hcand, by omega⟩
      · refine ⟨k + 1, q, ?_, by simpa using hk, hq, le_trans hle hc.2.2, ?_⟩
        · rw [hs, e]; congr 3; omega
        · intro r hr hcand
          rcases List.mem_cons.1 hr with rfl | hr
          · exact hle
          · exact hmin r hr hcand
    · have hs : stride_scan (p :: ps) i (min, mp) = stride_scan ps (i + 1) (min, mp) := by
        simp only [stride_scan]; rw [if_neg hc]
      rcases ih (i + 1) min mp with ⟨e, hn⟩ | ⟨k, q, e, hk, hq, hle, hmin⟩
      · left
        refine ⟨by rw [hs, e], ?_⟩
        intro r hr
        rcases List.mem_cons.1 hr with rfl | hr
        · intro h; exact hc ⟨h.1.1, h.1.2, h.2⟩
        · exact hn r hr
      · right
        refine ⟨k + 1, q, ?_, by simpa using hk, hq, hle, ?_⟩
        · rw [hs, e]; congr 3; omega
        · intro r hr hcand
          rcases List.mem_cons.1 hr with rfl | hr
          · by_contra hlt
            exact hc ⟨hcand.1, hcand.2, by omega⟩
          · exact hmin r hr hcand

/-- An addition whose result is in the range of `int` is exact. -/
theorem wrap_int_eq (x : Int) (h1 : -2147483648 ≤ x) (h2 : x ≤ 2147483647) :
    wrap_int x = x := by
  unfold wrap_int; omega

/-- Past the largest `int` the result of an addition is `2^32` too small. -/
theorem wrap_int_over (x : Int) (h1 : 2147483648 ≤ x) (h2 : x ≤ 6442450943) :
    wrap_int x = x - 4294967296 := by
  unfold wrap_int; omega

/-- The two outcomes of one scheduler decision, as equations. -/
theorem scheduler_decide_eq (s : Kernel) :
    (scheduler_decide s =
        (none, { s with mlfq_pass := wrap_int (s.mlfq_pass + s.mlfq_stride) }) ∧
      ∀ p ∈ s.ptable,
        ¬ ((p.state = procstate.RUNNABLE ∧ p.cpu_share ≠ 0) ∧ p.pass ≤ s.mlfq_pass)) ∨
    (∃ k p, scheduler_decide s =
        (some k, setProc s k
          { p with pass := wrap_int (p.pass + p.stride), state := procstate.RUNNING }) ∧
      s.ptable[k]? = some p ∧ (p.state = procstate.RUNNABLE ∧ p.cpu_share ≠ 0) ∧
      p.pass ≤ s.mlfq_pass ∧
      ∀ q ∈ s.ptable, (q.state = procstate.RUNNABLE ∧ q.cpu_share ≠ 0) → p.pass ≤ q.pass) := by
  rcases stride_scan_spec s.ptable 0 none s.mlfq_pass with ⟨e, hn⟩ | ⟨k, p, e, hk, hq, hle, hmin⟩
  · left
    exact ⟨by simp [scheduler_decide, e], hn⟩
  · right
    exact ⟨k, p, by simp [scheduler_decide, e], hk, hq, hle, hmin⟩

/-- One scheduler decision in general: a Stride slot is chosen exactly when
some RUNNABLE slot with `cpu_share != 0` has `pass <= mlfq_pass`; the chosen
slot has the least pass of all RUNNABLE Stride slots, its pass becomes the
32-bit sum of pass and stride (and it becomes RUNNING), no other slot and not
`mlfq_pass` change; otherwise `mlfq_pass` becomes the 32-bit sum of
`mlfq_pass` and `mlfq_stride` and the table is unchanged. By `wrap_int_eq`
the 32-bit sum is the sum as long as that is at most `2^31 - 1`. -/
theorem scheduler_decide_spec (s : Kernel) :
    ((∃ i, (scheduler_decide s).1 = some i) ↔
        ∃ p ∈ s.ptable, p.state = procstate.RUNNABLE ∧ p.cpu_share ≠ 0 ∧ p.pass ≤ s.mlfq_pass) ∧
    (∀ i, (scheduler_decide s).1 = some i →
        ∃ p, s.ptable[i]? = some p ∧ p.state = procstate.RUNNABLE ∧ p.cpu_share ≠ 0 ∧
          (∀ q ∈ s.ptable, q.state = procstate.RUNNABLE → q.cpu_share ≠ 0 → p.pass ≤ q.pass) ∧
          (scheduler_decide s).2.ptable[i]? =
            some { p with pass := wrap_int (p.pass + p.stride),
                          state := procstate.RUNNING } ∧
          (∀ j, j ≠ i → (scheduler_decide s).2.ptable[j]? = s.ptable[j]?) ∧
          (scheduler_decide s).2.mlfq_pass = s.mlfq_pass) ∧
    ((scheduler_decide s).1 = none →
        (scheduler_decide s).2.mlfq_pass = wrap_int (s.mlfq_pass + s.mlfq_stride) ∧
        (scheduler_decide s).2.ptable = s.ptable) := by
  rcases scheduler_decide_eq s with ⟨hd, hn⟩ | ⟨k, p, hd, hk, hq, hle, hmin⟩
  · rw [hd]
    refine ⟨?_, ?_, ?_⟩
    · constructor
      · rintro ⟨i, hi⟩; cases hi
      · rintro ⟨p, hp, h1, h2, h3⟩
        exact absurd ⟨⟨h1, h2⟩, h3⟩ (hn p hp)
    · intro i hi; cases hi
    · intro _; exact ⟨rfl, rfl⟩
  · rw [hd]
    have hlt : k < s.ptable.length := (List.getElem?_eq_some.1 hk).1
    refine ⟨?_, ?_, ?_⟩
    · constructor
      · intro _
        exact ⟨p, List.getElem?_mem hk, hq.1, hq.2, hle⟩
      · intro _; exact ⟨k, rfl⟩
    · intro i hi
      have hik : k = i := by simpa using hi
      subst hik
      refine ⟨p, hk, hq.1, hq.2, fun q hqm h1 h2 => hmin q hqm ⟨h1, h2⟩, ?_, ?_, rfl⟩
      · simp [setProc, List.getElem?_set_self hlt]
      · intro j hj
        simp [setProc, List.getElem?_set_ne (Ne.symm hj)]
    · intro h; cases h

/-- Claim C3 at the failing inputs `ex_late_trace 0` and `ex_mlfq_late`, where
`mlfq_pass == 2147483600`. In `ex_late_trace 0` the Stride slot 1 (RUNNABLE,
share 20, stride 500) has pass 2147483600, ties with `mlfq_pass` and is
chosen; `p->pass += p->stride` leaves its pass at -2147483196, not at
2147484100: the pass has not grown by the stride but dropped by
`2^32 - 500`. In `ex_mlfq_late` no slot has a share, the turn goes to the MLFQ
and `mlfq_pass += mlfq_stride` leaves `mlfq_pass` at -2147483596, not at
2147483700. -/
theorem scheduler_decide_wraps :
    (ex_late_trace 0).mlfq_pass = 2147483600 ∧
    (ex_late_trace 0).ptable[1]?.map (fun p => (p.state, p.cpu_share, p.stride, p.pass)) =
      some (procstate.RUNNABLE, 20, 500, 2147483600) ∧
    (scheduler_decide (ex_late_trace 0)).1 = some 1 ∧
    (scheduler_decide (ex_late_trace 0)).2.ptable[1]?.map (fun p => p.pass) =
      some (-2147483196) ∧
    (scheduler_decide (ex_late_trace 0)).2.mlfq_pass = 2147483600 ∧
    ex_mlfq_late.mlfq_pass = 2147483600 ∧ ex_mlfq_late.mlfq_stride = 100 ∧
    (scheduler_decide ex_mlfq_late).1 = none ∧
    (scheduler_decide ex_mlfq_late).2.mlfq_pass = -2147483596 ∧
    (scheduler_decide ex_mlfq_late).2.ptable = ex_mlfq_late.ptable := by
  refine ⟨?_, ?_, ?_, ?_, ?_, ?_, ?_, ?_, ?_, ?_⟩ <;> decide

theorem scs_delete_loop_ok (cur c : Nat) (n : Nat) : ∀ (row : Row) (i : Nat),
    i + n ≤ c + 1 → c < row.length →
    ∃ row1, scs_delete_loop cur (c : Int) n row (i : Int) = some row1 ∧
      row1.length = row.length := by
  induction n with
  | zero => intro row i _ _; exact ⟨row, rfl, rfl⟩
  | succ n ih =>
    intro row i hi hc
    have hil : i < row.length := by omega
    have hr : rd row (i : Int) = some row[i] := by
      rw [rd_natCast]; exact List.getElem?_eq_getElem hil
    have e2 : ((i : Int) + 1) = ((i + 1 : Nat) : Int) := by push_cast; rfl
    simp only [scs_delete_loop, hr]
    by_cases hhit : row[i] = some cur
    · rw [if_pos hhit]
      have hn : ((c : Int) - (i : Int)).toNat = c - i := by omega
      obtain ⟨row1, e1, l1, _⟩ := shift_left_spec (c - i) row i (by omega)
      rw [hn, e1]
      obtain ⟨row2, e3, l3⟩ := ih row1 (i + 1) (by omega) (by omega)
      refine ⟨row2, ?_, by omega⟩
      simp only [e2]; exact e3
    · rw [if_neg hhit]
      obtain ⟨row2, e3, l3⟩ := ih row (i + 1) (by omega) hc
      refine ⟨row2, ?_, l3⟩
      simp only [e2]; exact e3

theorem scs_delete_ok (s : Kernel) (cur : Nat) (level : Int) (c : Int) (row : Row)
    (hc : s.q_count.get? level = some c) (hrow : s.q.get? level = some row)
    (hc0 : 0 ≤ c) (hcl : c < row.length) :
    ∃ row2, scs_delete s cur level =
      some { s with q := s.q.set level row2, q_count := s.q_count.set level (c - 1) } := by
  obtain ⟨cn, rfl⟩ := Int.eq_ofNat_of_zero_le hc0
  have hcl1 : cn < row.length := by exact_mod_cast hcl
  have hn : ((cn : Int) + 1).toNat = cn + 1 := by omega
  obtain ⟨row1, e1, l1⟩ := scs_delete_loop_ok cur cn (cn + 1) row 0 (by omega) hcl1
  have e1z : scs_delete_loop cur (cn : Int) (cn + 1) row 0 = some row1 := by
    simpa using e1
  refine ⟨row1.set cn none, ?_⟩
  simp only [scs_delete, hc, hrow, hn, e1z, wr_natCast row1 cn none (by omega)]

/-- An accepted `set_cpu_share` by a caller whose level queue is non-empty:
the call returns `share`; only `q`, `q_count`, `mlfq_share`, `mlfq_stride` and
the process table change. -/
theorem set_cpu_share_ok (s : Kernel) (cur : Nat) (share : Int) (p : proc) (c : Int)
    (row : Row) (h0 : 0 ≤ share) (h20 : 20 < s.mlfq_share - share)
    (hp : getProc s cur = some p)
    (hc : s.q_count.get? p.level = some c) (hrow : s.q.get? p.level = some row)
    (hc0 : 0 ≤ c) (hcl : c < row.length) (hs : p.num_LWP ≤ 0 → share ≠ 0) :
    ∃ s1, set_cpu_share s cur share = some (share, s1) ∧
      s1.mlfq_share = s.mlfq_share - share ∧
      s1.mlfq_stride = Int.tdiv 10000 (s.mlfq_share - share) ∧
      s1.mlfq_pass = s.mlfq_pass ∧ s1.totalticks = s.totalticks ∧
      (p.num_LWP ≤ 0 → s1.ptable = s.ptable.set cur
        { p with cpu_share := share, stride := Int.tdiv 10000 share,
                 pass := min_pass_scan s.ptable s.mlfq_pass }) := by
  obtain ⟨row2, e⟩ := scs_delete_ok s cur p.level c row hc hrow hc0 hcl
  have hn0 : ¬ share < 0 := by omega
  have hn20 : ¬ s.mlfq_share - share ≤ 20 := by omega
  have h21 : cdiv 10000 (s.mlfq_share - share) =
      some (Int.tdiv 10000 (s.mlfq_share - share)) := by
    simp [cdiv]; omega
  by_cases hl : p.num_LWP > 0
  · have hd : cdiv share p.num_LWP = some (Int.tdiv share p.num_LWP) := by
      simp [cdiv]; omega
    have hnn : 0 ≤ Int.tdiv share p.num_LWP := Int.tdiv_nonneg h0 (by omega)
    have hd2 : cdiv 10000 (Int.tdiv share p.num_LWP + 1) =
        some (Int.tdiv 10000 (Int.tdiv share p.num_LWP + 1)) := by
      simp [cdiv]; omega
    simp only [set_cpu_share, if_neg hn0, if_neg hn20, hp, e, h21, hd, hd2, if_pos hl]
    refine ⟨_, rfl, rfl, rfl, rfl, rfl, ?_⟩
    intro h; omega
  · have h79 : cdiv 10000 share = some (Int.tdiv 10000 share) := by
      have := hs (by omega)
      simp [cdiv, this]
    simp only [set_cpu_share, if_neg hn0, if_neg hn20, hp, e, h21, h79, if_neg hl]
    refine ⟨_, rfl, rfl, rfl, rfl, rfl, ?_⟩
    intro _; rfl

/-- Claim C2 (amended): from `mlfq_share == 100`, `set_cpu_share(81)` is
rejected (returns -1, state unchanged, since 100 - 81 = 19 <= 20), like every
share of 80 or more; `set_cpu_share(79)` called by a process whose level queue is non-empty
succeeds: it returns 79, leaves `mlfq_share == 21`, gives a caller without
threads `cpu_share == 79` and `stride == 126`, and after it `set_cpu_share(1)`
from any process returns -1 and changes nothing. -/
theorem reservation_cap (s : Kernel) (cur : Nat) (p : proc) (c : Int) (row : Row)
    (hshare : s.mlfq_share = 100) (hp : getProc s cur = some p)
    (hc : s.q_count.get? p.level = some c) (hrow : s.q.get? p.level = some row)
    (hc0 : 0 ≤ c) (hcl : c < row.length) :
    set_cpu_share s cur 81 = some (-1, s) ∧
    (∀ share : Int, 80 ≤ share → set_cpu_share s cur share = some (-1, s)) ∧
    ∃ s1, set_cpu_share s cur 79 = some (79, s1) ∧ s1.mlfq_share = 21 ∧
      (p.num_LWP ≤ 0 → ∃ p1, getProc s1 cur = some p1 ∧ p1.cpu_share = 79 ∧ p1.stride = 126) ∧
      ∀ other, set_cpu_share s1 other 1 = some (-1, s1) := by
  refine ⟨?_, ?_, ?_⟩
  · simp [set_cpu_share, hshare]
  · intro share h80
    have h1 : ¬ share < 0 := by omega
    have h2 : s.mlfq_share - share ≤ 20 := by omega
    simp [set_cpu_share, h1, h2]
  · obtain ⟨s1, e, h1, _, _, _, h5⟩ := set_cpu_share_ok s cur 79 p c row (by norm_num)
      (by rw [hshare]; norm_num) hp hc hrow hc0 hcl (fun _ => by norm_num)
    have hlt : cur < s.ptable.length := (List.getElem?_eq_some.1 hp).1
    refine ⟨s1, e, by rw [h1, hshare]; norm_num, ?_, ?_⟩
    · intro hl
      refine ⟨{ p with cpu_share := 79, stride := Int.tdiv 10000 79,
                       pass := min_pass_scan s.ptable s.mlfq_pass }, ?_, rfl, ?_⟩
      · rw [getProc, h5 hl, List.getElem?_set_self hlt]
      · show Int.tdiv 10000 79 = 126
        decide
    · intro other
      have : s1.mlfq_share = 21 := by rw [h1, hshare]; norm_num
      simp [set_cpu_share, this]

/-- Running the amended C2 on `ex_mlfq` with the running process in slot 1. -/
theorem reservation_cap_witness :
    set_cpu_share ex_mlfq 1 81 = some (-1, ex_mlfq) ∧
    (∀ share : Int, 80 ≤ share → set_cpu_share ex_mlfq 1 share = some (-1, ex_mlfq)) ∧
    ∃ s1, set_cpu_share ex_mlfq 1 79 = some (79, s1) ∧ s1.mlfq_share = 21 ∧
      ((mlfq_proc 2 (some 0) procstate.RUNNING).num_LWP ≤ 0 →
        ∃ p1, getProc s1 1 = some p1 ∧ p1.cpu_share = 79 ∧ p1.stride = 126) ∧
      ∀ other, set_cpu_share s1 other 1 = some (-1, s1) :=
  reservation_cap ex_mlfq 1 (mlfq_proc 2 (some 0) procstate.RUNNING) 2
    [some 0, some 1, some 2, none] (by decide) (by decide) (by decide) (by decide)
    (by decide) (by decide)

/-- Claim C2 fails as stated: on `ex_mlfq` (`mlfq_share == 100`, the caller in
slot 1 is an MLFQ process) `set_cpu_share(81)` returns -1 and reserves
nothing, and the following `set_cpu_share(1)` by the process in slot 2
returns 1, not -1. -/
theorem reservation_81_rejected :
    set_cpu_share ex_mlfq 1 81 = some (-1, ex_mlfq) ∧
    (set_cpu_share ex_mlfq 2 1).map Prod.fst = some 1 := by
  decide

theorem dequeue_loop_ok (zero : Bool) (pidx : Nat) (c : Int) (n : Nat) :
    ∀ (row : Row) (i : Nat), (i : Int) + n ≤ c + 1 → c < row.length →
    ∃ r, dequeue_loop zero pidx c n row (i : Int) = some r := by
  induction n with
  | zero => intro row i _ _; exact ⟨_, rfl⟩
  | succ n ih =>
    intro row i hi hc
    have hil : i < row.length := by omega
    have hr : rd row (i : Int) = some row[i] := by
      rw [rd_natCast]; exact List.getElem?_eq_getElem hil
    have e2 : ((i : Int) + 1) = ((i + 1 : Nat) : Int) := by push_cast; rfl
    have hc0 : 0 ≤ c := by omega
    obtain ⟨cn, rfl⟩ := Int.eq_ofNat_of_zero_le hc0
    simp only [dequeue_loop, hr]
    by_cases hhit : row[i] = some pidx
    · rw [if_pos hhit]
      have hn : ((cn : Int) - (i : Int)).toNat = cn - i := by omega
      obtain ⟨row1, e1, l1, _⟩ := shift_left_spec (cn - i) row i (by omega)
      rw [hn, e1]
      cases zero
      · exact ⟨_, rfl⟩
      · simp only [if_true, wr_natCast row1 cn none (by omega)]
        exact ⟨_, rfl⟩
    · rw [if_neg hhit, e2]
      exact ih row (i + 1) (by push_cast; omega) hc

theorem dequeue_ok (zero : Bool) (s : Kernel) (pidx : Nat) (level : Int) (c : Int) (row : Row)
    (hc : s.q_count.get? level = some c) (hrow : s.q.get? level = some row)
    (hcl : c < row.length) :
    ∃ row1 c1, dequeue zero s pidx level =
      some { s with q := s.q.set level row1, q_count := s.q_count.set level c1 } := by
  have hex : ∃ r, dequeue_loop zero pidx c (c + 1).toNat row 0 = some r := by
    by_cases hneg : c + 1 ≤ 0
    · have : (c + 1).toNat = 0 := by omega
      rw [this]; exact ⟨_, rfl⟩
    · obtain ⟨r, e⟩ := dequeue_loop_ok zero pidx c (c + 1).toNat row 0
        (by push_cast; omega) hcl
      exact ⟨r, by simpa using e⟩
  obtain ⟨r, e0⟩ := hex
  obtain ⟨row1, found⟩ := r
  refine ⟨row1, if found then c - 1 else c, ?_⟩
  simp only [dequeue, hc, hrow, e0]

/-- The reclaiming step succeeds when the child's level row can hold its
counter and the credited share is not zero; it changes the child's slot, the
child's level queue and the two share variables only. -/
theorem reap_ok (s : Kernel) (i : Nat) (p : proc)
    (hq : p.stride = 0 → ∃ cnt row, s.q_count.get? p.level = some cnt ∧
      s.q.get? p.level = some row ∧ cnt < row.length)
    (hsh : s.mlfq_share + p.cpu_share ≠ 0) :
    ∃ s1, reap s i p = some s1 ∧ s1.ptable = s.ptable.set i (scrub p) ∧
      s1.mlfq_share = s.mlfq_share + p.cpu_share ∧
      s1.mlfq_stride = Int.tdiv 10000 (s.mlfq_share + p.cpu_share) ∧
      s1.mlfq_pass = s.mlfq_pass ∧ s1.totalticks = s.totalticks := by
  have hd : ∀ m : Int, m ≠ 0 → cdiv 10000 m = some (Int.tdiv 10000 m) := by
    intro m hm; simp [cdiv, hm]
  by_cases hst : p.stride = 0
  · obtain ⟨cnt, row, h1, h2, h3⟩ := hq hst
    obtain ⟨row1, c1, e⟩ := dequeue_ok false s i p.level cnt row h1 h2 h3
    simp only [reap, if_pos hst, e, hd _ hsh]
    exact ⟨_, rfl, rfl, rfl, rfl, rfl, rfl⟩
  · simp only [reap, if_neg hst, hd _ hsh]
    exact ⟨_, rfl, rfl, rfl, rfl, rfl, rfl⟩

theorem wait_loop_found (s : Kernel) (cur i : Nat) (p : proc)
    (hp : s.ptable[i]? = some p) (hpar : p.parent = some cur)
    (hz : p.state = procstate.ZOMBIE)
    (hfirst : ∀ j q, j < i → s.ptable[j]? = some q →
      ¬ (q.parent = some cur ∧ q.state = procstate.ZOMBIE)) (n : Nat) :
    ∀ (k : Nat) (hk : Bool), k ≤ i → i < k + n →
    wait_loop cur n k s hk = (reap s i p).map (fun s1 => ((some p.pid, true), s1)) := by
  induction n with
  | zero => intro k hk h1 h2; omega
  | succ n ih =>
    intro k hk h1 h2
    by_cases hki : k = i
    · subst hki
      simp only [wait_loop, getProc, hp, hpar, hz]
      cases reap s k p <;> simp
    · have hlt : k < i := by omega
      have hil : i < s.ptable.length := (List.getElem?_eq_some.1 hp).1
      have hkl : k < s.ptable.length := by omega
      have hq : s.ptable[k]? = some s.ptable[k] := List.getElem?_eq_getElem hkl
      have hnz := hfirst k _ hlt hq
      simp only [wait_loop, getProc, hq]
      by_cases hpk : s.ptable[k].parent = some cur
      · have hns : ¬ s.ptable[k].state = procstate.ZOMBIE := fun h => hnz ⟨hpk, h⟩
        simp only [hpk, ne_eq, not_true_eq_false, if_false, if_neg hns]
        exact ih (k + 1) true (by omega) (by omega)
      · simp only [ne_eq, hpk, not_false_eq_true, if_true]
        exact ih (k + 1) hk (by omega) (by omega)

theorem wait_loop_none (s : Kernel) (cur : Nat)
    (hnz : ∀ q ∈ s.ptable, ¬ (q.parent = some cur ∧ q.state = procstate.ZOMBIE)) (n : Nat) :
    ∀ (k : Nat) (hk : Bool), k + n ≤ s.ptable.length →
    ∃ hk1, wait_loop cur n k s hk = some ((none, hk1), s) ∧
      (hk1 = true ↔ hk = true ∨ ∃ j q, k ≤ j ∧ j < k + n ∧ s.ptable[j]? = some q ∧
        q.parent = some cur) := by
  induction n with
  | zero =>
    intro k hk _
    refine ⟨hk, rfl, ?_⟩
    constructor
    · intro h; exact Or.inl h
    · rintro (h | ⟨j, q, h1, h2, _⟩)
      · exact h
      · omega
  | succ n ih =>
    intro k hk hlen
    have hkl : k < s.ptable.length := by omega
    have hq : s.ptable[k]? = some s.ptable[k] := List.getElem?_eq_getElem hkl
    have hnzk := hnz _ (List.getElem?_mem hq)
    simp only [wait_loop, getProc, hq]
    by_cases hpk : s.ptable[k].parent = some cur
    · have hns : ¬ s.ptable[k].state = procstate.ZOMBIE := fun h => hnzk ⟨hpk, h⟩
      simp only [hpk, ne_eq, not_true_eq_false, if_false, if_neg hns]
      obtain ⟨hk1, e, hiff⟩ := ih (k + 1) true (by omega)
      refine ⟨hk1, e, ?_⟩
      rw [hiff]
      constructor
      · intro _; exact Or.inr ⟨k, _, le_refl _, by omega, hq, hpk⟩
      · intro _; exact Or.inl rfl
    · simp only [ne_eq, hpk, not_false_eq_true, if_true]
      obtain ⟨hk1, e, hiff⟩ := ih (k + 1) hk (by omega)
      refine ⟨hk1, e, ?_⟩
      rw [hiff]
      constructor
      · rintro (h | ⟨j, q, h1, h2, h3, h4⟩)
        · exact Or.inl h
        · exact Or.inr ⟨j, q, by omega, by omega, h3, h4⟩
      · rintro (h | ⟨j, q, h1, h2, h3, h4⟩)
        · exact Or.inl h
        · by_cases hjk : j = k
          · subst hjk
            rw [hq] at h3
            cases h3
            exact absurd h4 hpk
          · exact Or.inr ⟨j, q, by omega, by omega, h3, h4⟩

/-- Claim C8: one scan of `wait` by the process in slot `cur`. If slot `i` is
the first ZOMBIE child in table order (and its level row and the credited
share are well formed), `wait` returns its pid, the slot ends UNUSED with
pid 0, parent and kstack null, killed / level / ticks / cpu_share / stride /
pass 0, no other slot changes, `mlfq_share` grows by the child's former
`cpu_share` and `mlfq_stride` becomes `floor(10000 / mlfq_share)`. If `cur`
has no children, or no ZOMBIE child and `killed` set, `wait` returns -1 and
the state is unchanged. -/
theorem wait_scan_spec (s : Kernel) (cur : Nat) (c : proc) (hc : getProc s cur = some c) :
    (∀ (i : Nat) (p : proc), s.ptable[i]? = some p → p.parent = some cur →
      p.state = procstate.ZOMBIE →
      (∀ (j : Nat) (q : proc), j < i → s.ptable[j]? = some q →
        ¬ (q.parent = some cur ∧ q.state = procstate.ZOMBIE)) →
      (p.stride = 0 → ∃ cnt row, s.q_count.get? p.level = some cnt ∧
        s.q.get? p.level = some row ∧ cnt < row.length) →
      0 < s.mlfq_share + p.cpu_share →
      ∃ (s1 : Kernel) (p1 : proc), wait_scan s cur = some (ScanResult.ret p.pid, s1) ∧
        s1.ptable[i]? = some p1 ∧ p1.state = procstate.UNUSED ∧ p1.pid = 0 ∧
        p1.parent = none ∧ p1.kstack = none ∧ p1.killed = 0 ∧ p1.level = 0 ∧
        p1.ticks = 0 ∧ p1.cpu_share = 0 ∧ p1.stride = 0 ∧ p1.pass = 0 ∧
        (∀ j : Nat, j ≠ i → s1.ptable[j]? = s.ptable[j]?) ∧
        s1.mlfq_share = s.mlfq_share + p.cpu_share ∧
        s1.mlfq_stride = 10000 / s1.mlfq_share) ∧
    ((∀ q ∈ s.ptable, q.parent ≠ some cur) → wait_scan s cur = some (ScanResult.ret (-1), s)) ∧
    ((∀ q ∈ s.ptable, ¬ (q.parent = some cur ∧ q.state = procstate.ZOMBIE)) → c.killed ≠ 0 →
      wait_scan s cur = some (ScanResult.ret (-1), s)) := by
  refine ⟨?_, ?_, ?_⟩
  · intro i p hp hpar hz hfirst hq hsh
    have hil : i < s.ptable.length := (List.getElem?_eq_some.1 hp).1
    obtain ⟨s1, e, h1, h2, h3, _, _⟩ := reap_ok s i p hq (by omega)
    have hl := wait_loop_found s cur i p hp hpar hz hfirst s.ptable.length 0 false
      (by omega) (by omega)
    refine ⟨s1, scrub p, ?_, ?_, rfl, rfl, rfl, rfl, rfl, rfl, rfl, rfl, rfl, rfl, ?_, h2, ?_⟩
    · simp only [wait_scan, hl, e, Option.map]
    · rw [h1, List.getElem?_set_self hil]
    · intro j hj
      rw [h1, List.getElem?_set_ne (Ne.symm hj)]
    · rw [h3, h2]
      exact Int.tdiv_eq_ediv (by norm_num) (by omega)
  · intro hnk
    obtain ⟨hk1, e, hiff⟩ := wait_loop_none s cur (fun q hq h => hnk q hq h.1)
      s.ptable.length 0 false (by omega)
    have hf : hk1 = false := by
      cases hk1
      · rfl
      · exfalso
        rcases hiff.1 rfl with h | ⟨j, q, _, _, h3, h4⟩
        · cases h
        · exact hnk q (List.getElem?_mem h3) h4
    subst hf
    simp only [wait_scan, e, hc]
    simp
  · intro hnz hkill
    obtain ⟨hk1, e, _⟩ := wait_loop_none s cur hnz s.ptable.length 0 false (by omega)
    simp only [wait_scan, e, hc]
    simp [hkill]

/-- Running C8 on `ex_zombie`: `wait` by slot 1 reclaims the ZOMBIE child in
slot 2, returns its pid 3 and credits its share of 20 back. -/
theorem wait_scan_spec_witness :
    ∃ s1, wait_scan ex_zombie 1 = some (ScanResult.ret 3, s1) ∧
      s1.mlfq_share = 80 ∧ s1.mlfq_stride = 125 := by
  obtain ⟨s1, p1, h, _, _, _, _, _, _, _, _, _, _, _, _, h2, h3⟩ :=
    (wait_scan_spec ex_zombie 1
      { mlfq_proc 2 (some 0) procstate.RUNNING with cpu_share := 20, stride := 500, pass := 1000 }
      (by decide)).1 2
      { mlfq_proc 3 (some 1) procstate.ZOMBIE with cpu_share := 20, stride := 500, pass := 0 }
      (by decide) (by decide) (by decide)
      (by
        intro j q hj hq
        have hj2 : j = 0 ∨ j = 1 := by omega
        rcases hj2 with rfl | rfl
        · have : q = mlfq_proc 1 none procstate.RUNNABLE := by
            simpa [ex_zombie] using hq.symm
          subst this; decide
        · have : q = { mlfq_proc 2 (some 0) procstate.RUNNING with
              cpu_share := 20, stride := 500, pass := 1000 } := by
            simpa [ex_zombie] using hq.symm
          subst this; decide)
      (by intro h; exact absurd h (by decide)) (by decide)
  refine ⟨s1, h, h2, ?_⟩
  rw [h3, h2]; decide

theorem thread_join_loop_none (s : Kernel) (cur : Nat) (thread : Int)
    (hnz : ∀ q ∈ s.ptable,
      ¬ (q.parent = some cur ∧ q.state = procstate.ZOMBIE ∧ q.tid = thread)) (n : Nat) :
    ∀ (k : Nat) (hk : Bool), k + n ≤ s.ptable.length →
    ∃ hk1, thread_join_loop cur thread n k s hk = some ((none, hk1), s) ∧
      (hk1 = true ↔ hk = true ∨ ∃ j q, k ≤ j ∧ j < k + n ∧ s.ptable[j]? = some q ∧
        q.parent = some cur) := by
  induction n with
  | zero =>
    intro k hk _
    refine ⟨hk, rfl, ?_⟩
    constructor
    · intro h; exact Or.inl h
    · rintro (h | ⟨j, q, h1, h2, _⟩)
      · exact h
      · omega
  | succ n ih =>
    intro k hk hlen
    have hkl : k < s.ptable.length := by omega
    have hq : s.ptable[k]? = some s.ptable[k] := List.getElem?_eq_getElem hkl
    have hnzk := hnz _ (List.getElem?_mem hq)
    simp only [thread_join_loop, getProc, hq]
    by_cases hpk : s.ptable[k].parent = some cur
    · have hns : ¬ (s.ptable[k].state = procstate.ZOMBIE ∧ s.ptable[k].tid = thread) :=
        fun h => hnzk ⟨hpk, h⟩
      simp only [hpk, ne_eq, not_true_eq_false, if_false, if_neg hns]
      obtain ⟨hk1, e, hiff⟩ := ih (k + 1) true (by omega)
      refine ⟨hk1, e, ?_⟩
      rw [hiff]
      constructor
      · intro _; exact Or.inr ⟨k, _, le_refl _, by omega, hq, hpk⟩
      · intro _; exact Or.inl rfl
    · simp only [ne_eq, hpk, not_false_eq_true, if_true]
      obtain ⟨hk1, e, hiff⟩ := ih (k + 1) hk (by omega)
      refine ⟨hk1, e, ?_⟩
      rw [hiff]
      constructor
      · rintro (h | ⟨j, q, h1, h2, h3, h4⟩)
        · exact Or.inl h
        · exact Or.inr ⟨j, q, by omega, by omega, h3, h4⟩
      · rintro (h | ⟨j, q, h1, h2, h3, h4⟩)
        · exact Or.inl h
        · by_cases hjk : j = k
          · subst hjk
            rw [hq] at h3
            cases h3
            exact absurd h4 hpk
          · exact Or.inr ⟨j, q, by omega, by omega, h3, h4⟩

/-- Storing `wtid` in the caller's slot changes no slot's `parent`, `state`,
`tid` or `killed`. -/
theorem set_wtid_fields (s : Kernel) (cur : Nat) (c : proc) (thread : Int)
    (hc : getProc s cur = some c) (j : Nat) (q0 : proc)
    (h : (setProc s cur { c with wtid := thread }).ptable[j]? = some q0) :
    ∃ q, s.ptable[j]? = some q ∧ q0.parent = q.parent ∧ q0.state = q.state ∧
      q0.tid = q.tid ∧ q0.killed = q.killed := by
  have hlt : cur < s.ptable.length := (List.getElem?_eq_some.1 hc).1
  by_cases hj : j = cur
  · subst hj
    simp only [setProc, List.getElem?_set_self hlt] at h
    cases h
    exact ⟨c, hc, rfl, rfl, rfl, rfl⟩
  · simp only [setProc, List.getElem?_set_ne (Ne.symm hj)] at h
    exact ⟨q0, h, rfl, rfl, rfl, rfl⟩

/-- Claim C9 (amended): when no child of the caller is a ZOMBIE with the
requested tid, one scan of `thread_join` returns -1 if the caller has no
children at all or is killed; if the caller has some child (of whatever tid)
and is not killed, the scan does not return: the caller goes to sleep. In all
three cases only `curproc->wtid` has changed. -/
theorem thread_join_absent (s : Kernel) (cur : Nat) (thread : Int) (c : proc)
    (hc : getProc s cur = some c)
    (hno : ∀ q ∈ s.ptable,
      ¬ (q.parent = some cur ∧ q.state = procstate.ZOMBIE ∧ q.tid = thread)) :
    ((∀ q ∈ s.ptable, q.parent ≠ some cur) →
      thread_join_scan s cur thread =
        some (ScanResult.ret (-1), none, setProc s cur { c with wtid := thread })) ∧
    (c.killed ≠ 0 →
      thread_join_scan s cur thread =
        some (ScanResult.ret (-1), none, setProc s cur { c with wtid := thread })) ∧
    ((∃ q ∈ s.ptable, q.parent = some cur) → c.killed = 0 →
      thread_join_scan s cur thread =
        some (ScanResult.block, none, setProc s cur { c with wtid := thread })) := by
  have hlt : cur < s.ptable.length := (List.getElem?_eq_some.1 hc).1
  have hno0 : ∀ q ∈ (setProc s cur { c with wtid := thread }).ptable,
      ¬ (q.parent = some cur ∧ q.state = procstate.ZOMBIE ∧ q.tid = thread) := by
    intro q0 hq0
    obtain ⟨j, hj⟩ := List.mem_iff_getElem?.1 hq0
    obtain ⟨q, h1, h2, h3, h4, _⟩ := set_wtid_fields s cur c thread hc j q0 hj
    rw [h2, h3, h4]
    exact hno q (List.getElem?_mem h1)
  obtain ⟨hk1, e, hiff⟩ := thread_join_loop_none _ cur thread hno0
    (setProc s cur { c with wtid := thread }).ptable.length 0 false (by omega)
  have hcur : getProc (setProc s cur { c with wtid := thread }) cur =
      some { c with wtid := thread } := by
    simp [getProc, setProc, List.getElem?_set_self hlt]
  have hscan : thread_join_scan s cur thread =
      some (if c.killed ≠ 0 ∨ hk1 = false then ScanResult.ret (-1) else ScanResult.block,
        none, setProc s cur { c with wtid := thread }) := by
    simp only [thread_join_scan, hc, e, hcur]
    split_ifs <;> rfl
  refine ⟨?_, ?_, ?_⟩
  · intro hnk
    have hf : hk1 = false := by
      cases hk1
      · rfl
      · exfalso
        rcases hiff.1 rfl with h | ⟨j, q0, _, _, h3, h4⟩
        · cases h
        · obtain ⟨q, h1, h2, _⟩ := set_wtid_fields s cur c thread hc j q0 h3
          rw [h2] at h4
          exact hnk q (List.getElem?_mem h1) h4
    rw [hscan, if_pos (Or.inr hf)]
  · intro hk
    rw [hscan, if_pos (Or.inl hk)]
  · rintro ⟨q, hq, hpar⟩ hk
    have ht : hk1 = true := by
      apply hiff.2
      right
      obtain ⟨j, hj⟩ := List.mem_iff_getElem?.1 hq
      have hjl : j < s.ptable.length := (List.getElem?_eq_some.1 hj).1
      by_cases hjc : j = cur
      · subst hjc
        refine ⟨j, { c with wtid := thread }, Nat.zero_le _, by simp [setProc]; omega, ?_, ?_⟩
        · simp [setProc, List.getElem?_set_self hlt]
        · rw [getProc, hj] at hc
          cases hc
          exact hpar
      · refine ⟨j, q, Nat.zero_le _, by simp [setProc]; omega, ?_, hpar⟩
        simp [setProc, List.getElem?_set_ne (Ne.symm hjc), hj]
    rw [hscan, if_neg (by simp [hk, ht])]

/-- Running the amended C9 on `ex_thread`: the caller in slot 1 has a live
thread with tid 0 and joins tid 5; it is put to sleep. -/
theorem thread_join_absent_witness :
    thread_join_scan ex_thread 1 5 =
      some (ScanResult.block, none,
        setProc ex_thread 1
          { { mlfq_proc 2 (some 0) procstate.RUNNING with num_LWP := 1 } with wtid := 5 }) :=
  (thread_join_absent ex_thread 1 5 { mlfq_proc 2 (some 0) procstate.RUNNING with num_LWP := 1 }
    (by decide) (by decide)).2.2 (by decide) (by decide)

/-- Claim C9 fails as stated: on `ex_thread` the caller (slot 1, not killed)
has no child with tid 5, only a live thread with tid 0, and
`thread_join(5, ..)` does not return -1 but blocks. -/
theorem thread_join_blocks_on_absent_tid :
    (∀ q ∈ ex_thread.ptable, ¬ (q.parent = some 1 ∧ q.tid = 5)) ∧
    (thread_join_scan ex_thread 1 5).map (fun r => r.1) = some ScanResult.block := by
  decide

/-- Claim C10 at the failing input `ex_stride_fork`: the Stride parent in slot
1 (share 20) creates its first thread; the call succeeds and the forked
heavyweight child in slot 2 (`is_LWP == 0`, share 0 before) is given
`cpu_share == 21`, `stride == 476` and the parent's pass 1000 as well. -/
theorem thread_create_shares_forked_child :
    (ex_stride_fork.ptable[2]?).map (fun p => (p.is_LWP, p.parent, p.cpu_share, p.stride))
      = some ((0 : Int), some 1, (0 : Int), (0 : Int)) ∧
    (thread_create ex_stride_fork 1 (some 7) (fun _ n => n) true).map (fun r => r.1)
      = some (0 : Int) ∧
    (thread_create ex_stride_fork 1 (some 7) (fun _ n => n) true).map
      (fun r => (r.2.2.ptable[2]?).map (fun p => (p.is_LWP, p.parent, p.cpu_share, p.stride)))
      = some (some ((0 : Int), some 1, (21 : Int), (476 : Int))) ∧
    (thread_create ex_stride_fork 1 (some 7) (fun _ n => n) true).map
      (fun r => (r.2.2.ptable[2]?).map (fun p => p.pass))
      = some (some (1000 : Int)) := by
  decide

theorem scs_delete_frame (s s1 : Kernel) (cur : Nat) (level : Int)
    (h : scs_delete s cur level = some s1) :
    s1.ptable = s.ptable ∧ s1.mlfq_share = s.mlfq_share ∧ s1.mlfq_pass = s.mlfq_pass ∧
      s1.mlfq_stride = s.mlfq_stride ∧ s1.totalticks = s.totalticks := by
  unfold scs_delete at h
  split at h
  · split at h
    · cases h
    · split at h
      · cases h
      · cases h; exact ⟨rfl, rfl, rfl, rfl, rfl⟩
  · cases h

theorem min_pass_scan_no_stride (ps : List proc) (m : Int)
    (h : ∀ p ∈ ps, p.stride = 0) : min_pass_scan ps m = m := by
  unfold min_pass_scan
  induction ps generalizing m with
  | nil => rfl
  | cons p ps ih =>
    have hp : p.stride = 0 := h p (List.mem_cons_self _ _)
    simp only [List.foldl_cons, hp, ne_eq, not_true_eq_false, and_false, if_false]
    exact ih m (fun q hq => h q (List.mem_cons_of_mem _ hq))

/-- The state left by `set_cpu_share(20)` from `mlfq_share == 100` when no
slot has a share yet and the caller has no threads. -/
theorem admission_20 (s0 s1 : Kernel) (b : Nat)
    (h100 : s0.mlfq_share = 100)
    (hmlfq : ∀ p ∈ s0.ptable, p.cpu_share = 0 ∧ p.stride = 0)
    (hnothreads : ∀ p, getProc s0 b = some p → p.num_LWP ≤ 0)
    (hadm : set_cpu_share s0 b 20 = some (20, s1)) :
    s1.mlfq_stride = 125 ∧
    (∃ p, s1.ptable[b]? = some p ∧ p.cpu_share = 20 ∧ p.stride = 500 ∧
      p.pass = s1.mlfq_pass) ∧
    (∀ (j : Nat) (p1 : proc), j ≠ b → s1.ptable[j]? = some p1 → p1.cpu_share = 0) := by
  unfold set_cpu_share at hadm
  rw [h100] at hadm
  simp only [show ¬ ((20 : Int) < 0) by norm_num, show ¬ ((100 : Int) - 20 ≤ 20) by norm_num,
    if_false] at hadm
  cases hp : getProc s0 b with
  | none => rw [hp] at hadm; cases hadm
  | some p =>
    rw [hp] at hadm
    simp only at hadm
    cases hd : scs_delete s0 b p.level with
    | none => rw [hd] at hadm; cases hadm
    | some sd =>
      rw [hd] at hadm
      obtain ⟨f1, f2, f3, f4, f5⟩ := scs_delete_frame s0 sd b p.level hd
      have hnl : ¬ p.num_LWP > 0 := by have := hnothreads p hp; omega
      have h80 : cdiv 10000 (sd.mlfq_share - 20) = some 125 := by
        rw [f2, h100]; decide
      have h500 : cdiv 10000 20 = some 500 := by decide
      simp only [h80, h500, if_neg hnl] at hadm
      have hs1 := (Prod.mk.inj (Option.some.inj hadm)).2
      have hlt : b < s0.ptable.length := (List.getElem?_eq_some.1 hp).1
      subst hs1
      refine ⟨rfl, ⟨{ p with cpu_share := 20, stride := 500,
                              pass := min_pass_scan s0.ptable s0.mlfq_pass }, ?_, ?_, ?_, ?_⟩, ?_⟩
      · simp only [setProc, f1]
        exact List.getElem?_set_self hlt
      · rfl
      · rfl
      · simp only [setProc]
        rw [min_pass_scan_no_stride _ _ (fun q hq => (hmlfq q hq).2), f3]
      · intro j p1 hj hp1
        simp only [setProc, f1, List.getElem?_set_ne (Ne.symm hj)] at hp1
        exact (hmlfq p1 (List.getElem?_mem hp1)).1

/-- One decision of the scenario and what follows it up to the next decision:
the Stride slot is chosen exactly when its lead `d` is not positive; then its
pass becomes the 32-bit sum of pass and 500, otherwise `mlfq_pass` becomes the
32-bit sum of `mlfq_pass` and 125. -/
theorem ahead_step (b : Nat) (d : Int) (t t1 : Kernel) (h : ahead b d t)
    (hstep : stride_undisturbed b (scheduler_decide t).2 t1) :
    ((scheduler_decide t).1 = some b ↔ d ≤ 0) ∧
    (d ≤ 0 → t1.mlfq_pass = t.mlfq_pass ∧
      ahead b (wrap_int (t.mlfq_pass + d + 500) - t.mlfq_pass) t1) ∧
    (¬ d ≤ 0 → t1.mlfq_pass = wrap_int (t.mlfq_pass + 125) ∧
      ahead b (t.mlfq_pass + d - wrap_int (t.mlfq_pass + 125)) t1) := by
  obtain ⟨hms, ⟨p, hp, hst, hcs, hstr, hpass⟩, hoth⟩ := h
  obtain ⟨u1, u2, u3, u4⟩ := hstep
  have hlt : b < t.ptable.length := (List.getElem?_eq_some.1 hp).1
  rcases scheduler_decide_eq t with ⟨e, hn⟩ | ⟨k, q, e, hk, hq, hle, _⟩
  · have hd : ¬ d ≤ 0 := by
      intro hd
      exact hn p (List.getElem?_mem hp) ⟨⟨hst, by rw [hcs]; norm_num⟩, by omega⟩
    simp only [e] at u1 u2 u3
    refine ⟨?_, fun h0 => absurd h0 hd, fun _ => ⟨by rw [u1, hms], ?_⟩⟩
    · rw [e]; simp [hd]
    · obtain ⟨p1, h1, h2, h3, h4, h5⟩ := u3 p hp
      refine ⟨by rw [u2]; exact hms, ⟨p1, h1, h2, by rw [h3, hcs], by rw [h4, hstr], ?_⟩, u4⟩
      rw [h5, hpass, u1, hms]; ring
  · have hkb : k = b := by
      by_contra hne
      exact hq.2 (hoth k q hne hk)
    subst hkb
    rw [hp] at hk
    cases hk
    have hd : d ≤ 0 := by omega
    simp only [e, setProc] at u1 u2 u3
    refine ⟨?_, fun _ => ⟨u1, ?_⟩, fun h0 => absurd hd h0⟩
    · rw [e]; simp [hd]
    · obtain ⟨p1, h1, h2, h3, h4, h5⟩ := u3 _ (List.getElem?_set_self hlt)
      refine ⟨by rw [u2]; exact hms, ⟨p1, h1, h2, by rw [h3]; exact hcs,
        by rw [h4]; exact hstr, ?_⟩, u4⟩
      rw [h5, u1]
      simp only
      rw [hpass, hstr]; ring_nf

/-- The step `ahead_step` while the sums stay in the range of `int`: the lead
grows by 500 when the Stride slot is chosen and shrinks by 125 otherwise. -/
theorem ahead_step_exact (b : Nat) (d : Int) (t t1 : Kernel) (h : ahead b d t)
    (hstep : stride_undisturbed b (scheduler_decide t).2 t1)
    (hs : d ≤ 0 → -2147483648 ≤ t.mlfq_pass + d + 500 ∧ t.mlfq_pass + d + 500 ≤ 2147483647)
    (hm : ¬ d ≤ 0 → -2147483648 ≤ t.mlfq_pass + 125 ∧ t.mlfq_pass + 125 ≤ 2147483647) :
    ((scheduler_decide t).1 = some b ↔ d ≤ 0) ∧
    ahead b (if d ≤ 0 then d + 500 else d - 125) t1 ∧
    t1.mlfq_pass = (if d ≤ 0 then t.mlfq_pass else t.mlfq_pass + 125) := by
  obtain ⟨a1, a2, a3⟩ := ahead_step b d t t1 h hstep
  refine ⟨a1, ?_, ?_⟩
  · by_cases hd : d ≤ 0
    · rw [if_pos hd]
      have e := (a2 hd).2
      rw [wrap_int_eq _ (hs hd).1 (hs hd).2] at e
      have e2 : t.mlfq_pass + d + 500 - t.mlfq_pass = d + 500 := by ring
      rw [e2] at e
      exact e
    · rw [if_neg hd]
      have e := (a3 hd).2
      rw [wrap_int_eq _ (hm hd).1 (hm hd).2] at e
      have e2 : t.mlfq_pass + d - (t.mlfq_pass + 125) = d - 125 := by ring
      rw [e2] at e
      exact e
  · by_cases hd : d ≤ 0
    · rw [if_pos hd]; exact (a2 hd).1
    · rw [if_neg hd, (a3 hd).1, wrap_int_eq _ (hm hd).1 (hm hd).2]

theorem lead_range (k : Nat) : 0 ≤ lead k ∧ lead k ≤ 500 := by
  unfold lead
  have h5 : k % 5 < 5 := Nat.mod_lt _ (by norm_num)
  interval_cases hk : k % 5 <;> simp

theorem lead_succ (k : Nat) :
    (if lead k ≤ 0 then lead k + 500 else lead k - 125) = lead (k + 1) := by
  unfold lead
  have h5 : k % 5 < 5 := Nat.mod_lt _ (by norm_num)
  have hs : (k + 1) % 5 = if k % 5 = 4 then 0 else k % 5 + 1 := by
    split_ifs <;> omega
  rw [hs]
  interval_cases hk : k % 5 <;> simp

/-- Before each of the first `N + 1` decisions the lead of the Stride pass is
`lead k`, as long as `mlfq_pass`, which has grown by at most `125 * k`, stays
500 below the largest `int`. -/
theorem ahead_all (b : Nat) (tr : Nat → Kernel) (N : Nat) (h0 : ahead b 0 (tr 0))
    (hlo : -2147483648 ≤ (tr 0).mlfq_pass)
    (hhi : (tr 0).mlfq_pass + 125 * (N : Int) + 500 ≤ 2147483647)
    (hstep : ∀ k, stride_undisturbed b (scheduler_decide (tr k)).2 (tr (k + 1))) :
    ∀ k, k ≤ N → ahead b (lead k) (tr k) ∧ (tr 0).mlfq_pass ≤ (tr k).mlfq_pass ∧
      (tr k).mlfq_pass ≤ (tr 0).mlfq_pass + 125 * (k : Int) := by
  intro k
  induction k with
  | zero => intro _; exact ⟨by simpa [lead] using h0, le_refl _, by simp⟩
  | succ k ih =>
    intro hk
    obtain ⟨i1, i2, i3⟩ := ih (by omega)
    have hr := lead_range k
    have hkN : (k : Int) + 1 ≤ N := by exact_mod_cast hk
    obtain ⟨_, a2, a3⟩ := ahead_step_exact b (lead k) (tr k) (tr (k + 1)) i1 (hstep k)
      (fun _ => ⟨by omega, by omega⟩) (fun _ => ⟨by omega, by omega⟩)
    rw [lead_succ] at a2
    refine ⟨a2, ?_, ?_⟩
    · rw [a3]; split_ifs <;> omega
    · rw [a3]; push_cast; split_ifs <;> omega

theorem chosen_iff (b : Nat) (tr : Nat → Kernel) (N : Nat) (h0 : ahead b 0 (tr 0))
    (hlo : -2147483648 ≤ (tr 0).mlfq_pass)
    (hhi : (tr 0).mlfq_pass + 125 * (N : Int) + 500 ≤ 2147483647)
    (hstep : ∀ k, stride_undisturbed b (scheduler_decide (tr k)).2 (tr (k + 1)))
    (k : Nat) (hk : k ≤ N) :
    (scheduler_decide (tr k)).1 = some b ↔ k % 5 = 0 := by
  obtain ⟨i1, i2, i3⟩ := ahead_all b tr N h0 hlo hhi hstep k hk
  have hkN : (k : Int) ≤ N := by exact_mod_cast hk
  rw [(ahead_step b (lead k) (tr k) (tr (k + 1)) i1 (hstep k)).1]
  unfold lead
  have h5 : k % 5 < 5 := Nat.mod_lt _ (by norm_num)
  interval_cases hk5 : k % 5 <;> simp

theorem stride_wins_period (b : Nat) (tr : Nat → Kernel) (k : Nat) :
    ∀ m, (∀ j, j < k + 5 * m → ((scheduler_decide (tr j)).1 = some b ↔ j % 5 = 0)) →
      stride_wins tr b k (5 * m) = m := by
  intro m
  induction m with
  | zero => intro _; rfl
  | succ m ih =>
    intro hch
    have e : 5 * (m + 1) = 5 * m + 1 + 1 + 1 + 1 + 1 := by ring
    rw [e]
    simp only [stride_wins, ih (fun j hj => hch j (by omega)),
      hch (k + 5 * m) (by omega), hch (k + (5 * m + 1)) (by omega),
      hch (k + (5 * m + 1 + 1)) (by omega), hch (k + (5 * m + 1 + 1 + 1)) (by omega),
      hch (k + (5 * m + 1 + 1 + 1 + 1)) (by omega)]
    split_ifs <;> omega

/-- The share of a process admitted by `set_cpu_share(20)` while the passes
stay in the range of `int`: let a process be admitted from `mlfq_share == 100`
while no slot has a share (so stride 500 against `mlfq_stride` 125, its pass
starting at `mlfq_pass`), and let `tr` be any execution of the scheduler loop
in which the Stride process is RUNNABLE again at every decision and nothing
but the decisions touches the passes. As long as `mlfq_pass`, which grows by
at most 125 per decision, stays 500 below the largest `int`, the Stride
process is chosen exactly 2,000 times in any 10,000 consecutive decisions. -/
theorem stride_share_20_in_range (s0 s1 : Kernel) (b : Nat) (tr : Nat → Kernel) (N : Nat)
    (h100 : s0.mlfq_share = 100)
    (hmlfq : ∀ p ∈ s0.ptable, p.cpu_share = 0 ∧ p.stride = 0)
    (hnothreads : ∀ p, getProc s0 b = some p → p.num_LWP ≤ 0)
    (hadm : set_cpu_share s0 b 20 = some (20, s1))
    (hstart : stride_undisturbed b s1 (tr 0))
    (hstep : ∀ k, stride_undisturbed b (scheduler_decide (tr k)).2 (tr (k + 1)))
    (hlo : -2147483648 ≤ (tr 0).mlfq_pass)
    (hhi : (tr 0).mlfq_pass + 125 * (N : Int) + 500 ≤ 2147483647) :
    ∀ k, k + 10000 ≤ N → stride_wins tr b k 10000 = 2000 ∧
      1900 ≤ stride_wins tr b k 10000 ∧ stride_wins tr b k 10000 ≤ 2100 := by
  obtain ⟨a1, ⟨p, a2, a3, a4, a5⟩, a6⟩ := admission_20 s0 s1 b h100 hmlfq hnothreads hadm
  obtain ⟨u1, u2, u3, u4⟩ := hstart
  obtain ⟨p1, h1, h2, h3, h4, h5⟩ := u3 p a2
  have h0 : ahead b 0 (tr 0) :=
    ⟨by rw [u2, a1], ⟨p1, h1, h2, by rw [h3, a3], by rw [h4, a4],
      by rw [h5, a5, u1]; ring⟩, u4⟩
  intro k hk
  have e := stride_wins_period b tr k 2000
    (fun j hj => chosen_iff b tr N h0 hlo hhi hstep j (by omega))
  have e1 : stride_wins tr b k 10000 = 2000 := e
  rw [e1]
  exact ⟨rfl, by norm_num, by norm_num⟩

/-- In the example execution, every round leaves the Stride slot 1 RUNNABLE
and undisturbed. -/
theorem ex_round_undisturbed (t : Kernel)
    (h1 : ∃ p, t.ptable[1]? = some p ∧ p.state = procstate.RUNNABLE)
    (h2 : ∀ (j : Nat) (p1 : proc), j ≠ 1 → t.ptable[j]? = some p1 → p1.cpu_share = 0) :
    stride_undisturbed 1 (scheduler_decide t).2 (ex_round t) ∧
    (∃ p, (ex_round t).ptable[1]? = some p ∧ p.state = procstate.RUNNABLE) ∧
    (∀ (j : Nat) (p1 : proc), j ≠ 1 → (ex_round t).ptable[j]? = some p1 →
      p1.cpu_share = 0) := by
  obtain ⟨p, hp, hst⟩ := h1
  have hlt : 1 < t.ptable.length := (List.getElem?_eq_some.1 hp).1
  rcases scheduler_decide_eq t with ⟨e, _⟩ | ⟨k, q, e, hk, hq, _, _⟩
  · have er : ex_round t = { t with mlfq_pass := wrap_int (t.mlfq_pass + t.mlfq_stride) } := by
      simp [ex_round, e]
    rw [er, e]
    refine ⟨⟨rfl, rfl, ?_, h2⟩, ⟨p, hp, hst⟩, h2⟩
    intro p0 hp0
    have : p0 = p := by
      have h := hp0.symm.trans hp
      exact Option.some.inj h
    subst this
    exact ⟨p0, hp, hst, rfl, rfl, rfl⟩
  · have hkb : k = 1 := by
      by_contra hne
      exact hq.2 (h2 k q hne hk)
    subst hkb
    rw [hp] at hk
    cases hk
    have er : ex_round t = setProc t 1
        { p with pass := wrap_int (p.pass + p.stride), state := procstate.RUNNABLE } := by
      simp [ex_round, e, yield, getProc, setProc, List.getElem?_set_self hlt]
    have hget : (ex_round t).ptable[1]? =
        some { p with pass := wrap_int (p.pass + p.stride), state := procstate.RUNNABLE } := by
      rw [er]; simp only [setProc]; exact List.getElem?_set_self hlt
    have hoth : ∀ (j : Nat) (p1 : proc), j ≠ 1 → (ex_round t).ptable[j]? = some p1 →
        p1.cpu_share = 0 := by
      intro j p1 hj hp1
      rw [er] at hp1
      simp only [setProc, List.getElem?_set_ne (Ne.symm hj)] at hp1
      exact h2 j p1 hj hp1
    refine ⟨⟨?_, ?_, ?_, hoth⟩, ⟨_, hget, rfl⟩, hoth⟩
    · rw [er, e]; rfl
    · rw [er, e]; rfl
    · intro p0 hp0
      rw [e] at hp0
      simp only [setProc, List.getElem?_set_self hlt] at hp0
      cases hp0
      exact ⟨_, hget, rfl, rfl, rfl, rfl⟩

/-- A check over the table that no slot but slot 1 has a share. -/
theorem others_no_share (t : Kernel)
    (h : (List.range t.ptable.length).all
      (fun j => j == 1 || t.ptable[j]?.map (fun p => p.cpu_share) == some 0) = true) :
    ∀ (j : Nat) (p1 : proc), j ≠ 1 → t.ptable[j]? = some p1 → p1.cpu_share = 0 := by
  intro j p1 hj hp1
  have hlt : j < t.ptable.length := (List.getElem?_eq_some.1 hp1).1
  have := List.all_eq_true.1 h j (List.mem_range.2 hlt)
  simp [hj, hp1] at this
  exact this

/-- An execution made of `ex_round` steps keeps slot 1 RUNNABLE and the only
slot with a share. -/
theorem ex_rounds_inv (tr : Nat → Kernel)
    (h1 : ∃ p, (tr 0).ptable[1]? = some p ∧ p.state = procstate.RUNNABLE)
    (h2 : ∀ (j : Nat) (p1 : proc), j ≠ 1 → (tr 0).ptable[j]? = some p1 → p1.cpu_share = 0)
    (hs : ∀ k, tr (k + 1) = ex_round (tr k)) : ∀ k,
    (∃ p, (tr k).ptable[1]? = some p ∧ p.state = procstate.RUNNABLE) ∧
    (∀ (j : Nat) (p1 : proc), j ≠ 1 → (tr k).ptable[j]? = some p1 → p1.cpu_share = 0) := by
  intro k
  induction k with
  | zero => exact ⟨h1, h2⟩
  | succ k ih =>
    rw [hs k]
    exact (ex_round_undisturbed (tr k) ih.1 ih.2).2

theorem ex_trace_inv : ∀ k,
    (∃ p, (ex_trace k).ptable[1]? = some p ∧ p.state = procstate.RUNNABLE) ∧
    (∀ (j : Nat) (p1 : proc), j ≠ 1 → (ex_trace k).ptable[j]? = some p1 →
      p1.cpu_share = 0) :=
  ex_rounds_inv ex_trace
    ⟨{ mlfq_proc 2 (some 0) procstate.RUNNABLE with
        cpu_share := 20, stride := 500, pass := 0 }, by decide⟩
    (others_no_share _ (by decide)) (fun _ => rfl)

/-- The execution `ex_trace` that follows `set_cpu_share(20)` by slot 1 of
`ex_mlfq` is an instance of `stride_share_20_in_range`: slot 1 wins 2,000 of
the 10,000 decisions that start with the eighth. -/
theorem stride_share_20_ex_trace :
    stride_wins ex_trace 1 7 10000 = 2000 ∧
      1900 ≤ stride_wins ex_trace 1 7 10000 ∧ stride_wins ex_trace 1 7 10000 ≤ 2100 :=
  stride_share_20_in_range ex_mlfq ex_admitted 1 ex_trace 10007 (by decide) (by decide)
    (by
      intro p hp
      have h : getProc ex_mlfq 1 = some (mlfq_proc 2 (some 0) procstate.RUNNING) := by decide
      have : p = mlfq_proc 2 (some 0) procstate.RUNNING := Option.some.inj (hp.symm.trans h)
      subst this; decide)
    (by decide)
    (by
      refine ⟨by decide, by decide, ?_, (ex_trace_inv 0).2⟩
      intro p hp
      have h : ex_admitted.ptable[1]? = some
          { mlfq_proc 2 (some 0) procstate.RUNNING with
              cpu_share := 20, stride := 500, pass := 0 } := by decide
      have : p = _ := Option.some.inj (hp.symm.trans h)
      subst this
      exact ⟨{ mlfq_proc 2 (some 0) procstate.RUNNABLE with
              cpu_share := 20, stride := 500, pass := 0 }, by decide, rfl, rfl, rfl, rfl⟩)
    (fun k => (ex_round_undisturbed (ex_trace k) (ex_trace_inv k).1 (ex_trace_inv k).2).1)
    (by decide) (by decide) 7 (by norm_num)

/-- Scheduler decisions of `ex_mlfq` while no process has a share: each goes
to the MLFQ and adds `mlfq_stride == 100` to `mlfq_pass`. -/
theorem idle_round (m : Int) :
    ex_round { ex_mlfq with mlfq_pass := m } =
      { ex_mlfq with mlfq_pass := wrap_int (m + 100) } := by
  simp [ex_round, scheduler_decide, stride_scan, ex_mlfq, mlfq_proc, proc.zero]

theorem idle_rounds : ∀ n : Nat, 100 * (n : Int) ≤ 2147483647 →
    Nat.iterate ex_round n ex_mlfq = { ex_mlfq with mlfq_pass := 100 * n } := by
  intro n
  induction n with
  | zero => intro _; rfl
  | succ n ih =>
    intro h
    rw [Function.iterate_succ_apply', ih (by push_cast at h; omega), idle_round,
      wrap_int_eq _ (by omega) (by push_cast at h; omega)]
    congr 1

theorem ex_late_trace_inv : ∀ k,
    (∃ p, (ex_late_trace k).ptable[1]? = some p ∧ p.state = procstate.RUNNABLE) ∧
    (∀ (j : Nat) (p1 : proc), j ≠ 1 → (ex_late_trace k).ptable[j]? = some p1 →
      p1.cpu_share = 0) :=
  ex_rounds_inv ex_late_trace
    ⟨{ mlfq_proc 2 (some 0) procstate.RUNNABLE with
        cpu_share := 20, stride := 500, pass := 2147483600 }, by decide⟩
    (others_no_share _ (by decide)) (fun _ => rfl)

/-- After the late admission the pass of slot 1 wraps at the first decision
and is then `500 * j - 2^32` behind `mlfq_pass`, which stands still. -/
theorem ex_late_ahead : ∀ j : Nat, j ≤ 10000 →
    ahead 1 (if j = 0 then 0 else 500 * (j : Int) - 4294967296) (ex_late_trace j) ∧
    (ex_late_trace j).mlfq_pass = 2147483600 := by
  intro j
  induction j with
  | zero =>
    intro _
    exact ⟨⟨by decide, ⟨{ mlfq_proc 2 (some 0) procstate.RUNNABLE with
        cpu_share := 20, stride := 500, pass := 2147483600 }, by decide, rfl, rfl, rfl,
        by decide⟩, (ex_late_trace_inv 0).2⟩, by decide⟩
  | succ j ih =>
    intro hj
    obtain ⟨i1, i2⟩ := ih (by omega)
    have hjI : (j : Int) ≤ 9999 := by exact_mod_cast (by omega : j ≤ 9999)
    have hd : (if j = 0 then (0 : Int) else 500 * (j : Int) - 4294967296) ≤ 0 := by
      split_ifs <;> omega
    have hu := (ex_round_undisturbed (ex_late_trace j) (ex_late_trace_inv j).1
      (ex_late_trace_inv j).2).1
    obtain ⟨b1, b2⟩ := (ahead_step 1 _ (ex_late_trace j) (ex_late_trace (j + 1)) i1 hu).2.1 hd
    refine ⟨?_, by rw [b1, i2]⟩
    rw [i2] at b2
    have e : wrap_int (2147483600 + (if j = 0 then (0 : Int) else 500 * (j : Int) - 4294967296)
        + 500) - 2147483600 =
        (if j + 1 = 0 then (0 : Int) else 500 * ((j + 1 : Nat) : Int) - 4294967296) := by
      rw [if_neg (Nat.succ_ne_zero j)]
      by_cases h0 : j = 0
      · subst h0
        rw [if_pos rfl, wrap_int_over _ (by norm_num) (by norm_num)]
        norm_num
      · rw [if_neg h0, wrap_int_eq _ (by omega) (by omega)]
        push_cast; ring
    rw [e] at b2
    exact b2

theorem ex_late_chosen (j : Nat) (hj : j ≤ 10000) :
    (scheduler_decide (ex_late_trace j)).1 = some 1 := by
  have hjI : (j : Int) ≤ 10000 := by exact_mod_cast hj
  have hu := (ex_round_undisturbed (ex_late_trace j) (ex_late_trace_inv j).1
    (ex_late_trace_inv j).2).1
  refine (ahead_step 1 _ (ex_late_trace j) (ex_late_trace (j + 1))
    (ex_late_ahead j hj).1 hu).1.2 ?_
  split_ifs <;> omega

theorem stride_wins_all (b : Nat) (tr : Nat → Kernel) (k : Nat) :
    ∀ n, (∀ j, j < n → (scheduler_decide (tr (k + j))).1 = some b) →
      stride_wins tr b k n = n := by
  intro n
  induction n with
  | zero => intro _; rfl
  | succ n ih =>
    intro h
    simp only [stride_wins, ih (fun j hj => h j (by omega)), h n (by omega), if_true]

theorem ex_late_wins : stride_wins ex_late_trace 1 0 10000 = 10000 :=
  stride_wins_all 1 ex_late_trace 0 10000
    (fun j hj => by rw [Nat.zero_add]; exact ex_late_chosen j (by omega))

/-- Claim C4 at the failing input `ex_mlfq_late`, the state `ex_mlfq` after
21,474,836 decisions for the MLFQ (`mlfq_pass == 2147483600`,
`mlfq_share == 100`, no slot with a share). Slot 1 is admitted by
`set_cpu_share(20)`: stride 500 against `mlfq_stride` 125, its pass starting
at `mlfq_pass`; slots 0 and 2 are RUNNABLE MLFQ processes throughout. The
first decision chooses slot 1 and wraps its pass to -2147483196, far below
`mlfq_pass`, so slot 1 is chosen in every one of the 10,000 decisions that
follow the admission, not in 1,900 to 2,100 of them. -/
theorem stride_monopoly_after_wrap :
    Nat.iterate ex_round 21474836 ex_mlfq = ex_mlfq_late ∧
    ex_mlfq_late.mlfq_share = 100 ∧
    set_cpu_share ex_mlfq_late 1 20 = some (20, ex_late_admitted) ∧
    yield ex_late_admitted 1 = some (ex_late_trace 0) ∧
    (ex_late_trace 0).mlfq_stride = 125 ∧ (ex_late_trace 0).mlfq_pass = 2147483600 ∧
    (ex_late_trace 0).ptable.map (fun p => (p.state, p.cpu_share, p.stride, p.pass)) =
      [(procstate.RUNNABLE, 0, 0, 0), (procstate.RUNNABLE, 20, 500, 2147483600),
       (procstate.RUNNABLE, 0, 0, 0), (procstate.UNUSED, 0, 0, 0)] ∧
    (ex_late_trace 1).ptable[1]?.map (fun p => p.pass) = some (-2147483196) ∧
    (ex_late_trace 1).mlfq_pass = 2147483600 ∧
    stride_wins ex_late_trace 1 0 10000 = 10000 ∧
    ¬ stride_wins ex_late_trace 1 0 10000 ≤ 2100 := by
  have hw := ex_late_wins
  refine ⟨?_, ?_, ?_, ?_, ?_, ?_, ?_, ?_, ?_, hw, ?_⟩
  · rw [idle_rounds 21474836 (by norm_num)]; rfl
  · decide
  · decide
  · decide
  · decide
  · decide
  · decide
  · decide
  · decide
  · rw [hw]; norm_num

theorem wr_ok (row : Row) (i : Int) (v : Option Nat) (h0 : 0 ≤ i) (h1 : i < row.length) :
    wr row i v = some (row.set i.toNat v) := by
  have : i.toNat < row.length := by omega
  simp [wr, h0, this]

/-- Deleting cell `i` by the shift loop and clearing cell `c` leaves, in the
first `c` cells, the first `c + 1` cells of the old row without cell `i`. -/
theorem take_shift_left (row rowa : Row) (i c : Nat) (hic : i ≤ c)
    (hl : rowa.length = row.length)
    (hk : ∀ k, rowa[k]? = if i ≤ k ∧ k < i + (c - i) then row[k + 1]? else row[k]?) :
    (rowa.set c none).take c = (row.take (c + 1)).eraseIdx i := by
  apply List.ext_getElem?
  intro k
  have _ := hl
  rw [List.getElem?_take, List.getElem?_eraseIdx, List.getElem?_take, List.getElem?_take,
    List.getElem?_set, hk k]
  split_ifs <;> first | rfl | (exfalso; omega)

theorem take_set_ge (row : Row) (m n : Nat) (v : Option Nat) (h : n ≤ m) :
    (row.set m v).take n = row.take n := by
  apply List.ext_getElem?
  intro k
  rw [List.getElem?_take, List.getElem?_take, List.getElem?_set]
  split_ifs <;> first | rfl | (exfalso; omega)

theorem take_succ_set (row : Row) (m : Nat) (v : Option Nat) (h : m < row.length) :
    (row.set m v).take (m + 1) = row.take m ++ [v] := by
  rw [List.take_succ, List.getElem?_set_self h, take_set_ge row m m v (le_refl _)]
  rfl

theorem qlist_eq (s : Kernel) (level : Int) (row : Row) (c : Int)
    (hrow : s.q.get? level = some row) (hc : s.q_count.get? level = some c) :
    qlist s level = row.take (c + 1).toNat := by
  simp [qlist, hrow, hc]

theorem demote_keeps (s : Kernel) (level : Int) (i : Int) (pidx : Nat) (p : proc)
    (hp : getProc s pidx = some p)
    (h : level = 2 ∨ ∃ a, allotment.get? level = some a ∧ p.ticks < a) :
    demote s level i pidx = some s := by
  unfold demote
  rw [hp]
  rcases h with h | ⟨a, ha, hlt⟩
  · simp [h]
  · by_cases h2 : level = 2
    · simp [h2]
    · have : ¬ p.ticks ≥ a := by omega
      simp [h2, ha, this]

theorem demote_moves (s : Kernel) (level : Int) (i : Nat) (pidx : Nat) (p : proc)
    (c c1 : Int) (row row1 : Row) (a : Int)
    (hp : getProc s pidx = some p)
    (hc : s.q_count.get? level = some c) (hrow : s.q.get? level = some row)
    (hic : (i : Int) ≤ c) (hcl : c < row.length)
    (h2 : level ≠ 2) (ha : allotment.get? level = some a) (hticks : p.ticks ≥ a)
    (hc1 : s.q_count.get? (level + 1) = some c1) (hrow1 : s.q.get? (level + 1) = some row1)
    (hc1lo : -1 ≤ c1) (hc1hi : c1 + 1 < row1.length) :
    ∃ s1, demote s level i pidx = some s1 ∧
      qlist s1 level = (qlist s level).eraseIdx i ∧
      qlist s1 (level + 1) = qlist s (level + 1) ++ [some pidx] ∧
      s1.q_count.get? level = some (c - 1) ∧ s1.q_count.get? (level + 1) = some (c1 + 1) ∧
      (∀ l, l ≠ level → l ≠ level + 1 → s1.q.get? l = s.q.get? l ∧
        s1.q_count.get? l = s.q_count.get? l) ∧
      s1.ptable = s.ptable.set pidx { p with level := p.level + 1, ticks := 0 } := by
  have hne : level + 1 ≠ level := by omega
  have hne' : level ≠ level + 1 := by omega
  obtain ⟨cn, rfl⟩ := Int.eq_ofNat_of_zero_le (show 0 ≤ c by omega)
  have hcl1 : cn < row.length := by exact_mod_cast hcl
  have hic1 : i ≤ cn := by exact_mod_cast hic
  obtain ⟨rowa, ea, la, ka⟩ := shift_left_spec (cn - i) row i (by omega)
  have hn : ((cn : Int) - (i : Int)).toNat = cn - i := by omega
  have hw1 : wr row1 (c1 + 1) (some pidx) = some (row1.set (c1 + 1).toNat (some pidx)) :=
    wr_ok _ _ _ (by omega) hc1hi
  have hq1 : (s.q.set (level + 1) (row1.set (c1 + 1).toNat (some pidx))).get? level =
      some row := by
    rw [Arr3.get?_set_ne _ _ _ _ hne, hrow]
  have hqc1 : (s.q_count.set (level + 1) (c1 + 1)).get? level = some (cn : Int) := by
    rw [Arr3.get?_set_ne _ _ _ _ hne, hc]
  have hd : demote s level i pidx = some
      { s with
        ptable := s.ptable.set pidx { p with level := p.level + 1, ticks := 0 },
        q_count := (s.q_count.set (level + 1) (c1 + 1)).set level ((cn : Int) - 1),
        q := (s.q.set (level + 1) (row1.set (c1 + 1).toNat (some pidx))).set level
          (rowa.set cn none) } := by
    unfold demote
    simp only [hp, if_neg h2, ha, if_pos hticks, hc1, setProc, hrow1, hw1, hq1, hqc1, hn, ea,
      Arr3.get?_set_self _ _ _ _ hrow1, wr_natCast rowa cn none (by omega)]
  refine ⟨_, hd, ?_, ?_, ?_, ?_, ?_, ?_⟩
  · rw [qlist_eq _ level (rowa.set cn none) ((cn : Int) - 1)
      (Arr3.get?_set_self _ _ _ _ hq1) (Arr3.get?_set_self _ _ _ _ hqc1),
      qlist_eq s level row cn hrow hc]
    have e1 : ((cn : Int) - 1 + 1).toNat = cn := by omega
    have e2 : ((cn : Int) + 1).toNat = cn + 1 := by omega
    rw [e1, e2]
    exact take_shift_left row rowa i cn hic1 la ka
  · rw [qlist_eq _ (level + 1) (row1.set (c1 + 1).toNat (some pidx)) (c1 + 1)
      (by rw [Arr3.get?_set_ne _ _ _ _ hne', Arr3.get?_set_self _ _ _ _ hrow1])
      (by rw [Arr3.get?_set_ne _ _ _ _ hne', Arr3.get?_set_self _ _ _ _ hc1]),
      qlist_eq s (level + 1) row1 c1 hrow1 hc1]
    have e1 : (c1 + 1 + 1).toNat = (c1 + 1).toNat + 1 := by omega
    have hlt : (c1 + 1).toNat < row1.length := by omega
    rw [e1, take_succ_set row1 _ _ hlt]
  · exact Arr3.get?_set_self _ _ _ _ hqc1
  · rw [Arr3.get?_set_ne _ _ _ _ hne', Arr3.get?_set_self _ _ _ _ hc1]
  · intro l hl1 hl2
    constructor
    · rw [Arr3.get?_set_ne _ _ _ _ (Ne.symm hl1), Arr3.get?_set_ne _ _ _ _ (Ne.symm hl2)]
    · rw [Arr3.get?_set_ne _ _ _ _ (Ne.symm hl1), Arr3.get?_set_ne _ _ _ _ (Ne.symm hl2)]
  · rfl

/-- Claim C6: the demotion step for the process `pidx` that was run from index
`i` of `q[level]` (it is still there, and its `level` field is `level`). If
`level < 2` and `ticks >= allotment[level]` (allotments 5, 10, 1000), the
process is deleted from `q[level]` (the other entries keep their order),
appended at the tail of `q[level+1]`, its level becomes `level+1` and its
ticks 0, nothing else changes; otherwise the state is unchanged. A sole
CPU-bound process that gains one tick per slot is at level 0 after 4 ticks, at
level 1 after 5, still at level 1 after 14 and at level 2 after 15. -/
theorem demotion_spec (s : Kernel) (level : Int) (i pidx : Nat) (p : proc) (c : Int)
    (row : Row) (a : Int)
    (hp : getProc s pidx = some p) (hlev : p.level = level)
    (hc : s.q_count.get? level = some c) (hrow : s.q.get? level = some row)
    (hic : (i : Int) ≤ c) (hcl : c < row.length) (hat : row[i]? = some (some pidx))
    (ha : allotment.get? level = some a) :
    (a = if level = 0 then 5 else if level = 1 then 10 else 1000) ∧
    (level < 2 → p.ticks ≥ a → ∀ (c1 : Int) (row1 : Row),
      s.q_count.get? (level + 1) = some c1 → s.q.get? (level + 1) = some row1 →
      -1 ≤ c1 → c1 + 1 < row1.length →
      ∃ s1, demote s level i pidx = some s1 ∧
        (qlist s level)[i]? = some (some pidx) ∧
        qlist s1 level = (qlist s level).eraseIdx i ∧
        qlist s1 (level + 1) = qlist s (level + 1) ++ [some pidx] ∧
        (∀ l, l ≠ level → l ≠ level + 1 → qlist s1 l = qlist s l) ∧
        getProc s1 pidx = some { p with level := level + 1, ticks := 0 } ∧
        (∀ j, j ≠ pidx → s1.ptable[j]? = s.ptable[j]?)) ∧
    (¬ (level < 2 ∧ p.ticks ≥ a) → demote s level i pidx = some s) ∧
    level_ticks_of (run_scheduler tick_yield 8 4 ex_sole) 0 = some (0, 4) ∧
    level_ticks_of (run_scheduler tick_yield 8 5 ex_sole) 0 = some (1, 0) ∧
    level_ticks_of (run_scheduler tick_yield 8 14 ex_sole) 0 = some (1, 9) ∧
    level_ticks_of (run_scheduler tick_yield 8 15 ex_sole) 0 = some (2, 0) := by
  have hl012 := Arr3.get?_isSome _ _ _ ha
  refine ⟨?_, ?_, ?_, by decide, by decide, by decide, by decide⟩
  · rcases hl012 with h | h | h <;> subst h <;> simp [allotment, Arr3.get?] at ha <;>
      simp [ha]
  · intro hlt hticks c1 row1 hc1 hrow1 hlo hhi
    obtain ⟨s1, hd, q1, q2, _, _, q5, q6⟩ := demote_moves s level i pidx p c c1 row row1 a hp
      hc hrow hic hcl (by omega) ha hticks hc1 hrow1 hlo hhi
    have hpl : pidx < s.ptable.length := (List.getElem?_eq_some.1 hp).1
    refine ⟨s1, hd, ?_, q1, q2, ?_, ?_, ?_⟩
    · rw [qlist_eq s level row c hrow hc, List.getElem?_take, if_pos (by omega)]
      exact hat
    · intro l h1 h2
      unfold qlist
      rw [(q5 l h1 h2).1, (q5 l h1 h2).2]
    · rw [getProc, q6, List.getElem?_set_self hpl, hlev]
    · intro j hj
      rw [q6, List.getElem?_set_ne (Ne.symm hj)]
  · intro hn
    apply demote_keeps s level i pidx p hp
    by_cases h2 : level = 2
    · exact Or.inl h2
    · right
      refine ⟨a, ha, ?_⟩
      by_contra hge
      exact hn ⟨by rcases hl012 with h | h | h <;> omega, by omega⟩

/-- Running C6 on `ex_used_up`: slot 1 ran from `q[0][1]`, has 5 ticks and is
moved behind slot 2 in `q[1]`. -/
theorem demotion_spec_witness :
    ∃ s1, demote ex_used_up 0 1 1 = some s1 ∧
      qlist s1 0 = [some 0, some 3] ∧ qlist s1 1 = [some 2, some 1] ∧
      getProc s1 1 = some { mlfq_proc 2 (some 0) procstate.RUNNABLE with level := 1 } := by
  obtain ⟨s1, h1, _, h3, h4, _, h6, _⟩ :=
    (demotion_spec ex_used_up 0 1 1 { mlfq_proc 2 (some 0) procstate.RUNNABLE with ticks := 5 }
      2 [some 0, some 1, some 3, none] 5 (by decide) (by decide) (by decide) (by decide)
      (by decide) (by decide) (by decide) (by decide)).2.1 (by decide) (by decide)
      0 [some 2, none, none, none] (by decide) (by decide) (by decide) (by decide)
  exact ⟨s1, h1, h3.trans (by decide), h4.trans (by decide), h6.trans (by decide)⟩

@[simp]
theorem Arr3.set_zero {α : Type} (a : Arr3 α) (x : α) : a.set 0 x = { a with a0 := x } := by
  simp [Arr3.set]

theorem Arr3.a0_set_ne {α : Type} (a : Arr3 α) (i : Int) (x : α) (h : i ≠ 0) :
    (a.set i x).a0 = a.a0 := by
  unfold Arr3.set
  split_ifs <;> simp_all

theorem boosted_boosted (p : proc) : boosted (boosted p) = boosted p := rfl

/-- The effect of `n` iterations of a boosting loop that starts at source
index `i` and target index `j`. -/
theorem boost_loop_spec (src : Int) (hsrc : src ≠ 0) (n : Nat) :
    ∀ (s : Kernel) (i j : Nat) (srow : Row),
    s.q.get? src = some srow → i + n ≤ srow.length → j + n ≤ s.q.a0.length →
    (∀ k, i ≤ k → k < i + n → ∃ m, srow[k]? = some (some m) ∧ m < s.ptable.length) →
    ∃ s1 srow1, boost_loop src n (i : Int) (j : Int) s = some s1 ∧
      (∀ k, s1.q.a0[k]? = if j ≤ k ∧ k < j + n then srow[k - j + i]? else s.q.a0[k]?) ∧
      s1.q.get? src = some srow1 ∧
      (∀ k, srow1[k]? = if i ≤ k ∧ k < i + n then some none else srow[k]?) ∧
      (∀ l, l ≠ 0 → l ≠ src → s1.q.get? l = s.q.get? l) ∧
      s1.q_count = s.q_count.set 0 (s.q_count.a0 + n) ∧
      (∀ m, (∃ k, i ≤ k ∧ k < i + n ∧ srow[k]? = some (some m)) →
        s1.ptable[m]? = (s.ptable[m]?).map boosted) ∧
      (∀ m, (¬ ∃ k, i ≤ k ∧ k < i + n ∧ srow[k]? = some (some m)) →
        s1.ptable[m]? = s.ptable[m]?) ∧
      s1.ptable.length = s.ptable.length ∧
      s1.totalticks = s.totalticks ∧ s1.mlfq_pass = s.mlfq_pass ∧
      s1.mlfq_stride = s.mlfq_stride ∧ s1.mlfq_share = s.mlfq_share ∧
      s1.initproc = s.initproc ∧ s1.nextpid = s.nextpid := by
  induction n with
  | zero =>
    intro s i j srow hrow _ _ _
    refine ⟨s, srow, rfl, ?_, hrow, ?_, fun _ _ _ => rfl, ?_, ?_, fun _ _ => rfl, rfl, rfl, rfl,
      rfl, rfl, rfl, rfl⟩
    · intro k; rw [if_neg (by omega)]
    · intro k; rw [if_neg (by omega)]
    · simp
    · rintro m ⟨k, h1, h2, _⟩; omega
  | succ n ih =>
    intro s i j srow hrow hi hj hvalid
    obtain ⟨m0, hm0, hm0lt⟩ := hvalid i (le_refl _) (by omega)
    have hjl : j < s.q.a0.length := by omega
    have hil : i < srow.length := by omega
    have hne0 : (0 : Int) ≠ src := Ne.symm hsrc
    -- the state after the first iteration
    let s3 : Kernel :=
      { s with ptable := s.ptable.set m0 (boosted s.ptable[m0]),
               q := ({ s.q with a0 := s.q.a0.set j (some m0) } : Arr3 Row).set src
                      (srow.set i none),
               q_count := s.q_count.set 0 (s.q_count.a0 + 1) }
    have hget1 : ({ s.q with a0 := s.q.a0.set j (some m0) } : Arr3 Row).get? src = some srow := by
      have := Arr3.get?_set_ne s.q 0 src (s.q.a0.set j (some m0)) hne0
      rw [Arr3.set_zero] at this
      rw [this, hrow]
    have hstep : boost_loop src (n + 1) (i : Int) (j : Int) s =
        boost_loop src n ((i + 1 : Nat) : Int) ((j + 1 : Nat) : Int) s3 := by
      have e1 : ((i : Int) + 1) = ((i + 1 : Nat) : Int) := by push_cast; rfl
      have e2 : ((j : Int) + 1) = ((j + 1 : Nat) : Int) := by push_cast; rfl
      have hp : s.ptable[m0]? = some s.ptable[m0] := List.getElem?_eq_getElem hm0lt
      simp only [boost_loop, hrow, rd_natCast, hm0, wr_natCast _ j _ hjl, Arr3.set_zero,
        getProc, setProc, hp, hget1, wr_natCast _ i _ hil, e1, e2]
      rfl
    have hrow3 : s3.q.get? src = some (srow.set i none) :=
      Arr3.get?_set_self _ _ _ _ hget1
    have ha03 : s3.q.a0 = s.q.a0.set j (some m0) := by
      show (({ s.q with a0 := s.q.a0.set j (some m0) } : Arr3 Row).set src _).a0 = _
      rw [Arr3.a0_set_ne _ _ _ hsrc]
    obtain ⟨s1, srow1, e, c1, c2, c3, c4, c5, c6, c7, c8, c9, c10, c11, c12, c13, c14⟩ :=
      ih s3 (i + 1) (j + 1) (srow.set i none) hrow3 (by simp; omega)
        (by rw [ha03]; simp; omega)
        (by
          intro k hk1 hk2
          obtain ⟨m, hm, hmlt⟩ := hvalid k (by omega) (by omega)
          refine ⟨m, ?_, by simpa [s3] using hmlt⟩
          rw [List.getElem?_set_ne (by omega)]; exact hm)
    have hp3 : ∀ m, s3.ptable[m]? =
        if m = m0 then some (boosted s.ptable[m0]) else s.ptable[m]? := by
      intro m
      show (s.ptable.set m0 _)[m]? = _
      rw [List.getElem?_set]
      by_cases h : m0 = m
      · subst h; simp [hm0lt]
      · rw [if_neg h, if_neg (Ne.symm h)]
    have hsame : ∀ k, i + 1 ≤ k → (srow.set i none)[k]? = srow[k]? := by
      intro k hk; rw [List.getElem?_set_ne (by omega)]
    refine ⟨s1, srow1, hstep.trans e, ?_, c2, ?_, ?_, ?_, ?_, ?_, c8.trans (by simp [s3]), c9,
      c10, c11, c12, c13, c14⟩
    · intro k
      rw [c1 k, ha03]
      by_cases hk : j + 1 ≤ k ∧ k < j + 1 + n
      · rw [if_pos hk, if_pos (by omega), hsame _ (by omega)]
        congr 1; omega
      · rw [if_neg hk]
        by_cases hkj : k = j
        · subst hkj
          rw [if_pos (by omega), List.getElem?_set_self hjl]
          simp [hm0]
        · rw [if_neg (by omega), List.getElem?_set_ne (Ne.symm hkj)]
    · intro k
      rw [c3 k]
      by_cases hk : i + 1 ≤ k ∧ k < i + 1 + n
      · rw [if_pos hk, if_pos (by omega)]
      · rw [if_neg hk]
        by_cases hki : k = i
        · subst hki
          rw [if_pos (by omega), List.getElem?_set_self hil]
        · rw [if_neg (by omega), List.getElem?_set_ne (Ne.symm hki)]
    · intro l h1 h2
      rw [c4 l h1 h2]
      show (({ s.q with a0 := s.q.a0.set j (some m0) } : Arr3 Row).set src _).get? l = _
      rw [Arr3.get?_set_ne _ _ _ _ (Ne.symm h2)]
      have := Arr3.get?_set_ne s.q 0 l (s.q.a0.set j (some m0)) (Ne.symm h1)
      rw [Arr3.set_zero] at this
      exact this
    · rw [c5]
      show (s.q_count.set 0 _).set 0 _ = _
      simp only [Arr3.set_zero]
      congr 1
      push_cast; ring
    · rintro m ⟨k, hk1, hk2, hk3⟩
      by_cases hin : ∃ k, i + 1 ≤ k ∧ k < i + 1 + n ∧ (srow.set i none)[k]? = some (some m)
      · rw [c6 m hin, hp3 m]
        by_cases hmm : m = m0
        · subst hmm
          rw [if_pos rfl, List.getElem?_eq_getElem hm0lt]
          rfl
        · rw [if_neg hmm]
      · rw [c7 m hin, hp3 m]
        have hki : k = i := by
          by_contra hne
          exact hin ⟨k, by omega, by omega, by rw [hsame _ (by omega)]; exact hk3⟩
        subst hki
        rw [hm0] at hk3
        have : m0 = m := by simpa using hk3
        subst this
        rw [if_pos rfl, List.getElem?_eq_getElem hm0lt]
        rfl
    · intro m hnot
      have hin : ¬ ∃ k, i + 1 ≤ k ∧ k < i + 1 + n ∧ (srow.set i none)[k]? = some (some m) := by
        rintro ⟨k, h1, h2, h3⟩
        exact hnot ⟨k, by omega, by omega, by rw [← hsame _ h1]; exact h3⟩
      rw [c7 m hin, hp3 m]
      have hmm : m ≠ m0 := by
        rintro rfl
        exact hnot ⟨i, le_refl _, by omega, hm0⟩
      rw [if_neg hmm]

/-- Claim C5: the boosting step of an MLFQ turn. If `totalticks >= 100`, the
used cells of `q[1]` and `q[2]` hold valid slot pointers and all entries fit
in `q[0]`, then afterwards `q[0]` is the old `q[0]` followed by the old `q[1]`
followed by the old `q[2]`, every moved process has `level == 0` and
`ticks == 0` (and is otherwise unchanged, like every process that was not
moved), `q_count[1] == -1`, `q_count[2] == -1` and `totalticks == 0`. If
`totalticks < 100` the step changes nothing. -/
theorem boost_spec (s : Kernel)
    (h0 : -1 ≤ s.q_count.a0) (h1 : -1 ≤ s.q_count.a1) (h2 : -1 ≤ s.q_count.a2)
    (hfit : (s.q_count.a0 + 1) + (s.q_count.a1 + 1) + (s.q_count.a2 + 1) ≤ s.q.a0.length)
    (hl1 : s.q_count.a1 + 1 ≤ s.q.a1.length) (hl2 : s.q_count.a2 + 1 ≤ s.q.a2.length)
    (hv1 : ∀ e ∈ qlist s 1, ∃ m, e = some m ∧ m < s.ptable.length)
    (hv2 : ∀ e ∈ qlist s 2, ∃ m, e = some m ∧ m < s.ptable.length) :
    (s.totalticks ≥ 100 →
      ∃ s1, boost s = some s1 ∧
        qlist s1 0 = qlist s 0 ++ qlist s 1 ++ qlist s 2 ∧
        s1.q_count.a1 = -1 ∧ s1.q_count.a2 = -1 ∧ s1.totalticks = 0 ∧
        (∀ m, some m ∈ qlist s 1 ++ qlist s 2 →
          ∃ p, s.ptable[m]? = some p ∧
            s1.ptable[m]? = some { p with level := 0, ticks := 0 }) ∧
        (∀ m, some m ∉ qlist s 1 ++ qlist s 2 → s1.ptable[m]? = s.ptable[m]?)) ∧
    (s.totalticks < 100 → boost s = some s) := by
  constructor
  swap
  · intro h
    have : ¬ s.totalticks ≥ 100 := by omega
    simp [boost, this]
  intro hticks
  obtain ⟨n0, hn0⟩ := Int.eq_ofNat_of_zero_le (show 0 ≤ s.q_count.a0 + 1 by omega)
  obtain ⟨n1, hn1⟩ := Int.eq_ofNat_of_zero_le (show 0 ≤ s.q_count.a1 + 1 by omega)
  obtain ⟨n2, hn2⟩ := Int.eq_ofNat_of_zero_le (show 0 ≤ s.q_count.a2 + 1 by omega)
  have hq1 : qlist s 1 = s.q.a1.take n1 := by simp [qlist, hn1]
  have hq2 : qlist s 2 = s.q.a2.take n2 := by simp [qlist, hn2]
  have hq0 : qlist s 0 = s.q.a0.take n0 := by simp [qlist, hn0]
  have hn1l : n1 ≤ s.q.a1.length := by omega
  have hn2l : n2 ≤ s.q.a2.length := by omega
  -- first loop
  obtain ⟨sa, rowa, ea, a1, a2, a3, a4, a5, a6, a7, a8, a9, a10, a11, a12, a13, a14⟩ :=
    boost_loop_spec 1 (by norm_num) n1 s 0 n0 s.q.a1 (by simp) (by omega) (by omega)
      (by
        intro k _ hk
        have hkl : k < s.q.a1.length := by omega
        have hmem : s.q.a1[k] ∈ qlist s 1 := by
          rw [hq1]
          exact List.mem_iff_getElem?.2 ⟨k, by
            rw [List.getElem?_take, if_pos (by omega), List.getElem?_eq_getElem hkl]⟩
        obtain ⟨m, hm, hml⟩ := hv1 _ hmem
        exact ⟨m, by rw [List.getElem?_eq_getElem hkl, hm], hml⟩)
  -- the state between the loops
  have hsb2 : ({ sa with q_count := sa.q_count.set 1 (-1) } : Kernel).q.get? 2 = some s.q.a2 := by
    have := a4 2 (by norm_num) (by norm_num)
    simpa using this
  have hca0 : sa.q_count.a0 = ((n0 + n1 : Nat) : Int) - 1 := by
    rw [a5]; simp; omega
  have hca2 : sa.q_count.a2 = s.q_count.a2 := by rw [a5]; simp
  have hlen0 : sa.q.a0.length = s.q.a0.length := by
    have h := a1
    by_contra hne
    rcases Nat.lt_or_gt_of_ne hne with hlt | hgt
    · have := h sa.q.a0.length
      rw [List.getElem?_eq_none (le_refl _)] at this
      split_ifs at this with hc
      · have hx : sa.q.a0.length - n0 + 0 < s.q.a1.length := by omega
        rw [List.getElem?_eq_getElem hx] at this
        cases this
      · rw [List.getElem?_eq_getElem hlt] at this
        cases this
    · have := h s.q.a0.length
      rw [List.getElem?_eq_getElem hgt] at this
      split_ifs at this with hc
      · omega
      · rw [List.getElem?_eq_none (le_refl _)] at this
        cases this
  obtain ⟨sb, rowb, eb, b1, b2, b3, b4, b5, b6, b7, b8, b9, b10, b11, b12, b13, b14⟩ :=
    boost_loop_spec 2 (by norm_num) n2 { sa with q_count := sa.q_count.set 1 (-1) } 0 (n0 + n1)
      s.q.a2 hsb2 (by omega) (by
        show n0 + n1 + n2 ≤ sa.q.a0.length
        rw [hlen0]; omega)
      (by
        intro k _ hk
        have hkl : k < s.q.a2.length := by omega
        have hmem : s.q.a2[k] ∈ qlist s 2 := by
          rw [hq2]
          exact List.mem_iff_getElem?.2 ⟨k, by
            rw [List.getElem?_take, if_pos (by omega), List.getElem?_eq_getElem hkl]⟩
        obtain ⟨m, hm, hml⟩ := hv2 _ hmem
        exact ⟨m, by rw [List.getElem?_eq_getElem hkl, hm], by
          show m < sa.ptable.length
          rw [a8]; exact hml⟩)
  have hboost : boost s = some { sb with q_count := sb.q_count.set 2 (-1), totalticks := 0 } := by
    have e1 : (s.q_count.a1 + 1).toNat = n1 := by omega
    have e2 : (s.q_count.a0 + 1) = ((n0 : Nat) : Int) := hn0
    have e3 : (({ sa with q_count := sa.q_count.set 1 (-1) } : Kernel).q_count.a2 + 1).toNat
        = n2 := by
      show ((sa.q_count.set 1 (-1)).a2 + 1).toNat = n2
      rw [a5]; simp [Arr3.set]; omega
    have e4 : (({ sa with q_count := sa.q_count.set 1 (-1) } : Kernel).q_count.a0 + 1)
        = ((n0 + n1 : Nat) : Int) := by
      show ((sa.q_count.set 1 (-1)).a0 + 1) = _
      rw [a5]; simp [Arr3.set]; omega
    have ea' : boost_loop 1 n1 0 (n0 : Int) s = some sa := by simpa using ea
    have eb' : boost_loop 2 n2 0 ((n0 + n1 : Nat) : Int)
        { sa with q_count := sa.q_count.set 1 (-1) } = some sb := by simpa using eb
    unfold boost
    rw [if_pos hticks, e1, e2, ea']
    simp only
    rw [e3, e4, eb']
  have hmem1 : ∀ m, some m ∈ qlist s 1 ↔ ∃ k, 0 ≤ k ∧ k < 0 + n1 ∧ s.q.a1[k]? = some (some m) := by
    intro m
    rw [hq1, List.mem_iff_getElem?]
    constructor
    · rintro ⟨k, hk⟩
      rw [List.getElem?_take] at hk
      split_ifs at hk with h
      · exact ⟨k, Nat.zero_le _, by omega, hk⟩
    · rintro ⟨k, _, hk, h⟩
      exact ⟨k, by rw [List.getElem?_take, if_pos (by omega)]; exact h⟩
  have hmem2 : ∀ m, some m ∈ qlist s 2 ↔ ∃ k, 0 ≤ k ∧ k < 0 + n2 ∧ s.q.a2[k]? = some (some m) := by
    intro m
    rw [hq2, List.mem_iff_getElem?]
    constructor
    · rintro ⟨k, hk⟩
      rw [List.getElem?_take] at hk
      split_ifs at hk with h
      · exact ⟨k, Nat.zero_le _, by omega, hk⟩
    · rintro ⟨k, _, hk, h⟩
      exact ⟨k, by rw [List.getElem?_take, if_pos (by omega)]; exact h⟩
  have hpa : ∀ m, sa.ptable[m]? =
      if some m ∈ qlist s 1 then (s.ptable[m]?).map boosted else s.ptable[m]? := by
    intro m
    by_cases h : some m ∈ qlist s 1
    · rw [if_pos h]; exact a6 m ((hmem1 m).1 h)
    · rw [if_neg h]; exact a7 m (fun hx => h ((hmem1 m).2 hx))
  have hpb : ∀ m, sb.ptable[m]? =
      if some m ∈ qlist s 2 then (sa.ptable[m]?).map boosted else sa.ptable[m]? := by
    intro m
    by_cases h : some m ∈ qlist s 2
    · rw [if_pos h]; exact b6 m ((hmem2 m).1 h)
    · rw [if_neg h]; exact b7 m (fun hx => h ((hmem2 m).2 hx))
  refine ⟨_, hboost, ?_, ?_, ?_, rfl, ?_, ?_⟩
  · -- the new q[0]
    have hc : (sb.q_count.set 2 (-1)).a0 = ((n0 + n1 + n2 : Nat) : Int) - 1 := by
      have hb0 : sb.q_count.a0 = sa.q_count.a0 + n2 := by
        rw [b5]; simp [Arr3.set]
      show (sb.q_count.set 2 (-1)).a0 = _
      have : (sb.q_count.set 2 (-1)).a0 = sb.q_count.a0 := by simp [Arr3.set]
      rw [this, hb0, hca0]
      push_cast; omega
    have hql : qlist { sb with q_count := sb.q_count.set 2 (-1), totalticks := 0 } 0
        = sb.q.a0.take (n0 + n1 + n2) := by
      show sb.q.a0.take ((sb.q_count.set 2 (-1)).a0 + 1).toNat = _
      rw [hc]
      congr 1
      omega
    rw [hql, hq0, hq1, hq2]
    apply List.ext_getElem?
    intro k
    have hb1 := b1 k
    have ha1 := a1 k
    simp only [] at hb1
    rw [List.getElem?_take, hb1, ha1]
    simp only [List.getElem?_append, List.length_append, List.length_take, List.getElem?_take]
    have m0 : min n0 s.q.a0.length = n0 := by omega
    have m1 : min n1 s.q.a1.length = n1 := by omega
    have m2 : min n2 s.q.a2.length = n2 := by omega
    simp only [m0, m1, m2, Nat.add_zero]
    split_ifs <;> first | rfl | (exfalso; omega)
  · show (sb.q_count.set 2 (-1)).a1 = -1
    rw [b5]
    simp [Arr3.set]
  · show (sb.q_count.set 2 (-1)).a2 = -1
    simp [Arr3.set]
  · intro m hm
    have hml : m < s.ptable.length := by
      rcases List.mem_append.1 hm with h | h
      · obtain ⟨m', e, hl⟩ := hv1 _ h
        cases e; exact hl
      · obtain ⟨m', e, hl⟩ := hv2 _ h
        cases e; exact hl
    refine ⟨s.ptable[m], List.getElem?_eq_getElem hml, ?_⟩
    show sb.ptable[m]? = _
    rw [hpb m, hpa m, List.getElem?_eq_getElem hml]
    rcases List.mem_append.1 hm with h | h
    · by_cases h' : some m ∈ qlist s 2
      · rw [if_pos h', if_pos h]; rfl
      · rw [if_neg h', if_pos h]; rfl
    · by_cases h' : some m ∈ qlist s 1
      · rw [if_pos h, if_pos h']; rfl
      · rw [if_pos h, if_neg h']; rfl
  · intro m hm
    show sb.ptable[m]? = _
    rw [hpb m, hpa m, if_neg (fun h => hm (List.mem_append.2 (Or.inr h))),
      if_neg (fun h => hm (List.mem_append.2 (Or.inl h)))]

/-- Running C5 on `ex_boost`: the two entries of `q[1]` and the entry of
`q[2]` are moved behind the entry of `q[0]`. -/
theorem boost_spec_witness :
    ∃ s1, boost ex_boost = some s1 ∧
      qlist s1 0 = [some 0, some 1, some 2, some 3] ∧
      s1.q_count.a1 = -1 ∧ s1.q_count.a2 = -1 ∧ s1.totalticks = 0 := by
  have hq1 : qlist ex_boost 1 = [some 1, some 2] := by decide
  have hq2 : qlist ex_boost 2 = [some 3] := by decide
  obtain ⟨s1, h1, h2, h3, h4, h5, _⟩ :=
    (boost_spec ex_boost (by decide) (by decide) (by decide) (by decide) (by decide)
      (by decide)
      (by
        intro e he
        rw [hq1] at he
        simp only [List.mem_cons, List.mem_singleton] at he
        rcases he with rfl | rfl | h
        · exact ⟨1, rfl, by decide⟩
        · exact ⟨2, rfl, by decide⟩
        · cases h)
      (by
        intro e he
        rw [hq2] at he
        simp only [List.mem_cons, List.mem_singleton] at he
        rcases he with rfl | h
        · exact ⟨3, rfl, by decide⟩
        · cases h)).1 (by decide)
  exact ⟨s1, h1, h2.trans (by decide), h3, h4, h5⟩

theorem shift_right_spec (n : Nat) : ∀ (row : Row) (i : Nat), n ≤ i → i < row.length →
    ∃ row1, shift_right n row (i : Int) = some row1 ∧ row1.length = row.length ∧
      ∀ k, row1[k]? = if i - n < k ∧ k ≤ i then row[k - 1]? else row[k]? := by
  induction n with
  | zero =>
    intro row i _ _
    refine ⟨row, rfl, rfl, ?_⟩
    intro k
    rw [if_neg (by omega)]
  | succ n ih =>
    intro row i hn hi
    have hi1 : i - 1 < row.length := by omega
    have e1 : ((i : Int) - 1) = ((i - 1 : Nat) : Int) := by omega
    obtain ⟨row1, e, l1, p1⟩ := ih (row.set i row[i - 1]) (i - 1) (by omega) (by simp; omega)
    refine ⟨row1, ?_, by simpa using l1, ?_⟩
    · simp only [shift_right, e1, rd_natCast, List.getElem?_eq_getElem hi1,
        wr_natCast row i _ hi]
      exact e
    · intro k
      rw [p1 k]
      by_cases hk : i - 1 - n < k ∧ k ≤ i - 1
      · rw [if_pos hk, if_pos (by omega), List.getElem?_set_ne (by omega)]
      · rw [if_neg hk]
        by_cases hki : k = i
        · subst hki
          rw [if_pos (by omega), List.getElem?_set_self hi]
          exact (List.getElem?_eq_getElem hi1).symm
        · rw [if_neg (by omega), List.getElem?_set_ne (Ne.symm hki)]

/-- Inserting at the front of `q[0]`: after the increment of the counter to
`c`, the shift loop and the store to cell 0, the first `c + 1` cells are the
new entry followed by the first `c` old cells. -/
theorem push_front_take (row row1 : Row) (c : Nat) (v : Option Nat) (hc : c < row.length)
    (hl : row1.length = row.length)
    (hk : ∀ k, row1[k]? = if c - c < k ∧ k ≤ c then row[k - 1]? else row[k]?) :
    (row1.set 0 v).take (c + 1) = v :: row.take c := by
  apply List.ext_getElem?
  intro k
  rw [List.getElem?_take]
  cases k with
  | zero =>
    have : 0 < row1.length := by omega
    rw [if_pos (by omega), List.getElem?_set_self this]
    simp
  | succ k =>
    rw [List.getElem?_set_ne (by omega), List.getElem?_cons_succ, List.getElem?_take,
      hk (k + 1)]
    simp only [Nat.add_sub_cancel]
    split_ifs <;> first | rfl | (exfalso; omega)

theorem woken_mlfq_length_le (chan : Option Chan) (ps : List proc) (i : Nat) :
    (woken_mlfq chan ps i).length ≤ ps.length := by
  induction ps generalizing i with
  | nil => simp [woken_mlfq]
  | cons p ps ih =>
    unfold woken_mlfq
    split_ifs
    · simp; exact ih (i + 1)
    · have := ih (i + 1); simp; omega

/-- The effect of the table scan of `wakeup1` from slot `i` on. -/
theorem wakeup1_loop_spec (chan : Option Chan) (n : Nat) :
    ∀ (s : Kernel) (i : Nat) (mp : Int),
    i + n = s.ptable.length → -1 ≤ s.q_count.a0 →
    s.q_count.a0 + 1 + (woken_mlfq chan (s.ptable.drop i) i).length ≤ s.q.a0.length →
    ∃ s1, wakeup1_loop chan n i s mp = some s1 ∧
      qlist s1 0 = (woken_mlfq chan (s.ptable.drop i) i).reverse.map some ++ qlist s 0 ∧
      s1.q_count.a0 = s.q_count.a0 + (woken_mlfq chan (s.ptable.drop i) i).length ∧
      s1.q.a0.length = s.q.a0.length ∧
      s1.q.a1 = s.q.a1 ∧ s1.q.a2 = s.q.a2 ∧
      s1.q_count.a1 = s.q_count.a1 ∧ s1.q_count.a2 = s.q_count.a2 ∧
      s1.ptable.length = s.ptable.length ∧
      (∀ (j : Nat) (p : proc), s.ptable[j]? = some p →
        (j < i ∨ ¬ (p.state = procstate.SLEEPING ∧ p.chan = chan)) →
        s1.ptable[j]? = some p) ∧
      (∀ (j : Nat) (p : proc), i ≤ j → s.ptable[j]? = some p →
        p.state = procstate.SLEEPING ∧ p.chan = chan →
        ∃ m, s1.ptable[j]? = some { p with ticks := 0, level := 0,
                                           state := procstate.RUNNABLE, pass := m } ∧
          (p.stride = 0 → m = p.pass)) ∧
      s1.mlfq_pass = s.mlfq_pass ∧ s1.mlfq_stride = s.mlfq_stride ∧
      s1.mlfq_share = s.mlfq_share ∧ s1.totalticks = s.totalticks ∧
      s1.initproc = s.initproc ∧ s1.nextpid = s.nextpid := by
  induction n with
  | zero =>
    intro s i mp hlen _ _
    have hd : s.ptable.drop i = [] := List.drop_eq_nil_of_le (by omega)
    refine ⟨s, rfl, by simp [hd, woken_mlfq], by simp [hd, woken_mlfq], rfl, rfl, rfl, rfl, rfl,
      rfl, fun j p h _ => h, ?_, rfl, rfl, rfl, rfl, rfl, rfl⟩
    intro j p hij hp _
    have := (List.getElem?_eq_some.1 hp).1
    omega
  | succ n ih =>
    intro s i mp hlen hc0 hroom
    have hil : i < s.ptable.length := by omega
    have hpi : s.ptable[i]? = some s.ptable[i] := List.getElem?_eq_getElem hil
    have hdrop : s.ptable.drop i = s.ptable[i] :: s.ptable.drop (i + 1) :=
      List.drop_eq_getElem_cons hil
    rw [hdrop] at hroom ⊢
    by_cases hsl : s.ptable[i].state = procstate.SLEEPING ∧ s.ptable[i].chan = chan
    · by_cases hst : s.ptable[i].stride = 0
      · -- an MLFQ process is woken and put at the front of q[0]
        have hw : woken_mlfq chan (s.ptable[i] :: s.ptable.drop (i + 1)) i =
            i :: woken_mlfq chan (s.ptable.drop (i + 1)) (i + 1) := by
          simp only [woken_mlfq]; rw [if_pos ⟨hsl.1, hsl.2, hst⟩]
        rw [hw] at hroom ⊢
        simp only [List.length_cons] at hroom
        obtain ⟨cn, hcn⟩ := Int.eq_ofNat_of_zero_le (show 0 ≤ s.q_count.a0 + 1 by omega)
        have hcl : cn < s.q.a0.length := by push_cast at hroom; omega
        obtain ⟨rowa, ea, la, ka⟩ := shift_right_spec cn s.q.a0 cn (le_refl _) hcl
        let p1 : proc := { s.ptable[i] with ticks := 0, level := 0,
                                            state := procstate.RUNNABLE }
        let s2 : Kernel :=
          { s with ptable := s.ptable.set i p1,
                   q_count := { s.q_count with a0 := (cn : Int) },
                   q := { s.q with a0 := rowa.set 0 (some i) } }
        have hstep : wakeup1_loop chan (n + 1) i s mp = wakeup1_loop chan n (i + 1) s2 mp := by
          have h0 : (0 : Nat) < rowa.length := by omega
          have hw0 : wr rowa 0 (some i) = some (rowa.set 0 (some i)) := by
            have := wr_natCast rowa 0 (some i) h0
            simpa using this
          simp only [wakeup1_loop, getProc, hpi]
          rw [if_pos hsl, if_pos (show _ = (0 : Int) from hst)]
          simp only [setProc, hcn, Int.toNat_ofNat, ea, hw0, Arr3.set_zero]
        have hdrop2 : s2.ptable.drop (i + 1) = s.ptable.drop (i + 1) :=
          List.drop_set_of_lt _ _ (by omega)
        obtain ⟨s1, e, c1, c2, c3, c4, c5, c6, c7, c8, c9, c10, c11, c12, c13, c14, c15, c16⟩ :=
          ih s2 (i + 1) mp (by show i + 1 + n = (s.ptable.set i p1).length; simp; omega)
            (by show -1 ≤ (cn : Int); omega)
            (by
              rw [hdrop2]
              show (cn : Int) + 1 + _ ≤ ((rowa.set 0 (some i)).length : Int)
              simp only [List.length_set, la]
              omega)
        rw [hdrop2] at c1 c2
        have hq2 : qlist s2 0 = some i :: qlist s 0 := by
          have e1 : qlist s2 0 = (rowa.set 0 (some i)).take (cn + 1) := by
            show (rowa.set 0 (some i)).take ((cn : Int) + 1).toNat = _
            congr 1
          have e2 : qlist s 0 = s.q.a0.take cn := by
            show s.q.a0.take (s.q_count.a0 + 1).toNat = _
            rw [hcn]; rfl
          rw [e1, e2]
          exact push_front_take s.q.a0 rowa cn (some i) hcl la ka
        have hp2 : ∀ j, j ≠ i → s2.ptable[j]? = s.ptable[j]? := by
          intro j hj
          show (s.ptable.set i p1)[j]? = _
          rw [List.getElem?_set_ne (Ne.symm hj)]
        have hp2i : s2.ptable[i]? = some p1 := by
          show (s.ptable.set i p1)[i]? = _
          rw [List.getElem?_set_self hil]
        refine ⟨s1, hstep.trans e, ?_, ?_, c3.trans (by simp [s2, la]), c4, c5, c6, c7,
          c8.trans (by simp [s2]), ?_, ?_, c11, c12, c13, c14, c15, c16⟩
        · rw [c1, hq2]; simp
        · rw [c2]
          show (cn : Int) + _ = _
          simp only [List.length_cons]
          push_cast; omega
        · intro j p hp hor
          have hji : j ≠ i := by
            rintro rfl
            rw [hpi] at hp
            cases hp
            rcases hor with h | h
            · omega
            · exact h hsl
          exact c9 j p ((hp2 j hji).trans hp) (by
            rcases hor with h | h
            · left; omega
            · right; exact h)
        · intro j p hij hp hs
          by_cases hji : j = i
          · subst hji
            rw [hpi] at hp
            cases hp
            exact ⟨s.ptable[j].pass, c9 j p1 hp2i (Or.inl (by omega)), fun _ => rfl⟩
          · exact c10 j p (by omega) ((hp2 j hji).trans hp) hs
      · -- a Stride process is woken: only its slot changes
        have hw : woken_mlfq chan (s.ptable[i] :: s.ptable.drop (i + 1)) i =
            woken_mlfq chan (s.ptable.drop (i + 1)) (i + 1) := by
          simp only [woken_mlfq]; rw [if_neg (fun h => hst h.2.2)]
        rw [hw] at hroom ⊢
        let p1 : proc := { s.ptable[i] with ticks := 0, level := 0,
                                            state := procstate.RUNNABLE }
        let m : Int := wakeup_min_pass i (s.ptable.set i p1) 0 mp
        let s2 : Kernel := { s with ptable := (s.ptable.set i p1).set i { p1 with pass := m } }
        have hstep : wakeup1_loop chan (n + 1) i s mp = wakeup1_loop chan n (i + 1) s2 m := by
          simp only [wakeup1_loop, getProc, hpi]
          rw [if_pos hsl, if_neg (show ¬ _ = (0 : Int) from hst)]
          simp only [setProc]
        have hdrop2 : s2.ptable.drop (i + 1) = s.ptable.drop (i + 1) := by
          show ((s.ptable.set i p1).set i _).drop (i + 1) = _
          rw [List.drop_set_of_lt _ _ (by omega), List.drop_set_of_lt _ _ (by omega)]
        obtain ⟨s1, e, c1, c2, c3, c4, c5, c6, c7, c8, c9, c10, c11, c12, c13, c14, c15, c16⟩ :=
          ih s2 (i + 1) m (by show i + 1 + n = ((s.ptable.set i p1).set i _).length; simp; omega)
            hc0 (by rw [hdrop2]; exact hroom)
        rw [hdrop2] at c1 c2
        have hp2 : ∀ j, j ≠ i → s2.ptable[j]? = s.ptable[j]? := by
          intro j hj
          show ((s.ptable.set i p1).set i _)[j]? = _
          rw [List.getElem?_set_ne (Ne.symm hj), List.getElem?_set_ne (Ne.symm hj)]
        have hp2i : s2.ptable[i]? = some { p1 with pass := m } := by
          show ((s.ptable.set i p1).set i _)[i]? = _
          rw [List.getElem?_set_self (by simp; omega)]
        refine ⟨s1, hstep.trans e, c1, c2, c3, c4, c5, c6, c7, c8.trans (by simp [s2]), ?_, ?_,
          c11, c12, c13, c14, c15, c16⟩
        · intro j p hp hor
          have hji : j ≠ i := by
            rintro rfl
            rw [hpi] at hp
            cases hp
            rcases hor with h | h
            · omega
            · exact h hsl
          exact c9 j p ((hp2 j hji).trans hp) (by
            rcases hor with h | h
            · left; omega
            · right; exact h)
        · intro j p hij hp hs
          by_cases hji : j = i
          · subst hji
            rw [hpi] at hp
            cases hp
            exact ⟨m, c9 j _ hp2i (Or.inl (by omega)), fun h => absurd h hst⟩
          · exact c10 j p (by omega) ((hp2 j hji).trans hp) hs
    · -- slot i does not sleep on chan
      have hw : woken_mlfq chan (s.ptable[i] :: s.ptable.drop (i + 1)) i =
          woken_mlfq chan (s.ptable.drop (i + 1)) (i + 1) := by
        simp only [woken_mlfq]; rw [if_neg (fun h => hsl ⟨h.1, h.2.1⟩)]
      rw [hw] at hroom ⊢
      have hstep : wakeup1_loop chan (n + 1) i s mp = wakeup1_loop chan n (i + 1) s mp := by
        simp only [wakeup1_loop, getProc, hpi, if_neg hsl]
      obtain ⟨s1, e, c1, c2, c3, c4, c5, c6, c7, c8, c9, c10, c11, c12, c13, c14, c15, c16⟩ :=
        ih s (i + 1) mp (by omega) hc0 hroom
      refine ⟨s1, hstep.trans e, c1, c2, c3, c4, c5, c6, c7, c8, ?_, ?_,
        c11, c12, c13, c14, c15, c16⟩
      · intro j p hp hor
        exact c9 j p hp (by
          rcases hor with h | h
          · left; omega
          · right; exact h)
      · intro j p hij hp hs
        have hji : j ≠ i := by
          rintro rfl
          rw [hpi] at hp
          cases hp
          exact hsl hs
        exact c10 j p (by omega) hp hs

/-- Claim C7: `wakeup1(chan)`, when `q[0]` has room for the woken MLFQ slots.
Every SLEEPING slot whose channel is `chan` becomes RUNNABLE with level 0 and
ticks 0 (its pass changes only if it is a Stride slot, nothing else in it
changes); the new `q[0]` is the woken MLFQ slots (`stride == 0`) in reverse
table order followed by the old `q[0]`, so a single woken process is at
`q[0][0]` with the old entries shifted right by one; `q[1]`, `q[2]`, their
counters and every slot not sleeping on `chan` are unchanged. -/
theorem wakeup1_spec (s : Kernel) (chan : Option Chan)
    (hc0 : -1 ≤ s.q_count.a0)
    (hroom : s.q_count.a0 + 1 + (woken_mlfq chan s.ptable 0).length ≤ s.q.a0.length) :
    ∃ s1, wakeup1 s chan = some s1 ∧
      (∀ (j : Nat) (p : proc), s.ptable[j]? = some p →
        p.state = procstate.SLEEPING ∧ p.chan = chan →
        ∃ m, s1.ptable[j]? = some { p with ticks := 0, level := 0,
                                           state := procstate.RUNNABLE, pass := m } ∧
          (p.stride = 0 → m = p.pass)) ∧
      qlist s1 0 = (woken_mlfq chan s.ptable 0).reverse.map some ++ qlist s 0 ∧
      (∀ a, woken_mlfq chan s.ptable 0 = [a] → qlist s1 0 = some a :: qlist s 0) ∧
      s1.q.a1 = s.q.a1 ∧ s1.q.a2 = s.q.a2 ∧
      s1.q_count.a1 = s.q_count.a1 ∧ s1.q_count.a2 = s.q_count.a2 ∧
      (∀ (j : Nat) (p : proc), s.ptable[j]? = some p →
        ¬ (p.state = procstate.SLEEPING ∧ p.chan = chan) → s1.ptable[j]? = some p) := by
  obtain ⟨s1, e, c1, _, _, c4, c5, c6, c7, _, c9, c10, _⟩ :=
    wakeup1_loop_spec chan s.ptable.length s 0 s.mlfq_pass (by omega) hc0
      (by simpa using hroom)
  simp only [List.drop_zero] at c1
  refine ⟨s1, e, fun j p hp hs => c10 j p (Nat.zero_le _) hp hs, c1, ?_, c4, c5, c6, c7,
    fun j p hp hs => c9 j p hp (Or.inr hs)⟩
  intro a ha
  rw [c1, ha]
  rfl

/-- Running C7 on `ex_sleeper`: slot 1 sleeps on channel 7 while slots 2 and 3
are in `q[0]`; after `wakeup1` slot 1 is at `q[0][0]` and 2, 3 have shifted
right. -/
theorem wakeup1_spec_witness :
    ∃ s1, wakeup1 ex_sleeper (some (Chan.addr 7)) = some s1 ∧
      qlist s1 0 = [some 1, some 2, some 3] := by
  obtain ⟨s1, h1, _, h3, _⟩ :=
    wakeup1_spec ex_sleeper (some (Chan.addr 7)) (by decide) (by decide)
  exact ⟨s1, h1, h3.trans (by decide)⟩

/-- Claim C11 at the failing input `ex_stride`: the Stride process in slot 1
(share 20, `mlfq_share == 80`) creates a thread (slot 2, tid 0), the thread
calls `thread_exit(42)` and is joined. The join returns 0 and hands out 42,
the thread's slot ends UNUSED, but `mlfq_share` ends at 101, not 80. The same
sequence run by the MLFQ process in slot 1 of `ex_mlfq` leaves `mlfq_share`
at 100. -/
theorem thread_round_trip_stride_parent :
    ex_stride.mlfq_share = 80 ∧
    (ex_round_trip ex_stride 1 2).map (fun j => (j.1, j.2.1)) = some (ScanResult.ret 0, some 42) ∧
    (ex_round_trip ex_stride 1 2).map (fun j => j.2.2.mlfq_share) = some 101 ∧
    (ex_round_trip ex_stride 1 2).map (fun j => (getProc j.2.2 2).map (fun p => p.state))
      = some (some procstate.UNUSED) ∧
    ex_mlfq.mlfq_share = 100 ∧
    (ex_round_trip ex_mlfq 1 3).map (fun j => (j.1, j.2.1)) = some (ScanResult.ret 0, some 42) ∧
    (ex_round_trip ex_mlfq 1 3).map (fun j => j.2.2.mlfq_share) = some 100 ∧
    (ex_round_trip ex_mlfq 1 3).map (fun j => (getProc j.2.2 3).map (fun p => p.state))
      = some (some procstate.UNUSED) := by
  decide

/-- Claim C13 at the failing input `ex_group`: the thread in slot 2 calls
`exit`, then init (slot 0) calls `wait`. `wait` returns the pid 2 of the
process in slot 1, the slots of the process and of the two other threads end
UNUSED, but the slot of the thread that called `exit` stays ZOMBIE, with
itself as parent, so no `wait` will ever reclaim it. -/
theorem thread_group_exit_leaves_zombie :
    ex_group_exit.map (fun r => r.1) = some (ScanResult.ret 2) ∧
    ex_group_exit.map (fun r => states_of r.2)
      = some [procstate.RUNNABLE, procstate.UNUSED, procstate.ZOMBIE, procstate.UNUSED,
              procstate.UNUSED, procstate.UNUSED] ∧
    ex_group_exit.map (fun r => (getProc r.2 2).map (fun p => p.parent))
      = some (some (some 2)) := by
  decide

/-- Claim C16 at the failing input `ex_sleeper`: every RUNNABLE MLFQ slot is
queued exactly once; `kill(2)` finds the SLEEPING MLFQ process in slot 1,
returns 0 and makes it RUNNABLE, but the queues are unchanged, so slot 1 is
RUNNABLE with `cpu_share == 0` and in no queue. -/
theorem kill_wakes_without_enqueue :
    runnable_mlfq_queued ex_sleeper = true ∧
    (kill ex_sleeper 2).1 = 0 ∧
    (getProc (kill ex_sleeper 2).2 1).map (fun p => (p.state, p.cpu_share, p.killed))
      = some (procstate.RUNNABLE, 0, 1) ∧
    all_queues (kill ex_sleeper 2).2 = [some 2, some 3] ∧
    runnable_mlfq_queued (kill ex_sleeper 2).2 = false := by
  decide

/-- Claim C17 at two failing inputs. On `ex_stride` (no slot with a share is
queued) the Stride process in slot 1 creates a thread: the call returns 0 and
the thread in slot 2 has `cpu_share == 21` while it sits in `q[0]`. On
`ex_thread` the MLFQ process in slot 1, which has a thread in slot 2, calls
`set_cpu_share(20)`: the call returns 20 and the thread has `cpu_share == 21`
while it still sits in `q[0]`. -/
theorem shares_given_to_queued_slots :
    stride_unqueued ex_stride = true ∧
    (thread_create ex_stride 1 (some 7) (fun _ n => n) true).map (fun r => r.1) = some 0 ∧
    (thread_create ex_stride 1 (some 7) (fun _ n => n) true).map
      (fun r => (getProc r.2.2 2).map (fun p => p.cpu_share)) = some (some 21) ∧
    (thread_create ex_stride 1 (some 7) (fun _ n => n) true).map
      (fun r => all_queues r.2.2) = some [some 0, some 2] ∧
    (thread_create ex_stride 1 (some 7) (fun _ n => n) true).map
      (fun r => stride_unqueued r.2.2) = some false ∧
    stride_unqueued ex_thread = true ∧
    (set_cpu_share ex_thread 1 20).map (fun r => r.1) = some 20 ∧
    (set_cpu_share ex_thread 1 20).map
      (fun r => (getProc r.2 2).map (fun p => p.cpu_share)) = some (some 21) ∧
    (set_cpu_share ex_thread 1 20).map (fun r => all_queues r.2) = some [some 0, some 2] ∧
    (set_cpu_share ex_thread 1 20).map (fun r => stride_unqueued r.2) = some false := by
  decide

/-- Claim C19 at the failing input `ex_stride_fork`: the caller in slot 1 is a
Stride process and in no queue, `q[0]` holds slots 0 and 2. Its
`set_cpu_share(5)` succeeds, and the RUNNABLE MLFQ process in slot 2 is gone
from `q[0]`, whose counter dropped from 1 to 0. -/
theorem set_cpu_share_removes_other_process :
    all_queues ex_stride_fork = [some 0, some 2] ∧ ex_stride_fork.q_count.a0 = 1 ∧
    (set_cpu_share ex_stride_fork 1 5).map
      (fun r => (r.1, all_queues r.2, r.2.q_count.a0,
        (getProc r.2 2).map (fun p => (p.state, p.cpu_share))))
      = some (5, [some 0], 0, some (procstate.RUNNABLE, 0)) := by
  decide

/-- Claim C20 at the failing input `ex_mlfq`: `q[0]` holds the RUNNABLE slots 0
and 2 (and the RUNNING slot 1); with processes that run for one tick and
yield, one MLFQ turn switches into slot 0 and then into slot 2. -/
theorem mlfq_turn_runs_two :
    ran_of (mlfq_turn tick_yield 8 ex_mlfq) = some [0, 2] := by
  decide

theorem eraseIdx_first (a : Option Nat) : ∀ (l : Row) (i : Nat), l[i]? = some a →
    (∀ k, k < i → l[k]? ≠ some a) → l.eraseIdx i = l.erase a := by
  intro l
  induction l with
  | nil => intro i h _; simp at h
  | cons x xs ih =>
    intro i h hfirst
    cases i with
    | zero =>
      have hx : x = a := by simpa using h
      subst hx
      simp
    | succ i =>
      have hx : x ≠ a := by
        intro hxa
        exact hfirst 0 (Nat.succ_pos _) (by simp [hxa])
      have hxs : xs[i]? = some a := by simpa using h
      have hf : ∀ k, k < i → xs[k]? ≠ some a := by
        intro k hk
        have := hfirst (k + 1) (by omega)
        simpa using this
      rw [List.eraseIdx_cons_succ, ih i hxs hf, List.erase_cons_tail (by simpa using hx)]

/-- The search loop with `break`, started at or before the first occurrence
`i0` of the slot in the used cells: it stops there, shifts the tail left and
(in the clearing variant) clears cell `c`. -/
theorem dequeue_loop_found (zero : Bool) (pidx c i0 : Nat) (row : Row)
    (hi0 : i0 ≤ c) (hc : c < row.length) (hat : row[i0]? = some (some pidx))
    (hfirst : ∀ k, k < i0 → row[k]? ≠ some (some pidx)) (n : Nat) :
    ∀ (i : Nat), i ≤ i0 → i0 < i + n →
    ∃ row1, dequeue_loop zero pidx (c : Int) n row (i : Int) = some (row1, true) ∧
      row1.length = row.length ∧ row1.take c = (row.take (c + 1)).eraseIdx i0 := by
  induction n with
  | zero => intro i h1 h2; omega
  | succ n ih =>
    intro i h1 h2
    have hil : i < row.length := by omega
    have e2 : ((i : Int) + 1) = ((i + 1 : Nat) : Int) := by push_cast; rfl
    by_cases hii : i = i0
    · subst hii
      have hn : ((c : Int) - (i : Int)).toNat = c - i := by omega
      obtain ⟨rowa, ea, la, ka⟩ := shift_left_spec (c - i) row i (by omega)
      have hk := take_shift_left row rowa i c hi0 la ka
      simp only [dequeue_loop, rd_natCast, hat, if_true, hn, ea]
      cases zero
      · refine ⟨rowa, rfl, la, ?_⟩
        rw [← hk, take_set_ge rowa c c none (le_refl _)]
      · simp only [if_true, wr_natCast rowa c none (by omega)]
        exact ⟨rowa.set c none, rfl, by simpa using la, hk⟩
    · have hlt : i < i0 := by omega
      have hne := hfirst i hlt
      have hr : row[i]? = some row[i] := List.getElem?_eq_getElem hil
      have hne' : ¬ row[i] = some pidx := by
        intro h; rw [hr, h] at hne; exact hne rfl
      simp only [dequeue_loop, rd_natCast, hr, if_neg hne', e2]
      exact ih (i + 1) (by omega) (by omega)

/-- The search loop with `break` when the slot is not among the used cells:
the row is returned unchanged. -/
theorem dequeue_loop_absent (zero : Bool) (pidx : Nat) (c : Int) (row : Row)
    (hc : c < row.length) (n : Nat) :
    ∀ (i : Nat), (n ≠ 0 → (i : Int) + n ≤ c + 1) →
    (∀ k, i ≤ k → k < i + n → row[k]? ≠ some (some pidx)) →
    dequeue_loop zero pidx c n row (i : Int) = some (row, false) := by
  induction n with
  | zero => intro i _ _; rfl
  | succ n ih =>
    intro i hb hno
    have hb' := hb (Nat.succ_ne_zero _)
    have hil : i < row.length := by push_cast at hb'; omega
    have e2 : ((i : Int) + 1) = ((i + 1 : Nat) : Int) := by push_cast; rfl
    have hr : row[i]? = some row[i] := List.getElem?_eq_getElem hil
    have hne' : ¬ row[i] = some pidx := by
      intro h
      exact hno i (le_refl _) (by omega) (by rw [hr, h])
    simp only [dequeue_loop, rd_natCast, hr, if_neg hne', e2]
    exact ih (i + 1) (fun _ => by push_cast at hb' ⊢; omega)
      (fun k h1 h2 => hno k (by omega) (by omega))

theorem exists_first (row : Row) (a : Option Nat) (n : Nat) (h : a ∈ row.take n) :
    ∃ i0, i0 < n ∧ row[i0]? = some a ∧ ∀ k, k < i0 → row[k]? ≠ some a := by
  classical
  have hex : ∃ i, i < n ∧ row[i]? = some a := by
    obtain ⟨i, hi⟩ := List.mem_iff_getElem?.1 h
    rw [List.getElem?_take] at hi
    split_ifs at hi with hlt
    · exact ⟨i, hlt, hi⟩
  refine ⟨Nat.find hex, (Nat.find_spec hex).1, (Nat.find_spec hex).2, ?_⟩
  intro k hk hka
  exact Nat.find_min hex hk ⟨by have := (Nat.find_spec hex).1; omega, hka⟩

/-- Dequeueing a slot that is among the used cells of `q[level]`. -/
theorem dequeue_found (zero : Bool) (s : Kernel) (pidx : Nat) (level : Int) (c : Int)
    (row : Row) (hc : s.q_count.get? level = some c) (hrow : s.q.get? level = some row)
    (hcl : c < row.length) (hmem : some pidx ∈ qlist s level) :
    ∃ s1, dequeue zero s pidx level = some s1 ∧
      qlist s1 level = (qlist s level).erase (some pidx) ∧
      s1.q_count.get? level = some (c - 1) ∧
      (∀ l, l ≠ level → s1.q.get? l = s.q.get? l ∧ s1.q_count.get? l = s.q_count.get? l) ∧
      s1.ptable = s.ptable ∧ s1.mlfq_share = s.mlfq_share ∧
      s1.mlfq_stride = s.mlfq_stride ∧ s1.mlfq_pass = s.mlfq_pass ∧
      s1.totalticks = s.totalticks ∧ s1.initproc = s.initproc ∧ s1.nextpid = s.nextpid := by
  have hq0 := qlist_eq s level row c hrow hc
  rw [hq0] at hmem
  obtain ⟨i0, h1, h2, h3⟩ := exists_first row (some pidx) _ hmem
  have hc0 : 0 ≤ c := by omega
  obtain ⟨cn, rfl⟩ := Int.eq_ofNat_of_zero_le hc0
  have e1 : ((cn : Int) + 1).toNat = cn + 1 := by omega
  have e3 : ((cn : Int) - 1 + 1).toNat = cn := by omega
  rw [e1] at h1
  obtain ⟨row1, e, _, hk⟩ := dequeue_loop_found zero pidx cn i0 row (by omega)
    (by exact_mod_cast hcl) h2 h3 (cn + 1) 0 (Nat.zero_le _) (by omega)
  have e0 : dequeue_loop zero pidx (cn : Int) (cn + 1) row 0 = some (row1, true) := by
    simpa using e
  have hd : dequeue zero s pidx level = some
      { s with q := s.q.set level row1, q_count := s.q_count.set level ((cn : Int) - 1) } := by
    simp only [dequeue, hc, hrow, e1, e0, if_true]
  refine ⟨_, hd, ?_, Arr3.get?_set_self _ _ _ _ hc, ?_, rfl, rfl, rfl, rfl, rfl, rfl, rfl⟩
  · rw [qlist_eq _ level row1 ((cn : Int) - 1) (Arr3.get?_set_self _ _ _ _ hrow)
      (Arr3.get?_set_self _ _ _ _ hc), e3, hk, hq0, e1]
    apply eraseIdx_first
    · rw [List.getElem?_take, if_pos h1]; exact h2
    · intro k hk'
      rw [List.getElem?_take, if_pos (by omega)]
      exact h3 k hk'
  · intro l hl
    exact ⟨Arr3.get?_set_ne _ _ _ _ (Ne.symm hl), Arr3.get?_set_ne _ _ _ _ (Ne.symm hl)⟩

/-- Claim C18: the part of `sleep(chan)` before the context switch. For a
caller `p` with `stride == 0` that occurs in `q[p.level]`, the queue afterwards
is the old one with the (first) occurrence of `p` deleted and the other entries
in their old order, so `p` is gone if it occurred exactly once; `q_count` of
that level drops by exactly 1, the other two levels are unchanged, and the
only change to the table is `p.chan = chan`, `p.state = SLEEPING`. For a caller
with `stride != 0` the queues are unchanged and its pass becomes 0. -/
theorem sleep_spec (s : Kernel) (cur : Nat) (chan : Option Chan) (p : proc)
    (hp : getProc s cur = some p) :
    (p.stride = 0 → ∀ (c : Int) (row : Row),
      s.q_count.get? p.level = some c → s.q.get? p.level = some row → c < row.length →
      some cur ∈ qlist s p.level →
      ∃ s1, sleep s cur chan = some s1 ∧
        qlist s1 p.level = (qlist s p.level).erase (some cur) ∧
        ((qlist s p.level).count (some cur) = 1 → some cur ∉ qlist s1 p.level) ∧
        s1.q_count.get? p.level = some (c - 1) ∧
        (∀ l, l ≠ p.level → s1.q.get? l = s.q.get? l ∧
          s1.q_count.get? l = s.q_count.get? l) ∧
        s1.ptable = s.ptable.set cur { p with chan := chan, state := procstate.SLEEPING }) ∧
    (p.stride ≠ 0 →
      sleep s cur chan = some (setProc s cur
        { p with pass := 0, chan := chan, state := procstate.SLEEPING })) := by
  have hlt : cur < s.ptable.length := (List.getElem?_eq_some.1 hp).1
  constructor
  · intro hst c row hc hrow hcl hmem
    obtain ⟨s1, e, hq, hcnt, hoth, hpt, _⟩ :=
      dequeue_found true s cur p.level c row hc hrow hcl hmem
    have hp1 : getProc s1 cur = some p := by rw [getProc, hpt]; exact hp
    have hs : sleep s cur chan = some (setProc s1 cur
        { p with chan := chan, state := procstate.SLEEPING }) := by
      simp only [sleep, hp, if_pos hst, e, hp1]
    refine ⟨_, hs, hq, ?_, hcnt, hoth, ?_⟩
    · intro hcount hin
      have hin' : some cur ∈ (qlist s p.level).erase (some cur) := by
        rw [← hq]; exact hin
      have := List.count_erase_self (some cur) (qlist s p.level)
      have hpos : 0 < List.count (some cur) ((qlist s p.level).erase (some cur)) :=
        List.count_pos_iff.2 hin'
      omega
    · simp only [setProc, hpt]
  · intro hst
    have hp' : s.ptable[cur]? = some p := hp
    simp only [sleep, getProc, hp', if_neg hst, setProc, List.getElem?_set_self hlt,
      List.set_set]

/-- Running C18 on `ex_mlfq`: the running process in slot 1 goes to sleep on
channel 7 and leaves `q[0]`, where slots 0 and 2 stay in order. -/
theorem sleep_spec_witness :
    ∃ s1, sleep ex_mlfq 1 (some (Chan.addr 7)) = some s1 ∧
      qlist s1 0 = [some 0, some 2] ∧ s1.q_count.get? 0 = some 1 := by
  obtain ⟨s1, h1, h2, _, h4, _⟩ :=
    (sleep_spec ex_mlfq 1 (some (Chan.addr 7)) (mlfq_proc 2 (some 0) procstate.RUNNING)
      (by decide)).1 (by decide) 2 [some 0, some 1, some 2, none] (by decide) (by decide)
      (by decide) (by decide)
  exact ⟨s1, h1, h2.trans (by decide), h4⟩

theorem slot_kept_refl (p : proc) : slot_kept p p := ⟨rfl, rfl, id⟩

theorem slot_kept_trans {p p1 p2 : proc} (h1 : slot_kept p p1) (h2 : slot_kept p1 p2) :
    slot_kept p p2 :=
  ⟨h2.1.trans h1.1, h2.2.1.trans h1.2.1, fun h => h1.2.2 (h2.2.2 h)⟩

theorem neutral_refl (s : Kernel) : neutral s s :=
  ⟨rfl, rfl, rfl, fun i p p1 h h1 => by
    rw [h] at h1; cases h1; exact slot_kept_refl p⟩

theorem neutral_trans {s s1 s2 : Kernel} (h1 : neutral s s1) (h2 : neutral s1 s2) :
    neutral s s2 := by
  obtain ⟨a1, b1, c1, d1⟩ := h1
  obtain ⟨a2, b2, c2, d2⟩ := h2
  refine ⟨a2.trans a1, b2.trans b1, c2.trans c1, fun i p p2 hp hp2 => ?_⟩
  have hi : i < s1.ptable.length := by
    rw [c1]; exact (List.getElem?_eq_some_iff.1 hp).1
  have hp1 : s1.ptable[i]? = some (s1.ptable[i]) := List.getElem?_eq_getElem hi
  exact slot_kept_trans (d1 i p _ hp hp1) (d2 i _ p2 hp1 hp2)

/-- A state with the same share fields and the same table is neutral. -/
theorem neutral_of_eq {s s1 : Kernel} (h1 : s1.mlfq_share = s.mlfq_share)
    (h2 : s1.mlfq_stride = s.mlfq_stride) (h3 : s1.ptable = s.ptable) : neutral s s1 :=
  ⟨h1, h2, by rw [h3], fun i p p1 h h1 => by
    rw [h3, h] at h1; cases h1; exact slot_kept_refl p⟩

/-- A store into one slot that keeps its share fields is neutral. -/
theorem neutral_set {s s1 : Kernel} {i : Nat} {p p1 : proc}
    (h1 : s1.mlfq_share = s.mlfq_share) (h2 : s1.mlfq_stride = s.mlfq_stride)
    (h3 : s1.ptable = s.ptable.set i p1) (hp : s.ptable[i]? = some p)
    (hk : slot_kept p p1) : neutral s s1 := by
  refine ⟨h1, h2, by rw [h3, List.length_set], fun j q q1 hq hq1 => ?_⟩
  rw [h3] at hq1
  by_cases hij : i = j
  · subst hij
    have hlt : i < s.ptable.length := (List.getElem?_eq_some_iff.1 hp).1
    rw [List.getElem?_set_self hlt] at hq1
    rw [hp] at hq
    cases hq; cases hq1; exact hk
  · rw [List.getElem?_set_ne hij, hq] at hq1
    cases hq1; exact slot_kept_refl q

theorem neutral_setProc {s : Kernel} {i : Nat} {p p1 : proc} (hp : s.ptable[i]? = some p)
    (hk : slot_kept p p1) : neutral s (setProc s i p1) :=
  neutral_set rfl rfl rfl hp hk

theorem neutral_setProc_setProc {s : Kernel} {i : Nat} {p a b : proc}
    (hp : s.ptable[i]? = some p) (hk : slot_kept p b) :
    neutral s (setProc (setProc s i a) i b) :=
  neutral_set rfl rfl (by simp only [setProc, List.set_set]) hp hk

theorem wakeup1_loop_frame (chan : Option Chan) :
    ∀ (n i : Nat) (s : Kernel) (m : Int) (s1 : Kernel),
      wakeup1_loop chan n i s m = some s1 → neutral s s1 := by
  intro n
  induction n with
  | zero =>
    intro i s m s1 h
    simp only [wakeup1_loop] at h
    cases h; exact neutral_refl s
  | succ n ih =>
    intro i s m s1 h
    cases hg : getProc s i with
    | none => simp [wakeup1_loop, hg] at h
    | some p =>
      have hg' : s.ptable[i]? = some p := hg
      have hlt : i < s.ptable.length := (List.getElem?_eq_some_iff.1 hg').1
      simp only [wakeup1_loop, hg] at h
      by_cases hc : p.state = procstate.SLEEPING ∧ p.chan = chan
      · have hl : live p.state := by rw [hc.1]; exact ⟨by decide, by decide⟩
        rw [if_pos hc] at h
        split at h
        · split at h
          · cases h
          · split at h
            · cases h
            · refine neutral_trans ?_ (ih _ _ _ _ h)
              exact neutral_set (p := p) rfl rfl rfl hg' ⟨rfl, rfl, fun _ => hl⟩
        · refine neutral_trans ?_ (ih _ _ _ _ h)
          exact neutral_setProc_setProc hg' ⟨rfl, rfl, fun _ => hl⟩
      · rw [if_neg hc] at h
        exact ih _ _ _ _ h

theorem wakeup1_frame {s s1 : Kernel} {chan : Option Chan} (h : wakeup1 s chan = some s1) :
    neutral s s1 := wakeup1_loop_frame chan _ _ _ _ _ h

/-- The dequeue loops touch only the queue and its counter. -/
theorem dequeue_frame {zero : Bool} {s s1 : Kernel} {i : Nat} {level : Int}
    (h : dequeue zero s i level = some s1) :
    s1.ptable = s.ptable ∧ s1.mlfq_share = s.mlfq_share ∧ s1.mlfq_stride = s.mlfq_stride := by
  unfold dequeue at h
  split at h
  · split at h
    · cases h
    · cases h; exact ⟨rfl, rfl, rfl⟩
  · cases h

theorem dequeue_neutral {zero : Bool} {s s1 : Kernel} {i : Nat} {level : Int}
    (h : dequeue zero s i level = some s1) : neutral s s1 := by
  obtain ⟨h1, h2, h3⟩ := dequeue_frame h
  exact neutral_of_eq h2 h3 h1

/-- What `reap` does to the share fields and the table, whenever it returns. -/
theorem reap_frame {s s1 : Kernel} {i : Nat} {p : proc} (h : reap s i p = some s1) :
    s.mlfq_share + p.cpu_share ≠ 0 ∧
    s1.mlfq_share = s.mlfq_share + p.cpu_share ∧
    s1.mlfq_stride = Int.tdiv 10000 (s.mlfq_share + p.cpu_share) ∧
    s1.ptable = s.ptable.set i (scrub p) := by
  unfold reap at h
  split at h
  · cases h
  · rename_i s2 hs2
    have hf : s2.ptable = s.ptable ∧ s2.mlfq_share = s.mlfq_share := by
      by_cases hst : p.stride = 0
      · rw [if_pos hst] at hs2
        exact ⟨(dequeue_frame hs2).1, (dequeue_frame hs2).2.1⟩
      · rw [if_neg hst] at hs2
        cases hs2; exact ⟨rfl, rfl⟩
    simp only [cdiv] at h
    split at h
    · cases h
    · rename_i m hm
      by_cases hz : s2.mlfq_share + p.cpu_share = 0
      · rw [if_pos hz] at hm; cases hm
      · rw [if_neg hz] at hm
        cases hm; cases h
        refine ⟨by rw [← hf.2]; exact hz, ?_, ?_, ?_⟩
        · simp only [setProc, hf.2]
        · simp only [setProc, hf.2]
        · simp only [setProc, hf.1]

theorem reparent_loop_frame (cur : Nat) :
    ∀ (n i : Nat) (s s1 : Kernel), reparent_loop cur n i s = some s1 → neutral s s1 := by
  intro n
  induction n with
  | zero =>
    intro i s s1 h
    simp only [reparent_loop] at h
    cases h; exact neutral_refl s
  | succ n ih =>
    intro i s s1 h
    cases hg : getProc s i with
    | none => simp [reparent_loop, hg] at h
    | some p =>
      have hg' : s.ptable[i]? = some p := hg
      simp only [reparent_loop, hg] at h
      by_cases hc : p.parent = some cur
      · rw [if_pos hc] at h
        have hn : neutral s (setProc s i { p with parent := s.initproc }) :=
          neutral_setProc hg' ⟨rfl, rfl, fun h => h⟩
        by_cases hz : p.state = procstate.ZOMBIE
        · rw [if_pos hz] at h
          split at h
          · cases h
          · rename_i s2 hs2
            exact neutral_trans hn (neutral_trans (wakeup1_frame hs2) (ih _ _ _ h))
        · rw [if_neg hz] at h
          exact neutral_trans hn (ih _ _ _ h)
      · rw [if_neg hc] at h
        exact ih _ _ _ h

/-- The end of an exit path changes no share field, and leaves the slot a
ZOMBIE. -/
theorem become_zombie_frame {s s1 : Kernel} {i : Nat} (h : become_zombie s i = some s1) :
    neutral s s1 ∧ ∃ p1, s1.ptable[i]? = some p1 ∧ p1.state = procstate.ZOMBIE := by
  cases hg : getProc s i with
  | none => simp [become_zombie, hg] at h
  | some p =>
    have hg' : s.ptable[i]? = some p := hg
    have hlt : i < s.ptable.length := (List.getElem?_eq_some.1 hg').1
    have hnl : ¬ live procstate.ZOMBIE := fun h => h.2 rfl
    simp only [become_zombie, hg] at h
    by_cases hst : p.stride = 0
    · rw [if_pos hst] at h
      have hf := dequeue_frame h
      have hn : neutral s (setProc s i { p with state := procstate.ZOMBIE }) :=
        neutral_setProc hg' ⟨rfl, rfl, fun h => absurd h hnl⟩
      refine ⟨neutral_trans hn (dequeue_neutral h), { p with state := procstate.ZOMBIE }, ?_, rfl⟩
      rw [hf.1]
      exact List.getElem?_set_self hlt
    · rw [if_neg hst] at h
      have hn : neutral s (setProc (setProc s i { p with state := procstate.ZOMBIE }) i
          { p with state := procstate.ZOMBIE, pass := 0 }) :=
        neutral_setProc_setProc hg' ⟨rfl, rfl, fun h => absurd h hnl⟩
      cases h
      refine ⟨hn, { p with state := procstate.ZOMBIE, pass := 0 }, ?_, rfl⟩
      simp only [setProc, List.set_set]
      exact List.getElem?_set_self hlt

/-- The exit of a process without threads does no share accounting, and
leaves the caller a ZOMBIE. -/
theorem exit_plain_frame {s s1 : Kernel} {cur : Nat} {c : proc} {dz : Nat → Nat → Nat}
    (hc : getProc s cur = some c) (hplain : c.is_LWP = 0 ∧ c.num_LWP = 0)
    (h : exit s cur dz = some s1) :
    neutral s s1 ∧ ∃ p1, s1.ptable[cur]? = some p1 ∧ p1.state = procstate.ZOMBIE := by
  unfold exit at h
  split at h
  · cases h
  · simp only [hc, if_pos hplain] at h
    split at h
    · cases h
    · rename_i s2 hs2
      split at h
      · cases h
      · rename_i s3 hs3
        obtain ⟨hn, hz⟩ := become_zombie_frame h
        exact ⟨neutral_trans (wakeup1_frame hs2)
          (neutral_trans (reparent_loop_frame _ _ _ _ _ hs3) hn), hz⟩

theorem cdiv_some {a b m : Int} (h : cdiv a b = some m) : b ≠ 0 ∧ m = Int.tdiv a b := by
  unfold cdiv at h
  by_cases hb : b = 0
  · rw [if_pos hb] at h; cases h
  · rw [if_neg hb] at h; cases h; exact ⟨hb, rfl⟩

/-- What `set_cpu_share` does to the share fields and the table, whenever it
returns. -/
theorem set_cpu_share_frame {s s1 : Kernel} {cur : Nat} {share r : Int}
    (h : set_cpu_share s cur share = some (r, s1)) :
    (r = -1 ∧ s1 = s) ∨
    (r = share ∧ 0 ≤ share ∧ 20 < s.mlfq_share - share ∧
      s1.mlfq_share = s.mlfq_share - share ∧
      s1.mlfq_stride = Int.tdiv 10000 (s.mlfq_share - share) ∧
      s1.ptable.length = s.ptable.length ∧
      (∀ (j : Nat) (q q1 : proc), s.ptable[j]? = some q → s1.ptable[j]? = some q1 →
        q1.num_LWP = q.num_LWP ∧ q1.state = q.state ∧ q1.is_LWP = q.is_LWP ∧
        q1.parent = q.parent ∧ (q1.cpu_share = q.cpu_share ∨ 1 ≤ q1.cpu_share)) ∧
      ∃ p, s.ptable[cur]? = some p ∧
        (p.num_LWP ≤ 0 → 1 ≤ share ∧ s1.ptable = s.ptable.set cur
          { p with cpu_share := share, stride := Int.tdiv 10000 share,
                   pass := min_pass_scan s.ptable s.mlfq_pass })) := by
  unfold set_cpu_share at h
  by_cases h0 : share < 0
  · rw [if_pos h0] at h; cases h; exact Or.inl ⟨rfl, rfl⟩
  rw [if_neg h0] at h
  by_cases h20 : s.mlfq_share - share ≤ 20
  · rw [if_pos h20] at h; cases h; exact Or.inl ⟨rfl, rfl⟩
  rw [if_neg h20] at h
  right
  cases hg : getProc s cur with
  | none => simp [hg] at h
  | some p =>
    have hg' : s.ptable[cur]? = some p := hg
    have hlt : cur < s.ptable.length := (List.getElem?_eq_some.1 hg').1
    simp only [hg] at h
    split at h
    · cases h
    · rename_i s2 hs2
      obtain ⟨f1, f2, f3, f4, _⟩ := scs_delete_frame _ _ _ _ hs2
      split at h
      · cases h
      · rename_i ms hms
        obtain ⟨_, hms⟩ := cdiv_some hms
        by_cases hl : p.num_LWP > 0
        · rw [if_pos hl] at h
          split at h
          · cases h
          · rename_i d hd
            obtain ⟨_, hd⟩ := cdiv_some hd
            have hd0 : 0 ≤ d := by rw [hd]; exact Int.tdiv_nonneg (by omega) (by omega)
            split at h
            · cases h
            · rename_i st hst
              cases h
              refine ⟨rfl, by omega, by omega, by simp only [setProc, f2], by simp only [setProc, hms, f2],
                by simp [setProc, f1], ?_, p, hg', fun hle => by omega⟩
              intro j q q1 hq hq1
              simp only [setProc, f1, List.getElem?_map] at hq1
              by_cases hj : cur = j
              · subst hj
                rw [List.getElem?_set_self hlt] at hq1
                rw [hg'] at hq; cases hq
                simp only [Option.map_some'] at hq1
                split at hq1
                · cases hq1; exact ⟨rfl, rfl, rfl, rfl, Or.inr (by show 1 ≤ d + 1; omega)⟩
                · cases hq1; exact ⟨rfl, rfl, rfl, rfl, Or.inr (by show 1 ≤ d + 1; omega)⟩
              · rw [List.getElem?_set_ne hj, hq] at hq1
                simp only [Option.map_some'] at hq1
                split at hq1
                · cases hq1; exact ⟨rfl, rfl, rfl, rfl, Or.inr (by show 1 ≤ d + 1; omega)⟩
                · cases hq1; exact ⟨rfl, rfl, rfl, rfl, Or.inl rfl⟩
        · rw [if_neg hl] at h
          split at h
          · cases h
          · rename_i st hst
            obtain ⟨hs0, hst⟩ := cdiv_some hst
            cases h
            have h1 : 1 ≤ share := by omega
            refine ⟨rfl, by omega, by omega, by simp only [setProc, f2],
              by simp only [setProc, hms, f2], by simp [setProc, f1], ?_, p, hg', fun _ => ⟨h1, ?_⟩⟩
            · intro j q q1 hq hq1
              simp only [setProc, f1] at hq1
              by_cases hj : cur = j
              · subst hj
                rw [List.getElem?_set_self hlt] at hq1
                rw [hg'] at hq; cases hq; cases hq1
                exact ⟨rfl, rfl, rfl, rfl, Or.inr h1⟩
              · rw [List.getElem?_set_ne hj, hq] at hq1
                cases hq1; exact ⟨rfl, rfl, rfl, rfl, Or.inl rfl⟩
            · simp only [setProc, f1, hst, f3]

theorem getElem?_of_eq_set {l l1 : List proc} {c : Nat} {v : proc} (h : l1 = l.set c v)
    (hlt : c < l.length) : l1[c]? = some v := by
  subst h; exact List.getElem?_set_self hlt

/-- Claim C12: for a heavyweight process without threads (slot `c`) and a
share of at least 1 that `set_cpu_share` accepts, in a state whose
`mlfq_stride` is `10000 / mlfq_share`: after `set_cpu_share(share)`, the exit
of that process and the `wait` of its parent `par` that reclaims it,
`mlfq_share` and `mlfq_stride` have the values they had before the
`set_cpu_share` call. In between the share is debited and the ZOMBIE holds it. -/
theorem share_returned_by_wait (s0 s1 s2 s3 : Kernel) (c par : Nat) (share : Int)
    (p0 p2 : proc) (dz : Nat → Nat → Nat) (r : ScanResult)
    (hp0 : getProc s0 c = some p0) (hheavy : p0.is_LWP = 0) (hnothr : p0.num_LWP = 0)
    (hshare : 1 ≤ share)
    (hstride : s0.mlfq_stride = 10000 / s0.mlfq_share)
    (hset : set_cpu_share s0 c share = some (share, s1))
    (hexit : exit s1 c dz = some s2)
    (hp2 : getProc s2 c = some p2) (hpar : p2.parent = some par)
    (hfirst : ∀ (j : Nat) (q : proc), j < c → s2.ptable[j]? = some q →
      ¬ (q.parent = some par ∧ q.state = procstate.ZOMBIE))
    (hwait : wait_scan s2 par = some (r, s3)) :
    s1.mlfq_share = s0.mlfq_share - share ∧
    s2.mlfq_share = s0.mlfq_share - share ∧
    p2.state = procstate.ZOMBIE ∧ p2.cpu_share = share ∧
    r = ScanResult.ret p2.pid ∧
    s3.mlfq_share = s0.mlfq_share ∧ s3.mlfq_stride = s0.mlfq_stride := by
  have hp0' : s0.ptable[c]? = some p0 := hp0
  have hlt : c < s0.ptable.length := (List.getElem?_eq_some.1 hp0').1
  rcases set_cpu_share_frame hset with ⟨hr, _⟩ | ⟨_, _, h20, hm1, _, _, _, p, hp, hpt⟩
  · omega
  rw [hp0'] at hp; cases hp
  obtain ⟨_, hpt⟩ := hpt (by omega)
  have hc1 := getElem?_of_eq_set hpt hlt
  obtain ⟨⟨n1, _, _, n4⟩, q2, hq2, hz⟩ := exit_plain_frame hc1 ⟨hheavy, hnothr⟩ hexit
  have hp2' : s2.ptable[c]? = some p2 := hp2
  rw [hp2'] at hq2; cases hq2
  have hk := n4 c _ _ hc1 hp2'
  have hcs : p2.cpu_share = share := hk.1
  have hl := wait_loop_found s2 par c p2 hp2' hpar hz hfirst s2.ptable.length 0 false
    (by omega) (by have := (List.getElem?_eq_some.1 hp2').1; omega)
  unfold wait_scan at hwait
  rw [hl] at hwait
  cases hr : reap s2 c p2 with
  | none => rw [hr] at hwait; simp at hwait
  | some s3a =>
    rw [hr] at hwait
    simp only [Option.map_some'] at hwait
    cases hwait
    obtain ⟨_, r2, r3, _⟩ := reap_frame hr
    refine ⟨hm1, by rw [n1, hm1], hz, hcs, rfl, ?_, ?_⟩
    · rw [r2, n1, hm1, hcs]; omega
    · rw [r3, n1, hm1, hcs, hstride]
      have e : s0.mlfq_share - share + share = s0.mlfq_share := by omega
      rw [e]
      exact Int.tdiv_eq_ediv (by norm_num) (by omega)

theorem share_returned_by_wait_witness :
    set_cpu_share ex_mlfq 1 20 = some (20, ex_admitted) ∧
    exit ex_admitted 1 (fun _ n => n) = some ex_exited ∧
    wait_scan ex_exited 0 = some (ScanResult.ret 2, ex_reaped) ∧
    ex_admitted.mlfq_share = 80 ∧ ex_reaped.mlfq_share = 100 ∧ ex_reaped.mlfq_stride = 100 := by
  have hset : set_cpu_share ex_mlfq 1 20 = some (20, ex_admitted) := by decide
  have hexit : exit ex_admitted 1 (fun _ n => n) = some ex_exited := by decide
  have hwait : wait_scan ex_exited 0 = some (ScanResult.ret 2, ex_reaped) := by decide
  have hp2 : getProc ex_exited 1 = some
      { mlfq_proc 2 (some 0) procstate.ZOMBIE with cpu_share := 20, stride := 500, pass := 0 } := by
    decide
  have h := share_returned_by_wait ex_mlfq ex_admitted ex_exited ex_reaped 1 0 20
    (mlfq_proc 2 (some 0) procstate.RUNNING) _ (fun _ n => n) _
    (by decide) (by decide) (by decide) (by decide) (by decide) hset hexit hp2 (by decide)
    (by
      intro j q hj hq
      have hj0 : j = 0 := by omega
      subst hj0
      have : q = mlfq_proc 1 none procstate.RUNNABLE := by
        have e : ex_exited.ptable[0]? = some (mlfq_proc 1 none procstate.RUNNABLE) := by decide
        rw [e] at hq; cases hq; rfl
      subst this; decide)
    hwait
  exact ⟨hset, hexit, hwait, h.1, h.2.2.2.2.2⟩

theorem neutral_quiet {s s1 : Kernel} (X : Nat → Prop) (h : neutral s s1) : quiet X s s1 := by
  obtain ⟨h1, h2, h3, h4⟩ := h
  refine ⟨h1, h2, h3, fun i p p1 hp hp1 => ?_⟩
  obtain ⟨k1, k2, k3⟩ := h4 i p p1 hp hp1
  exact ⟨Or.inl k1, fun _ => Or.inl ⟨k2, k3⟩⟩

theorem sum_le_of_pointwise : ∀ (l l1 : List Int), l1.length = l.length →
    (∀ (i : Nat) (a b : Int), l[i]? = some a → l1[i]? = some b → b ≤ a) → l1.sum ≤ l.sum := by
  intro l
  induction l with
  | nil =>
    intro l1 hl _
    have : l1 = [] := List.length_eq_zero.1 hl
    subst this; simp
  | cons a l ih =>
    intro l1 hl h
    cases l1 with
    | nil => simp at hl
    | cons b l1 =>
      have h0 : b ≤ a := h 0 a b (by simp) (by simp)
      have ht := ih l1 (by simpa using hl) (fun i x y hx hy => h (i + 1) x y (by simpa using hx)
        (by simpa using hy))
      simp only [List.sum_cons]
      omega

theorem sum_credit : ∀ (l l1 : List Int) (i : Nat) (c : Int), l1.length = l.length →
    l[i]? = some c → l1[i]? = some 0 → (∀ j : Nat, j ≠ i → l1[j]? = l[j]?) →
    l1.sum = l.sum - c := by
  intro l
  induction l with
  | nil => intro l1 i c _ h; simp at h
  | cons a l ih =>
    intro l1 i c hl hc h0 hne
    cases l1 with
    | nil => simp at hl
    | cons b l1 =>
      cases i with
      | zero =>
        simp only [List.getElem?_cons_zero, Option.some.injEq] at hc h0
        subst hc; subst h0
        have : l1 = l := by
          apply List.ext_getElem?
          intro j
          have := hne (j + 1) (by omega)
          simpa using this
        subst this
        simp
      | succ i =>
        have hab : b = a := by
          have := hne 0 (by omega)
          simpa using this
        subst hab
        have := ih l1 i c (by simpa using hl) (by simpa using hc) (by simpa using h0)
          (fun j hj => by
            have := hne (j + 1) (by omega)
            simpa using this)
        simp only [List.sum_cons, this]
        omega

theorem shares_getElem? (s : Kernel) (i : Nat) :
    (shares s)[i]? = (s.ptable[i]?).map (fun p => p.cpu_share) := by
  simp [shares, List.getElem?_map]

theorem shares_length (s : Kernel) : (shares s).length = s.ptable.length := by
  simp [shares]

theorem share_inv_mono {X Y : Nat → Prop} {s : Kernel} (h : share_inv X s)
    (hXY : ∀ i, X i → Y i) : share_inv Y s :=
  ⟨h.1, h.2.1, fun i p hp => ⟨(h.2.2 i p hp).1, fun hy => (h.2.2 i p hp).2 (fun hx => hy (hXY i hx))⟩⟩

theorem share_inv_quiet {X : Nat → Prop} {s s1 : Kernel} (h : share_inv X s)
    (hq : quiet X s s1) : share_inv X s1 := by
  obtain ⟨q1, q2, q3, q4⟩ := hq
  refine ⟨by rw [q1]; exact h.1, by rw [q1, q2]; exact h.2.1, fun i p1 hp1 => ?_⟩
  have hi : i < s.ptable.length := by
    rw [← q3]; exact (List.getElem?_eq_some.1 hp1).1
  have hp : s.ptable[i]? = some (s.ptable[i]) := List.getElem?_eq_getElem hi
  obtain ⟨k1, k2⟩ := q4 i _ p1 hp hp1
  obtain ⟨i1, i2⟩ := h.2.2 i _ hp
  refine ⟨?_, fun hx hl => ?_⟩
  · rcases k1 with e | e <;> omega
  · rcases k2 hx with ⟨e, hl1⟩ | e
    · have := i2 hx (hl1 hl); omega
    · omega

theorem share_inv_credit {X : Nat → Prop} {s s1 : Kernel} {i : Nat} (h : share_inv X s)
    (hc : credit X i s s1) : share_inv X s1 := by
  obtain ⟨p, hp, c1, c2, c3, c4, ⟨p1, hp1, e1, e2⟩, c6⟩ := hc
  have hp0 := (h.2.2 i p hp).1
  have h20 : 20 ≤ s1.mlfq_share := by rw [c1]; have := h.1; omega
  refine ⟨h20, by rw [c3]; exact Int.tdiv_eq_ediv (by norm_num) (by omega), fun j q1 hq1 => ?_⟩
  by_cases hj : j = i
  · subst hj
    rw [hp1] at hq1; cases hq1
    exact ⟨by omega, fun _ hl => absurd e2 hl.1⟩
  · have hi : j < s.ptable.length := by
      rw [← c4]; exact (List.getElem?_eq_some.1 hq1).1
    have hq : s.ptable[j]? = some (s.ptable[j]) := List.getElem?_eq_getElem hi
    obtain ⟨k1, k2, _, k4⟩ := c6 j _ q1 hj hq hq1
    obtain ⟨i1, i2⟩ := h.2.2 j _ hq
    refine ⟨by omega, fun hx hl => ?_⟩
    have := i2 hx (by rw [← k2]; exact hl)
    have := k4 hx
    omega

theorem total_inv_quiet {X : Nat → Prop} {s s1 : Kernel} (h : total_inv s)
    (hq : quiet X s s1) : total_inv s1 := by
  obtain ⟨q1, q2, q3, q4⟩ := hq
  have hnn : ∀ (i : Nat) (p1 : proc), s1.ptable[i]? = some p1 → 0 ≤ p1.cpu_share := by
    intro i p1 hp1
    have hi : i < s.ptable.length := by
      rw [← q3]; exact (List.getElem?_eq_some.1 hp1).1
    have hp : s.ptable[i]? = some (s.ptable[i]) := List.getElem?_eq_getElem hi
    have := (q4 i _ p1 hp hp1).1
    have := h.2 i _ hp
    omega
  refine ⟨?_, hnn⟩
  have hs : total_share s1 ≤ total_share s := by
    apply sum_le_of_pointwise
    · rw [shares_length, shares_length, q3]
    · intro i a b ha hb
      rw [shares_getElem?] at ha hb
      cases hp : s.ptable[i]? with
      | none => rw [hp] at ha; simp at ha
      | some p =>
        cases hp1 : s1.ptable[i]? with
        | none => rw [hp1] at hb; simp at hb
        | some p1 =>
          rw [hp] at ha; rw [hp1] at hb
          simp only [Option.map_some', Option.some.injEq] at ha hb
          have := (q4 i p p1 hp hp1).1
          have := h.2 i p hp
          omega
  have := h.1
  rw [q1]; omega

theorem total_inv_credit {X : Nat → Prop} {s s1 : Kernel} {i : Nat} (h : total_inv s)
    (hc : credit X i s s1) : total_inv s1 := by
  obtain ⟨p, hp, c1, c2, c3, c4, ⟨p1, hp1, e1, e2⟩, c6⟩ := hc
  refine ⟨?_, fun j q1 hq1 => ?_⟩
  · have hs : total_share s1 = total_share s - p.cpu_share := by
      apply sum_credit _ _ i
      · rw [shares_length, shares_length, c4]
      · rw [shares_getElem?, hp]; rfl
      · rw [shares_getElem?, hp1]; simp [e1]
      · intro j hj
        rw [shares_getElem?, shares_getElem?]
        cases hq1 : s1.ptable[j]? with
        | none =>
          have : s.ptable[j]? = none := by
            rw [List.getElem?_eq_none_iff] at hq1 ⊢; omega
          rw [this]
        | some q1 =>
          have hi : j < s.ptable.length := by
            rw [← c4]; exact (List.getElem?_eq_some.1 hq1).1
          have hq : s.ptable[j]? = some (s.ptable[j]) := List.getElem?_eq_getElem hi
          rw [hq]
          simp only [Option.map_some', Option.some.injEq]
          exact (c6 j _ q1 hj hq hq1).1
    have := h.1
    rw [c1, hs]; omega
  · by_cases hj : j = i
    · subst hj
      rw [hp1] at hq1; cases hq1; omega
    · have hi : j < s.ptable.length := by
        rw [← c4]; exact (List.getElem?_eq_some.1 hq1).1
      have hq : s.ptable[j]? = some (s.ptable[j]) := List.getElem?_eq_getElem hi
      have := (c6 j _ q1 hj hq hq1).1
      have := h.2 j _ hq
      omega

theorem share_inv_chain {X : Nat → Prop} {s s1 : Kernel} (hc : chain X s s1) :
    share_inv X s → share_inv X s1 := by
  induction hc with
  | refl s => exact id
  | quiet hq _ ih => exact fun h => ih (share_inv_quiet h hq)
  | credit i hq _ ih => exact fun h => ih (share_inv_credit h hq)

theorem total_inv_chain {X : Nat → Prop} {s s1 : Kernel} (hc : chain X s s1) :
    total_inv s → total_inv s1 := by
  induction hc with
  | refl s => exact id
  | quiet hq _ ih => exact fun h => ih (total_inv_quiet h hq)
  | credit i hq _ ih => exact fun h => ih (total_inv_credit h hq)

theorem chain_trans {X : Nat → Prop} {s s1 s2 : Kernel} (h1 : chain X s s1)
    (h2 : chain X s1 s2) : chain X s s2 := by
  induction h1 with
  | refl s => exact h2
  | quiet hq _ ih => exact chain.quiet hq (ih h2)
  | credit i hq _ ih => exact chain.credit i hq (ih h2)

theorem chain_of_neutral {X : Nat → Prop} {s s1 : Kernel} (h : neutral s s1) : chain X s s1 :=
  chain.quiet (neutral_quiet X h) (chain.refl s1)

theorem chain_of_quiet {X : Nat → Prop} {s s1 : Kernel} (h : quiet X s s1) : chain X s s1 :=
  chain.quiet h (chain.refl s1)

theorem chain_of_credit {X : Nat → Prop} {s s1 : Kernel} {i : Nat} (h : credit X i s s1) :
    chain X s s1 :=
  chain.credit i h (chain.refl s1)

/-- Once the slots of `X` are ZOMBIEs, the invariant holds without exceptions. -/
theorem share_inv_zombie {X : Nat → Prop} {s : Kernel} (h : share_inv X s)
    (hz : ∀ j, X j → ∃ p, s.ptable[j]? = some p ∧ p.state = procstate.ZOMBIE) :
    share_inv (fun _ => False) s := by
  refine ⟨h.1, h.2.1, fun i p hp => ⟨(h.2.2 i p hp).1, fun _ hl => ?_⟩⟩
  by_cases hx : X i
  · obtain ⟨q, hq, hqz⟩ := hz i hx
    rw [hp] at hq; cases hq
    exact absurd hqz hl.2
  · exact (h.2.2 i p hp).2 hx hl

theorem reap_credit {X : Nat → Prop} {s s1 : Kernel} {i : Nat} {p : proc}
    (hp : s.ptable[i]? = some p) (h : reap s i p = some s1) : credit X i s s1 := by
  obtain ⟨r1, r2, r3, r4⟩ := reap_frame h
  have hlt : i < s.ptable.length := (List.getElem?_eq_some.1 hp).1
  refine ⟨p, hp, r2, by rw [r2]; exact r1, by rw [r3, r2], by rw [r4, List.length_set],
    ⟨scrub p, by rw [r4]; exact List.getElem?_set_self hlt, rfl, rfl⟩, ?_⟩
  intro j q q1 hj hq hq1
  rw [r4, List.getElem?_set_ne (Ne.symm hj), hq] at hq1
  cases hq1
  exact ⟨rfl, rfl, rfl, fun _ => rfl⟩

theorem wait_loop_chain {X : Nat → Prop} (cur : Nat) :
    ∀ (n i : Nat) (s : Kernel) (hk : Bool) (r : Option Int × Bool) (s1 : Kernel),
      wait_loop cur n i s hk = some (r, s1) → chain X s s1 := by
  intro n
  induction n with
  | zero =>
    intro i s hk r s1 h
    simp only [wait_loop] at h
    cases h; exact chain.refl s
  | succ n ih =>
    intro i s hk r s1 h
    cases hg : getProc s i with
    | none => simp [wait_loop, hg] at h
    | some p =>
      simp only [wait_loop, hg] at h
      split at h
      · exact ih _ _ _ _ _ h
      · split at h
        · split at h
          · cases h
          · rename_i s2 hs2
            cases h
            exact chain_of_credit (reap_credit hg hs2)
        · exact ih _ _ _ _ _ h

theorem wait_scan_chain {X : Nat → Prop} {s s1 : Kernel} {cur : Nat} {r : ScanResult}
    (h : wait_scan s cur = some (r, s1)) : chain X s s1 := by
  unfold wait_scan at h
  split at h
  · cases h
  · rename_i pid b s2 hl
    cases h
    exact wait_loop_chain cur _ _ _ _ _ _ hl
  · rename_i b s2 hl
    split at h
    · cases h
    · split at h <;> cases h <;> exact wait_loop_chain cur _ _ _ _ _ _ hl

theorem thread_join_loop_chain {X : Nat → Prop} (cur : Nat) (thread : Int) :
    ∀ (n i : Nat) (s : Kernel) (hk : Bool) (r : Option Int × Bool) (s1 : Kernel),
      thread_join_loop cur thread n i s hk = some (r, s1) → chain X s s1 := by
  intro n
  induction n with
  | zero =>
    intro i s hk r s1 h
    simp only [thread_join_loop] at h
    cases h; exact chain.refl s
  | succ n ih =>
    intro i s hk r s1 h
    cases hg : getProc s i with
    | none => simp [thread_join_loop, hg] at h
    | some p =>
      simp only [thread_join_loop, hg] at h
      split at h
      · exact ih _ _ _ _ _ h
      · split at h
        · split at h
          · cases h
          · rename_i s2 hs2
            cases h
            exact chain_of_credit (reap_credit hg hs2)
        · exact ih _ _ _ _ _ h

theorem thread_join_scan_chain {X : Nat → Prop} {s s1 : Kernel} {cur : Nat} {thread : Int}
    {r : ScanResult} {rv : Option Int}
    (h : thread_join_scan s cur thread = some (r, rv, s1)) : chain X s s1 := by
  cases hg : getProc s cur with
  | none => simp [thread_join_scan, hg] at h
  | some c0 =>
    have hn : neutral s (setProc s cur { c0 with wtid := thread }) :=
      neutral_setProc hg ⟨rfl, rfl, fun h => h⟩
    simp only [thread_join_scan, hg] at h
    split at h
    · cases h
    · rename_i v b s2 hl
      cases h
      exact chain_trans (chain_of_neutral hn) (thread_join_loop_chain cur thread _ _ _ _ _ _ hl)
    · rename_i b s2 hl
      split at h
      · cases h
      · split at h <;> cases h <;>
          exact chain_trans (chain_of_neutral hn)
            (thread_join_loop_chain cur thread _ _ _ _ _ _ hl)

theorem set_eq_self {l : List proc} {i : Nat} {x : proc} (h : l[i]? = some x) :
    l.set i x = l := by
  apply List.ext_getElem?
  intro j
  by_cases hij : i = j
  · subst hij
    rw [List.getElem?_set_self (List.getElem?_eq_some.1 h).1, h]
  · rw [List.getElem?_set_ne hij]

/-- Leaving the level queue (`stride == 0`) or resetting the pass: the table
changes at most in slot `i`, which keeps its share and state. -/
theorem leave_frame {c : Prop} [Decidable c] {s s3 : Kernel} {i : Nat} {l : Int} {x y : proc}
    (h : (if c then dequeue true s i l else some (setProc s i y)) = some s3)
    (hs : s.ptable[i]? = some x) (hy1 : y.cpu_share = x.cpu_share) (hy2 : y.state = x.state) :
    ∃ z, s3.ptable = s.ptable.set i z ∧ z.cpu_share = x.cpu_share ∧ z.state = x.state ∧
      s3.mlfq_share = s.mlfq_share ∧ s3.mlfq_stride = s.mlfq_stride := by
  by_cases hc : c
  · rw [if_pos hc] at h
    obtain ⟨d1, d2, d3⟩ := dequeue_frame h
    exact ⟨x, by rw [d1, set_eq_self hs], rfl, rfl, d2, d3⟩
  · rw [if_neg hc] at h
    cases h
    exact ⟨y, rfl, hy1, hy2, rfl, rfl⟩

/-- The dismantling of a thread by `exit` is a `credit` stage in which only
the thread's parent has its `num_LWP` changed. -/
theorem dismantle_credit {s s1 : Kernel} {i : Nat} (h : dismantle s i = some s1) :
    ∃ p par, s.ptable[i]? = some p ∧ p.parent = some par ∧
      credit (fun j => j = par) i s s1 := by
  cases hg : getProc s i with
  | none => simp [dismantle, hg] at h
  | some p =>
    have hg' : s.ptable[i]? = some p := hg
    have hlt : i < s.ptable.length := (List.getElem?_eq_some.1 hg').1
    simp only [dismantle, hg] at h
    cases hpar : p.parent with
    | none => simp [hpar] at h
    | some par =>
      simp only [hpar] at h
      cases hgp : getProc s par with
      | none => simp [hgp] at h
      | some pp =>
        have hgp' : s.ptable[par]? = some pp := hgp
        have hplt : par < s.ptable.length := (List.getElem?_eq_some.1 hgp').1
        simp only [hgp] at h
        have hlt1 : i < (s.ptable.set par { pp with num_LWP := pp.num_LWP - 1 }).length := by
          rw [List.length_set]; exact hlt
        -- the slot as `p1` reads it, after the parent's counter was decremented
        obtain ⟨p1, hp1, hcs1⟩ : ∃ p1,
            getProc (setProc s par { pp with num_LWP := pp.num_LWP - 1 }) i = some p1 ∧
            p1.cpu_share = p.cpu_share := by
          by_cases hip : par = i
          · subst hip
            rw [hg'] at hgp'; cases hgp'
            exact ⟨_, List.getElem?_set_self hplt, rfl⟩
          · refine ⟨p, ?_, rfl⟩
            show (s.ptable.set par _)[i]? = some p
            rw [List.getElem?_set_ne hip]; exact hg'
        simp only [hp1] at h
        split at h
        · cases h
        · rename_i s3 hs3
          obtain ⟨x, hx, hxc, hxs, hsh, _⟩ := leave_frame hs3
            (List.getElem?_set_self hlt1) rfl rfl
          have hp3 : getProc s3 i = some x := by
            show s3.ptable[i]? = some x
            rw [hx]
            exact List.getElem?_set_self (by simpa [setProc] using hlt)
          simp only [hp3] at h
          split at h
          · cases h
          · rename_i ms hms
            obtain ⟨hne, hms⟩ := cdiv_some hms
            cases h
            have hlt3 : i < s3.ptable.length := by
              rw [hx]; simpa [setProc] using hlt
            refine ⟨p, par, hg', hpar, p, hg', ?_, ?_, ?_, ?_,
              ⟨_, List.getElem?_set_self hlt3, rfl, hxs⟩, ?_⟩
            · simp only [setProc, hsh, hxc, hcs1]
            · simpa only [setProc] using hne
            · simp only [setProc, hms]
            · simp only [setProc, hx, List.length_set]
            · intro j q q1 hj hq hq1
              simp only [setProc, hx, List.set_set] at hq1
              rw [List.getElem?_set_ne (Ne.symm hj)] at hq1
              by_cases hjp : par = j
              · subst hjp
                rw [List.getElem?_set_self hplt] at hq1
                rw [hgp'] at hq
                cases hq; cases hq1
                exact ⟨rfl, rfl, rfl, fun hn => absurd rfl hn⟩
              · rw [List.getElem?_set_ne hjp, hq] at hq1
                cases hq1
                exact ⟨rfl, rfl, rfl, fun _ => rfl⟩

theorem exit_threads_loop_chain (cur : Nat) :
    ∀ (n i : Nat) (s s1 : Kernel), exit_threads_loop cur n i s = some s1 →
      chain (fun j => j = cur) s s1 := by
  intro n
  induction n with
  | zero =>
    intro i s s1 h
    simp only [exit_threads_loop] at h
    cases h; exact chain.refl s
  | succ n ih =>
    intro i s s1 h
    cases hg : getProc s i with
    | none => simp [exit_threads_loop, hg] at h
    | some p =>
      have hg' : s.ptable[i]? = some p := hg
      simp only [exit_threads_loop, hg] at h
      by_cases hc : p.parent = some cur ∧ p.is_LWP ≠ 0
      · rw [if_pos hc] at h
        split at h
        · cases h
        · rename_i s2 hs2
          obtain ⟨q, par, hq, hqp, hcr⟩ := dismantle_credit hs2
          rw [hg'] at hq; cases hq
          rw [hc.1] at hqp; cases hqp
          exact chain.credit i hcr (ih _ _ _ h)
      · rw [if_neg hc] at h
        exact ih _ _ _ h

theorem exit_peers_loop_chain (cur parent : Nat) :
    ∀ (n i : Nat) (s s1 : Kernel) (c : proc), getProc s cur = some c →
      c.parent = some parent → exit_peers_loop cur n i s = some s1 →
      chain (fun j => j = parent) s s1 ∧
      ∃ c1, getProc s1 cur = some c1 ∧ c1.parent = some parent := by
  intro n
  induction n with
  | zero =>
    intro i s s1 c hc hcp h
    simp only [exit_peers_loop] at h
    cases h; exact ⟨chain.refl s, c, hc, hcp⟩
  | succ n ih =>
    intro i s s1 c hc hcp h
    cases hg : getProc s i with
    | none => simp [exit_peers_loop, hg] at h
    | some p =>
      have hg' : s.ptable[i]? = some p := hg
      have hc' : s.ptable[cur]? = some c := hc
      simp only [exit_peers_loop, hg, hc] at h
      by_cases hcond : p.parent = c.parent ∧ p.is_LWP ≠ 0 ∧ i ≠ cur
      · rw [if_pos hcond] at h
        split at h
        · cases h
        · rename_i s2 hs2
          obtain ⟨q, par, hq, hqp, hcr⟩ := dismantle_credit hs2
          rw [hg'] at hq; cases hq
          rw [hcond.1, hcp] at hqp; cases hqp
          -- the caller's slot is not the dismantled one: it keeps its parent
          have hc2 : ∃ c2, getProc s2 cur = some c2 ∧ c2.parent = some parent := by
            obtain ⟨_, _, _, _, _, hlen, _, hrest⟩ := hcr
            have hlt : cur < s2.ptable.length := by
              rw [hlen]; exact (List.getElem?_eq_some.1 hc').1
            refine ⟨s2.ptable[cur], List.getElem?_eq_getElem hlt, ?_⟩
            have := (hrest cur c _ (Ne.symm hcond.2.2) hc' (List.getElem?_eq_getElem hlt)).2.2.1
            rw [this]; exact hcp
          obtain ⟨c2, hc2, hcp2⟩ := hc2
          obtain ⟨k1, k2⟩ := ih _ _ _ c2 hc2 hcp2 h
          exact ⟨chain.credit i hcr k1, k2⟩
      · rw [if_neg hcond] at h
        exact ih _ _ _ c hc hcp h

/-- A store into slot `i` that keeps its share is a `quiet` stage that excepts
slot `i`; the read `_hread` only names the state after the store. -/
theorem quiet_store {s : Kernel} {i j : Nat} {p p1 c : proc} (hp : s.ptable[i]? = some p)
    (_hread : getProc (setProc s i p1) j = some c) (hc : p1.cpu_share = p.cpu_share) :
    quiet (fun k => k = i) s (setProc s i p1) := by
  refine ⟨rfl, rfl, by simp [setProc], fun k q q1 hq hq1 => ?_⟩
  simp only [setProc] at hq1
  by_cases hk : i = k
  · subst hk
    rw [List.getElem?_set_self (List.getElem?_eq_some.1 hp).1] at hq1
    rw [hp] at hq
    cases hq; cases hq1
    exact ⟨Or.inl hc, fun hx => absurd rfl hx⟩
  · rw [List.getElem?_set_ne hk, hq] at hq1
    cases hq1
    exact ⟨Or.inl rfl, fun _ => Or.inl ⟨rfl, fun h => h⟩⟩

theorem become_zombie_after_set {s s4 : Kernel} {i j : Nat} {p p1 : proc}
    (h : become_zombie (setProc s i p1) j = some s4) (hp : s.ptable[i]? = some p)
    (hk : slot_kept p p1) : neutral s s4 :=
  neutral_trans (neutral_setProc hp hk) (become_zombie_frame h).1

/-- Every exit path is a sequence of `quiet` and `credit` stages in which
only slots that end as ZOMBIEs have their `num_LWP` decremented. -/
theorem exit_chain {s s1 : Kernel} {cur : Nat} {dz : Nat → Nat → Nat}
    (h : exit s cur dz = some s1) :
    ∃ X : Nat → Prop, chain X s s1 ∧
      ∀ j, X j → ∃ p, s1.ptable[j]? = some p ∧ p.state = procstate.ZOMBIE := by
  cases hg : getProc s cur with
  | none =>
    unfold exit at h
    split at h
    · cases h
    · simp [hg] at h
  | some c =>
    by_cases hplain : c.is_LWP = 0 ∧ c.num_LWP = 0
    · obtain ⟨hn, _⟩ := exit_plain_frame hg hplain h
      exact ⟨fun _ => False, chain_of_neutral hn, fun j hj => absurd hj id⟩
    · unfold exit at h
      split at h
      · cases h
      · simp only [hg, if_neg hplain] at h
        by_cases hheavy : c.is_LWP = 0
        · rw [if_pos hheavy] at h
          split at h
          · cases h
          · rename_i s2 hs2
            split at h
            · cases h
            · rename_i c1 hc1
              split at h
              · cases h
              · rename_i s3 hs3
                obtain ⟨hn, hz⟩ := become_zombie_frame h
                refine ⟨fun j => j = cur, ?_, fun j hj => by rw [hj]; exact hz⟩
                exact chain_trans (exit_threads_loop_chain cur _ _ _ _ hs2)
                  (chain_trans (chain_of_neutral (wakeup1_frame hs3)) (chain_of_neutral hn))
        · rw [if_neg hheavy] at h
          cases hpar : c.parent with
          | none => simp [hpar] at h
          | some parent =>
            simp only [hpar] at h
            split at h
            · cases h
            · rename_i s2 hs2
              obtain ⟨k1, _⟩ := exit_peers_loop_chain cur parent _ _ _ _ c hg hpar hs2
              cases hgp : getProc s2 parent with
              | none => simp [hgp] at h
              | some pp =>
                have hgp' : s2.ptable[parent]? = some pp := hgp
                simp only [hgp] at h
                split at h
                · cases h
                · rename_i c2 hc2
                  split at h
                  · cases h
                  · rename_i s4 hs4
                    split at h
                    · cases h
                    · rename_i pp3 hpp3
                      split at h
                      · cases h
                      · rename_i s5 hs5
                        obtain ⟨hn, hz⟩ := become_zombie_frame h
                        refine ⟨fun j => j = parent, ?_, fun j hj => by rw [hj]; exact hz⟩
                        have hq := quiet_store hgp' hc2 (by split <;> rfl)
                        have hn34 := become_zombie_after_set hs4 hc2
                          (by exact ⟨rfl, rfl, fun h => h⟩)
                        exact chain_trans k1 (chain.quiet hq
                          (chain_trans (chain_of_neutral hn34)
                            (chain_trans (chain_of_neutral (wakeup1_frame hs5))
                              (chain_of_neutral hn))))

theorem sum_update : ∀ (l l1 : List Int) (i : Nat) (c v : Int), l1.length = l.length →
    l[i]? = some c → l1[i]? = some v → (∀ j : Nat, j ≠ i → l1[j]? = l[j]?) →
    l1.sum = l.sum - c + v := by
  intro l
  induction l with
  | nil => intro l1 i c v _ h; simp at h
  | cons a l ih =>
    intro l1 i c v hl hc h0 hne
    cases l1 with
    | nil => simp at hl
    | cons b l1 =>
      cases i with
      | zero =>
        simp only [List.getElem?_cons_zero, Option.some.injEq] at hc h0
        subst hc; subst h0
        have : l1 = l := by
          apply List.ext_getElem?
          intro j
          have := hne (j + 1) (by omega)
          simpa using this
        subst this
        simp only [List.sum_cons]; omega
      | succ i =>
        have hab : b = a := by
          have := hne 0 (by omega)
          simpa using this
        subst hab
        have := ih l1 i c v (by simpa using hl) (by simpa using hc) (by simpa using h0)
          (fun j hj => by
            have := hne (j + 1) (by omega)
            simpa using this)
        simp only [List.sum_cons, this]
        omega

theorem share_inv_set_cpu_share {X : Nat → Prop} {s s1 : Kernel} {cur : Nat} {share r : Int}
    (hi : share_inv X s) (h : set_cpu_share s cur share = some (r, s1)) : share_inv X s1 := by
  rcases set_cpu_share_frame h with ⟨_, e⟩ | ⟨_, _, h20, hm, hs, hlen, hslots, _⟩
  · rw [e]; exact hi
  · refine ⟨by omega, by rw [hs, hm]; exact Int.tdiv_eq_ediv (by norm_num) (by omega),
      fun j q1 hq1 => ?_⟩
    have hj : j < s.ptable.length := by
      rw [← hlen]; exact (List.getElem?_eq_some.1 hq1).1
    have hq : s.ptable[j]? = some (s.ptable[j]) := List.getElem?_eq_getElem hj
    obtain ⟨k1, k2, _, _, k5⟩ := hslots j _ q1 hq hq1
    obtain ⟨i1, i2⟩ := hi.2.2 j _ hq
    refine ⟨by rcases k5 with e | e <;> omega, fun hx hl => ?_⟩
    have := i2 hx (by rw [← k2]; exact hl)
    omega

theorem total_inv_set_cpu_share {s s1 : Kernel} {cur : Nat} {share r : Int} {p : proc}
    (hi : total_inv s) (hp : getProc s cur = some p) (hn : p.num_LWP = 0)
    (h : set_cpu_share s cur share = some (r, s1)) : total_inv s1 := by
  rcases set_cpu_share_frame h with ⟨_, e⟩ | ⟨_, _, h20, hm, hs, hlen, hslots, q, hq, hpt⟩
  · rw [e]; exact hi
  · have hp' : s.ptable[cur]? = some p := hp
    rw [hp'] at hq; cases hq
    obtain ⟨h1, hpt⟩ := hpt (by omega)
    have hlt : cur < s.ptable.length := (List.getElem?_eq_some.1 hp').1
    have hp0 := hi.2 cur p hp'
    refine ⟨?_, fun j q1 hq1 => ?_⟩
    · have hsum : total_share s1 = total_share s - p.cpu_share + share := by
        apply sum_update _ _ cur
        · rw [shares_length, shares_length, hlen]
        · rw [shares_getElem?, hp']; rfl
        · rw [shares_getElem?, hpt, List.getElem?_set_self hlt]; rfl
        · intro j hj
          rw [shares_getElem?, shares_getElem?, hpt, List.getElem?_set_ne (Ne.symm hj)]
      have := hi.1
      rw [hm, hsum]; omega
    · rw [hpt] at hq1
      by_cases hj : cur = j
      · subst hj
        rw [List.getElem?_set_self hlt] at hq1
        cases hq1
        show 0 ≤ share
        omega
      · rw [List.getElem?_set_ne hj] at hq1
        exact hi.2 j q1 hq1

theorem find_unused_spec : ∀ (l : List proc) (i n : Nat), find_unused l i = some n →
    i ≤ n ∧ ∃ p, l[n - i]? = some p ∧ p.state = procstate.UNUSED := by
  intro l
  induction l with
  | nil => intro i n h; simp [find_unused] at h
  | cons a l ih =>
    intro i n h
    simp only [find_unused] at h
    by_cases ha : a.state = procstate.UNUSED
    · rw [if_pos ha] at h
      cases h
      exact ⟨le_refl _, a, by simp, ha⟩
    · rw [if_neg ha] at h
      obtain ⟨h1, p, hp, hu⟩ := ih _ _ h
      refine ⟨by omega, p, ?_, hu⟩
      have e : n - i = (n - (i + 1)) + 1 := by omega
      rw [e]; simpa using hp

theorem set_set_eq (l : List proc) (i : Nat) (a b : proc) :
    (l.set i a).set i b = l.set i b := by
  simp only [List.set_set]

/-- What `allocproc` does to the share fields and the table, whenever it
returns: nothing, or one UNUSED slot is taken and gets no share and no
threads. -/
theorem allocproc_frame {s s1 : Kernel} {kalloc : Option Nat} {r : Option Nat}
    (h : allocproc s kalloc = some (r, s1)) :
    s1.mlfq_share = s.mlfq_share ∧ s1.mlfq_stride = s.mlfq_stride ∧
    ((s1 = s ∧ r = none) ∨
      ∃ np p p1, s.ptable[np]? = some p ∧ p.state = procstate.UNUSED ∧
        s1.ptable = s.ptable.set np p1 ∧ p1.cpu_share = 0 ∧ p1.num_LWP = 0 ∧
        (r = none ∨ (r = some np ∧ p1.state = procstate.EMBRYO))) := by
  unfold allocproc at h
  split at h
  · cases h; exact ⟨rfl, rfl, Or.inl ⟨rfl, rfl⟩⟩
  · rename_i np hnp
    obtain ⟨_, p, hp, hu⟩ := find_unused_spec _ _ _ hnp
    simp only [Nat.sub_zero] at hp
    have hg : getProc s np = some p := hp
    simp only [hg] at h
    split at h
    · cases h
    · split at h
      · cases h
        refine ⟨rfl, rfl, Or.inr ⟨np, p, ?w, hp, hu, ?e, ?a, ?b, Or.inl rfl⟩⟩
        case e => exact set_set_eq _ _ _ _
        case a => rfl
        case b => rfl
      · cases h
        refine ⟨rfl, rfl, Or.inr ⟨np, p, ?w2, hp, hu, ?e2, ?a2, ?b2, Or.inr ⟨rfl, ?c2⟩⟩⟩
        case e2 => exact set_set_eq _ _ _ _
        case a2 => rfl
        case b2 => rfl
        case c2 => rfl

theorem allocproc_quiet {X : Nat → Prop} {s s1 : Kernel} {kalloc : Option Nat}
    {r : Option Nat} (h : allocproc s kalloc = some (r, s1)) : quiet X s s1 := by
  obtain ⟨h1, h2, h3⟩ := allocproc_frame h
  rcases h3 with ⟨e, _⟩ | ⟨np, p, p1, hp, _, hpt, c1, c2, _⟩
  · rw [e]; exact neutral_quiet X (neutral_refl s)
  · refine ⟨h1, h2, by rw [hpt, List.length_set], fun j q q1 hq hq1 => ?_⟩
    rw [hpt] at hq1
    by_cases hj : np = j
    · subst hj
      rw [List.getElem?_set_self (List.getElem?_eq_some.1 hp).1] at hq1
      cases hq1
      exact ⟨Or.inr c1, fun _ => Or.inr c2⟩
    · rw [List.getElem?_set_ne hj, hq] at hq1
      cases hq1
      exact ⟨Or.inl rfl, fun _ => Or.inl ⟨rfl, fun h => h⟩⟩

/-- What the share split of `thread_create` does, whenever it returns. -/
theorem share_split_frame {s s1 : Kernel} {par : Nat} {pp : proc}
    (h : share_split s par = some s1) (hp : getProc s par = some pp) :
    s1.mlfq_share = s.mlfq_share ∧ s1.mlfq_stride = s.mlfq_stride ∧
    s1.ptable.length = s.ptable.length ∧
    ∀ (j : Nat) (q q1 : proc), s.ptable[j]? = some q → s1.ptable[j]? = some q1 →
      q1.num_LWP = q.num_LWP ∧ q1.state = q.state ∧
      (q1.cpu_share = q.cpu_share ∨
        (pp.cpu_share ≠ 0 ∧ q1.cpu_share = Int.tdiv pp.cpu_share pp.num_LWP + 1)) := by
  have hp' : s.ptable[par]? = some pp := hp
  have hlt : par < s.ptable.length := (List.getElem?_eq_some.1 hp').1
  simp only [share_split, hp] at h
  by_cases hc : pp.cpu_share ≠ 0
  · rw [if_pos hc] at h
    split at h
    · cases h
    · rename_i d hd
      obtain ⟨_, hd⟩ := cdiv_some hd
      split at h
      · cases h
      · rename_i st hst
        cases h
        refine ⟨rfl, rfl, by simp [setProc], fun j q q1 hq hq1 => ?_⟩
        simp only [setProc, List.getElem?_map] at hq1
        by_cases hj : par = j
        · subst hj
          rw [List.getElem?_set_self hlt] at hq1
          rw [hp'] at hq; cases hq
          simp only [Option.map_some'] at hq1
          split at hq1 <;> cases hq1 <;> exact ⟨rfl, rfl, Or.inr ⟨hc, by rw [hd]⟩⟩
        · rw [List.getElem?_set_ne hj, hq] at hq1
          simp only [Option.map_some'] at hq1
          split at hq1
          · cases hq1; exact ⟨rfl, rfl, Or.inr ⟨hc, by rw [hd]⟩⟩
          · cases hq1; exact ⟨rfl, rfl, Or.inl rfl⟩
  · rw [if_neg hc] at h
    cases h
    refine ⟨rfl, rfl, rfl, fun j q q1 hq hq1 => ?_⟩
    rw [hq] at hq1; cases hq1
    exact ⟨rfl, rfl, Or.inl rfl⟩

theorem getProc_setProc_self {s : Kernel} {i : Nat} {v : proc} (h : i < s.ptable.length) :
    getProc (setProc s i v) i = some v := List.getElem?_set_self h

theorem getProc_setProc_ne {s : Kernel} {i j : Nat} {v : proc} (h : i ≠ j) :
    getProc (setProc s i v) j = getProc s j := List.getElem?_set_ne h

theorem length_setProc (s : Kernel) (i : Nat) (v : proc) :
    (setProc s i v).ptable.length = s.ptable.length := List.length_set _ _ _

theorem spawn_of_quiet {c : proc} {s s1 : Kernel} (h : quiet (fun _ => False) s s1) :
    spawn_rel c s s1 := by
  obtain ⟨h1, h2, h3, h4⟩ := h
  refine ⟨h1, h2, h3, fun j q q1 hq hq1 => ?_⟩
  obtain ⟨k1, k2⟩ := h4 j q q1 hq hq1
  refine ⟨?_, ?_⟩
  · rcases k1 with e | e
    · exact Or.inl e
    · exact Or.inr (Or.inl e)
  · rcases k2 (fun h => h) with ⟨e, hl⟩ | e
    · exact Or.inr ⟨hl, Or.inl e⟩
    · exact Or.inl e

/-- The table after the stores of `thread_create`, described slot by slot. -/
theorem spawn_of_shape {c : proc} {s s1 : Kernel} {np cur : Nat}
    (hm : s1.mlfq_share = s.mlfq_share) (hs : s1.mlfq_stride = s.mlfq_stride)
    (hlen : s1.ptable.length = s.ptable.length) (hc : s.ptable[cur]? = some c)
    (hnp : ∃ n, s1.ptable[np]? = some n ∧ n.cpu_share = 0 ∧ n.num_LWP = 0)
    (hcur : ∃ a, s1.ptable[cur]? = some a ∧ a.cpu_share = c.cpu_share ∧ a.state = c.state ∧
      (a.num_LWP = c.num_LWP ∨ a.num_LWP = c.num_LWP + 1))
    (hrest : ∀ j : Nat, j ≠ np → j ≠ cur → s1.ptable[j]? = s.ptable[j]?) :
    spawn_rel c s s1 := by
  refine ⟨hm, hs, hlen, fun j q q1 hq hq1 => ?_⟩
  by_cases hj : j = np
  · subst hj
    obtain ⟨n, hn, n1, n2⟩ := hnp
    rw [hn] at hq1; cases hq1
    exact ⟨Or.inr (Or.inl n1), Or.inl n2⟩
  · by_cases hjc : j = cur
    · subst hjc
      obtain ⟨a, ha, a1, a2, a3⟩ := hcur
      rw [ha] at hq1; cases hq1
      rw [hc] at hq; cases hq
      exact ⟨Or.inl a1, Or.inr ⟨fun h => by rw [← a2]; exact h, a3⟩⟩
    · rw [hrest j hj hjc, hq] at hq1
      cases hq1
      exact ⟨Or.inl rfl, Or.inr ⟨fun h => h, Or.inl rfl⟩⟩

theorem spawn_of_reads {c n a : proc} {s s1 : Kernel} (np cur : Nat)
    (hm : s1.mlfq_share = s.mlfq_share) (hs : s1.mlfq_stride = s.mlfq_stride)
    (hlen : s1.ptable.length = s.ptable.length) (hc : s.ptable[cur]? = some c)
    (hn : getProc s1 np = some n) (hn1 : n.cpu_share = 0) (hn2 : n.num_LWP = 0)
    (ha : getProc s1 cur = some a) (ha1 : a.cpu_share = c.cpu_share) (ha2 : a.state = c.state)
    (ha3 : a.num_LWP = c.num_LWP ∨ a.num_LWP = c.num_LWP + 1)
    (hrest : ∀ j : Nat, j ≠ np → j ≠ cur → getProc s1 j = getProc s j) :
    spawn_rel c s s1 :=
  spawn_of_shape hm hs hlen hc ⟨n, hn, hn1, hn2⟩ ⟨a, ha, ha1, ha2, ha3⟩ hrest

theorem spawn_then_split {c a : proc} {s s6 s7 : Kernel} {cur : Nat}
    (h : share_split s6 cur = some s7) (k6 : spawn_rel c s s6)
    (ha : getProc s6 cur = some a) (ha1 : a.cpu_share = c.cpu_share)
    (ha2 : a.num_LWP = c.num_LWP + 1) : spawn_rel c s s7 := by
  obtain ⟨f1, f2, f3, f4⟩ := share_split_frame h ha
  obtain ⟨g1, g2, g3, g4⟩ := k6
  refine ⟨f1.trans g1, f2.trans g2, f3.trans g3, fun j q q7 hq hq7 => ?_⟩
  have hj : j < s6.ptable.length := by
    rw [g3]; exact (List.getElem?_eq_some.1 hq).1
  have hq6 : s6.ptable[j]? = some (s6.ptable[j]) := List.getElem?_eq_getElem hj
  obtain ⟨e1, e2, e3⟩ := f4 j _ q7 hq6 hq7
  obtain ⟨d1, d2⟩ := g4 j q _ hq hq6
  refine ⟨?_, ?_⟩
  · rcases e3 with e | ⟨e, e'⟩
    · rw [e]; exact d1
    · exact Or.inr (Or.inr ⟨by rw [← ha1]; exact e, by rw [e', ha1, ha2]⟩)
  · rw [e1, e2]; exact d2

/-- What `thread_create` called by a RUNNING slot does to the share fields and
the table, whenever it returns. -/
theorem thread_create_frame {s s1 : Kernel} {cur : Nat} {c : proc} {kalloc : Option Nat}
    {allocuvm : Nat → Nat → Nat} {copyout_ok : Bool} {r : Int} {t : Option Int}
    (hc : getProc s cur = some c) (hrun : c.state = procstate.RUNNING)
    (h : thread_create s cur kalloc allocuvm copyout_ok = some (r, t, s1)) :
    spawn_rel c s s1 := by
  have hc' : s.ptable[cur]? = some c := hc
  have hltc : cur < s.ptable.length := (List.getElem?_eq_some.1 hc').1
  unfold thread_create at h
  split at h
  · cases h
  · rename_i sa ha
    cases h
    exact spawn_of_quiet (allocproc_quiet ha)
  · rename_i np sa ha
    obtain ⟨m1, m2, hsh⟩ := allocproc_frame ha
    rcases hsh with ⟨_, e⟩ | ⟨np1, p, p1, hp, hu, hpt, c1, c2, hr⟩
    · cases e
    rcases hr with e | ⟨e, _⟩
    · cases e
    cases e
    have hne : np ≠ cur := by
      intro e; subst e
      rw [hp] at hc'; cases hc'
      rw [hu] at hrun; cases hrun
    have hltn : np < s.ptable.length := (List.getElem?_eq_some.1 hp).1
    have hla : sa.ptable.length = s.ptable.length := by rw [hpt, List.length_set]
    have hltc1 : cur < sa.ptable.length := by omega
    have hltn1 : np < sa.ptable.length := by omega
    have r0 : getProc sa cur = some c := by
      show sa.ptable[cur]? = some c
      rw [hpt, List.getElem?_set_ne hne]; exact hc'
    have r1 : getProc sa np = some p1 := by
      show sa.ptable[np]? = some p1
      rw [hpt]; exact List.getElem?_set_self hltn
    have hrest : ∀ j : Nat, j ≠ np → sa.ptable[j]? = s.ptable[j]? := by
      intro j hj
      rw [hpt, List.getElem?_set_ne (Ne.symm hj)]
    simp only [r0, r1, getProc_setProc_self, getProc_setProc_ne, length_setProc, hltc1, hltn1,
      hne, Ne.symm hne, ne_eq, not_false_eq_true] at h
    have hrest1 : ∀ j : Nat, j ≠ np → getProc sa j = getProc s j := hrest
    by_cases hsz : allocuvm (PGROUNDUP c.sz) (PGROUNDUP c.sz + 2 * PGSIZE) = 0
    · rw [if_pos hsz] at h
      cases h
      apply spawn_of_reads np cur
      · exact m1
      · exact m2
      · rw [length_setProc, hla]
      · exact hc'
      · rw [getProc_setProc_ne (Ne.symm hne)]; exact r1
      · exact c1
      · exact c2
      · exact getProc_setProc_self hltc1
      · rfl
      · rfl
      · exact Or.inl rfl
      · intro j h1 h2
        rw [getProc_setProc_ne (Ne.symm h2)]
        exact hrest1 j h1
    · rw [if_neg hsz] at h
      by_cases hco : copyout_ok = false
      · rw [if_pos hco] at h
        cases h
        apply spawn_of_reads np cur
        · exact m1
        · exact m2
        · simp only [length_setProc, hla]
        · exact hc'
        · exact getProc_setProc_self (by simp only [length_setProc, hltn1])
        · exact c1
        · exact c2
        · rw [getProc_setProc_ne hne,
            getProc_setProc_self (by simp only [length_setProc, hltc1])]
        · rfl
        · rfl
        · exact Or.inr rfl
        · intro j h1 h2
          rw [getProc_setProc_ne (Ne.symm h1), getProc_setProc_ne (Ne.symm h2),
            getProc_setProc_ne (Ne.symm h1), getProc_setProc_ne (Ne.symm h2)]
          exact hrest1 j h1
      · rw [if_neg hco] at h
        split at h
        · cases h
        · rename_i s7 hs7
          cases h
          apply spawn_then_split hs7
          · apply spawn_of_reads np cur
            · exact m1
            · exact m2
            · simp only [length_setProc, hla]
            · exact hc'
            · exact getProc_setProc_self (by simp only [length_setProc, hltn1])
            · exact c1
            · exact c2
            · rw [getProc_setProc_ne hne, getProc_setProc_ne hne,
                getProc_setProc_self (by simp only [length_setProc, hltc1])]
            · rfl
            · rfl
            · exact Or.inr rfl
            · intro j h1 h2
              rw [getProc_setProc_ne (Ne.symm h1), getProc_setProc_ne (Ne.symm h1),
                getProc_setProc_ne (Ne.symm h2), getProc_setProc_ne (Ne.symm h1),
                getProc_setProc_ne (Ne.symm h2)]
              exact hrest1 j h1
          · rw [getProc_setProc_ne hne, getProc_setProc_ne hne,
              getProc_setProc_self (by simp only [length_setProc, hltc1])]
          · rfl
          · rfl

theorem share_inv_spawn {s s1 : Kernel} {cur : Nat} {c : proc}
    (hi : share_inv (fun _ => False) s) (hc : getProc s cur = some c) (hl : live c.state)
    (h : spawn_rel c s s1) : share_inv (fun _ => False) s1 := by
  obtain ⟨h1, h2, h3, h4⟩ := h
  obtain ⟨c0, c1⟩ := hi.2.2 cur c hc
  have hcn : 0 ≤ c.num_LWP := c1 (fun h => h) hl
  refine ⟨by rw [h1]; exact hi.1, by rw [h1, h2]; exact hi.2.1, fun j q1 hq1 => ?_⟩
  have hj : j < s.ptable.length := by
    rw [← h3]; exact (List.getElem?_eq_some.1 hq1).1
  have hq : s.ptable[j]? = some (s.ptable[j]) := List.getElem?_eq_getElem hj
  obtain ⟨k1, k2⟩ := h4 j _ q1 hq hq1
  obtain ⟨i1, i2⟩ := hi.2.2 j _ hq
  refine ⟨?_, fun _ hlq => ?_⟩
  · rcases k1 with e | e | ⟨_, e⟩
    · omega
    · omega
    · have : 0 ≤ Int.tdiv c.cpu_share (c.num_LWP + 1) := Int.tdiv_nonneg c0 (by omega)
      omega
  · rcases k2 with e | ⟨hlv, e⟩
    · omega
    · have := i2 (fun h => h) (hlv hlq)
      rcases e with e | e <;> omega

theorem total_inv_spawn {s s1 : Kernel} {c : proc} (hi : total_inv s)
    (hc0 : c.cpu_share = 0) (h : spawn_rel c s s1) : total_inv s1 := by
  obtain ⟨h1, h2, h3, h4⟩ := h
  apply total_inv_quiet (X := fun _ => True) hi
  refine ⟨h1, h2, h3, fun j q q1 hq hq1 => ⟨?_, fun hx => absurd trivial hx⟩⟩
  rcases (h4 j q q1 hq hq1).1 with e | e | ⟨e, _⟩
  · exact Or.inl e
  · exact Or.inr e
  · exact absurd hc0 e

theorem boot_share_inv {s : Kernel} (h : boot s) : share_inv (fun _ => False) s := by
  obtain ⟨h1, h2, h3⟩ := h
  refine ⟨by omega, by rw [h1, h2]; decide, fun i p hp => ?_⟩
  have := h3 p (List.getElem?_mem hp)
  subst this
  exact ⟨by decide, fun _ _ => by decide⟩

theorem sum_map_zero (l : List proc) (h : ∀ p ∈ l, p = proc.zero) :
    (l.map (fun p => p.cpu_share)).sum = 0 := by
  induction l with
  | nil => rfl
  | cons a l ih =>
    have ha := h a (List.mem_cons_self _ _)
    subst ha
    simp only [List.map_cons, List.sum_cons, ih (fun p hp => h p (List.mem_cons_of_mem _ hp))]
    rfl

theorem boot_total_inv {s : Kernel} (h : boot s) : total_inv s := by
  obtain ⟨h1, h2, h3⟩ := h
  refine ⟨?_, fun i p hp => ?_⟩
  · have : total_share s = 0 := sum_map_zero _ h3
    rw [h1, this]; decide
  · have := h3 p (List.getElem?_mem hp)
    subst this; decide

theorem filter_sum_le (f : proc → Bool) : ∀ l : List proc, (∀ p ∈ l, 0 ≤ p.cpu_share) →
    ((l.filter f).map (fun p => p.cpu_share)).sum ≤ (l.map (fun p => p.cpu_share)).sum := by
  intro l
  induction l with
  | nil => intro _; simp
  | cons a l ih =>
    intro h
    have ha := h a (List.mem_cons_self _ _)
    have ht := ih (fun p hp => h p (List.mem_cons_of_mem _ hp))
    by_cases hf : f a = true
    · simp only [List.filter_cons_of_pos hf, List.map_cons, List.sum_cons]
      omega
    · simp only [List.filter_cons_of_neg hf, List.map_cons, List.sum_cons]
      omega

/-- The bound on all shares bounds the shares of the runnable Stride slots. -/
theorem stride_load_le {s : Kernel} (h : total_inv s) :
    s.mlfq_share + stride_load s ≤ 100 := by
  have hle : stride_load s ≤ total_share s := by
    apply filter_sum_le
    intro p hp
    obtain ⟨i, hi, e⟩ := List.getElem_of_mem hp
    exact h.2 i p (by rw [List.getElem?_eq_getElem hi, e])
  have := h.1
  omega

theorem step_share_inv {b : Bool} {s s1 : Kernel} (hi : share_inv (fun _ => False) s)
    (h : share_step b s s1) : share_inv (fun _ => False) s1 := by
  cases h with
  | set_cpu_share cur p share r hp _ h => exact share_inv_set_cpu_share hi h
  | thread_create cur p kalloc allocuvm copyout_ok r tid hp hrun _ h =>
    exact share_inv_spawn hi hp (by rw [hrun]; exact ⟨by decide, by decide⟩)
      (thread_create_frame hp hrun h)
  | wait cur r h => exact share_inv_chain (wait_scan_chain h) hi
  | thread_join cur thread r rv h => exact share_inv_chain (thread_join_scan_chain h) hi
  | exit cur dz h =>
    obtain ⟨X, hc, hz⟩ := exit_chain h
    exact share_inv_zombie (share_inv_chain hc (share_inv_mono hi (fun _ h => absurd h id))) hz
  | other h => exact share_inv_quiet hi h

theorem step_total_inv {s s1 : Kernel} (hi : total_inv s)
    (h : share_step true s s1) : total_inv s1 := by
  cases h with
  | set_cpu_share cur p share r hp hn h => exact total_inv_set_cpu_share hi hp (hn rfl) h
  | thread_create cur p kalloc allocuvm copyout_ok r tid hp hrun hz h =>
    exact total_inv_spawn hi (hz rfl) (thread_create_frame hp hrun h)
  | wait cur r h => exact total_inv_chain (X := fun _ => False) (wait_scan_chain h) hi
  | thread_join cur thread r rv h =>
    exact total_inv_chain (X := fun _ => False) (thread_join_scan_chain h) hi
  | exit cur dz h =>
    obtain ⟨X, hc, _⟩ := exit_chain h
    exact total_inv_chain hc hi
  | other h => exact total_inv_quiet hi h

theorem reachable_share_inv {b : Bool} {s : Kernel} (h : reachable b s) :
    share_inv (fun _ => False) s := by
  induction h with
  | start s hb => exact boot_share_inv hb
  | step s s1 _ hs ih => exact step_share_inv ih hs

theorem reachable_total_inv {s : Kernel} (h : reachable true s) : total_inv s := by
  induction h with
  | start s hb => exact boot_total_inv hb
  | step s s1 _ hs ih => exact step_total_inv ih hs

/-- The state `ex_admitted` is reached from boot: the processes of `ex_mlfq`
are set up by operations that do no share accounting, then slot 1 calls
`set_cpu_share(20)`. -/
theorem ex_admitted_reachable (b : Bool) : reachable b ex_admitted := by
  have h0 : reachable b ex_boot :=
    reachable.start _ ⟨rfl, rfl, by decide⟩
  have hq : quiet (fun _ => False) ex_boot ex_mlfq := by
    refine ⟨rfl, rfl, rfl, fun i p p1 _ hp1 => ?_⟩
    have hall : ∀ q ∈ ex_mlfq.ptable, q.cpu_share = 0 ∧ q.num_LWP = 0 := by decide
    obtain ⟨e1, e2⟩ := hall p1 (List.getElem?_mem hp1)
    exact ⟨Or.inr e1, fun _ => Or.inr e2⟩
  have h1 : reachable b ex_mlfq := reachable.step _ _ h0 (share_step.other _ _ hq)
  exact reachable.step _ _ h1
    (share_step.set_cpu_share ex_mlfq ex_admitted 1 (mlfq_proc 2 (some 0) procstate.RUNNING)
      20 20 (by decide) (fun _ => by decide) (by decide))

/-- Claim C14 at the failing inputs `ex_admitted`, `ex_thread` and `ex_mlfq`:
the predicate `mlfq_share + (sum of cpu_share over the Stride slots that are
RUNNABLE or RUNNING) <= 100` is not preserved by `thread_create` nor by
`set_cpu_share` with threads. In the state `ex_admitted`, reached from boot,
the sum is 80 + 20; after the Stride process in slot 1 creates a thread it is
80 + 21 + 21 = 122. In `ex_thread` the sum is 100 + 0; after the process with
one thread reserves 20 it is 80 + 21 + 21. After slot 1 of `ex_mlfq` reserves
79 and creates a thread, `mlfq_share` is 21 and the Stride slots hold
80 + 80 = 160. -/
theorem share_bound_broken_by_split :
    reachable false ex_admitted ∧
    ex_admitted.mlfq_share + stride_load ex_admitted = 100 ∧
    (thread_create ex_admitted 1 (some 7) (fun _ n => n) true).map
      (fun r => (r.1, r.2.2.mlfq_share + stride_load r.2.2)) = some (0, 122) ∧
    ex_thread.mlfq_share + stride_load ex_thread = 100 ∧
    (set_cpu_share ex_thread 1 20).map
      (fun r => (r.1, r.2.mlfq_share + stride_load r.2)) = some (20, 122) ∧
    (set_cpu_share ex_mlfq 1 79).map
      (fun r => (r.1, r.2.mlfq_share, stride_load r.2)) = some (79, 21, 79) ∧
    ((set_cpu_share ex_mlfq 1 79).bind
      (fun a => thread_create a.2 1 (some 7) (fun _ n => n) true)).map
      (fun r => (r.1, r.2.2.mlfq_share, stride_load r.2.2)) = some (0, 21, 160) :=
  ⟨ex_admitted_reachable false, by decide, by decide, by decide, by decide, by decide,
    by decide⟩

/-- The bound on the reserved shares where the two splits that debit nothing
do not run: in every sequential execution from boot in which `set_cpu_share`
is only called by processes without threads and `thread_create` only by
processes without a share (`wait`, `thread_join`, `exit` and the operations
that do no share accounting are unrestricted), `mlfq_share + (sum of cpu_share
over the Stride slots that are RUNNABLE or RUNNING) <= 100` holds initially
and after every operation; so does the bound with the sum taken over all
slots. -/
theorem share_bound_without_split (s : Kernel) (h : reachable true s) :
    s.mlfq_share + stride_load s ≤ 100 ∧ s.mlfq_share + total_share s ≤ 100 :=
  ⟨stride_load_le (reachable_total_inv h), (reachable_total_inv h).1⟩

/-- The bound `share_bound_without_split` at the state `ex_admitted`. -/
theorem share_bound_without_split_witness :
    reachable true ex_admitted ∧ ex_admitted.mlfq_share = 80 ∧
    stride_load ex_admitted = 20 ∧
    ex_admitted.mlfq_share + stride_load ex_admitted ≤ 100 :=
  ⟨ex_admitted_reachable true, by decide, by decide,
    (share_bound_without_split ex_admitted (ex_admitted_reachable true)).1⟩

/-- Claim C15: in every sequential execution from boot (restricted or not),
made of `set_cpu_share`, `thread_create`, `wait`, `thread_join`, `exit` and
operations that do no share accounting, `mlfq_share >= 20` holds initially and
after every operation, and `mlfq_stride` equals `floor(10000 / mlfq_share)`
(so in particular after every operation that changes `mlfq_share`). -/
theorem mlfq_share_at_least_20 (restricted : Bool) (s : Kernel)
    (h : reachable restricted s) :
    20 ≤ s.mlfq_share ∧ s.mlfq_stride = 10000 / s.mlfq_share :=
  ⟨(reachable_share_inv h).1, (reachable_share_inv h).2.1⟩

theorem mlfq_share_at_least_20_witness :
    reachable false ex_admitted ∧ ex_admitted.mlfq_share = 80 ∧
    ex_admitted.mlfq_stride = 125 ∧
    20 ≤ ex_admitted.mlfq_share ∧
    ex_admitted.mlfq_stride = 10000 / ex_admitted.mlfq_share :=
  ⟨ex_admitted_reachable false, by decide, by decide,
    mlfq_share_at_least_20 false ex_admitted (ex_admitted_reachable false)⟩

/-! The operations of the source that do no share accounting are `quiet`
stages (`wakeup1` and `allocproc` above). -/

theorem scheduler_decide_neutral (s : Kernel) : neutral s (scheduler_decide s).2 := by
  rcases scheduler_decide_eq s with ⟨e, _⟩ | ⟨k, p, e, hk, hq, _, _⟩
  · rw [e]; exact neutral_of_eq rfl rfl rfl
  · rw [e]
    exact neutral_setProc hk ⟨rfl, rfl, fun _ => by rw [hq.1]; exact ⟨by decide, by decide⟩⟩

theorem yield_neutral {s s1 : Kernel} {cur : Nat} {p : proc} (hp : getProc s cur = some p)
    (hl : live p.state) (h : yield s cur = some s1) : neutral s s1 := by
  simp only [yield, hp] at h
  cases h
  exact neutral_setProc hp ⟨rfl, rfl, fun _ => hl⟩

theorem sleep_neutral {s s1 : Kernel} {cur : Nat} {chan : Option Chan} {p : proc}
    (hp : getProc s cur = some p) (hl : live p.state) (h : sleep s cur chan = some s1) :
    neutral s s1 := by
  have hp' : s.ptable[cur]? = some p := hp
  have hlt : cur < s.ptable.length := (List.getElem?_eq_some.1 hp').1
  simp only [sleep, hp] at h
  by_cases hst : p.stride = 0
  · rw [if_pos hst] at h
    split at h
    · cases h
    · rename_i s2 hs2
      obtain ⟨d1, d2, d3⟩ := dequeue_frame hs2
      have hg2 : getProc s2 cur = some p := by
        show s2.ptable[cur]? = some p
        rw [d1]; exact hp'
      simp only [hg2] at h
      cases h
      exact neutral_trans (neutral_of_eq d2 d3 d1) (neutral_setProc hg2 ⟨rfl, rfl, fun _ => hl⟩)
  · rw [if_neg hst] at h
    simp only [getProc_setProc_self hlt] at h
    cases h
    exact neutral_setProc_setProc hp' ⟨rfl, rfl, fun _ => hl⟩

theorem thread_exit_neutral {s s1 : Kernel} {cur : Nat} {retval : Int}
    (h : thread_exit s cur retval = some s1) : neutral s s1 := by
  unfold thread_exit at h
  split at h
  · cases h
  · split at h
    · cases h
    · rename_i c hc
      split at h
      · cases h
      · rename_i s2 hs2
        split at h
        · cases h
        · rename_i s3 hs3
          split at h
          · cases h
          · rename_i c2 hc2
            have hc2' : s3.ptable[cur]? = some c2 := hc2
            have hnl : ¬ live procstate.ZOMBIE := fun h => h.2 rfl
            refine neutral_trans (wakeup1_frame hs2)
              (neutral_trans (reparent_loop_frame _ _ _ _ _ hs3) ?_)
            by_cases hst : c2.stride = 0
            · rw [if_pos hst] at h
              have hd := dequeue_neutral h
              refine neutral_trans ?_ hd
              exact neutral_setProc hc2' ⟨rfl, rfl, fun h => absurd h hnl⟩
            · rw [if_neg hst] at h
              cases h
              exact neutral_setProc_setProc hc2' ⟨rfl, rfl, fun h => absurd h hnl⟩

/-- Claim C21 at the failing input `ex_family`. When the process in slot 1 of
`ex_child` (no threads) calls `exit`, its child in slot 2 is handed to init
(slot 0). When the process in slot 1 of `ex_family` (one live thread in slot 2)
calls `exit`, the thread is dismantled and the process becomes a ZOMBIE, but
its heavyweight child in slot 3 stays RUNNABLE with `parent` still slot 1. -/
theorem exit_with_threads_keeps_children :
    parents_of ex_child = [none, some 0, some 1, none] ∧
    (exit ex_child 1 (fun _ n => n)).map states_of
      = some [procstate.RUNNABLE, procstate.ZOMBIE, procstate.RUNNABLE, procstate.UNUSED] ∧
    (exit ex_child 1 (fun _ n => n)).map parents_of = some [none, some 0, some 0, none] ∧
    parents_of ex_family = [none, some 0, some 1, some 1, none] ∧
    (exit ex_family 1 (fun _ n => n)).map states_of
      = some [procstate.RUNNABLE, procstate.ZOMBIE, procstate.UNUSED, procstate.RUNNABLE,
              procstate.UNUSED] ∧
    (exit ex_family 1 (fun _ n => n)).map parents_of
      = some [none, some 0, none, some 1, none] := by
  decide

/-- Claim C22 at the failing input `ex_two_free`: the process in slot 1
(`sz` one page, `all_LWP == 0`) makes two successful `thread_create` calls.
Its `num_LWP` is 2 and its `sz` five pages, but its `all_LWP` is still 0: the
increment went to the `all_LWP` of each new thread (slots 2 and 3). When the
thread in slot 2 then calls `exit` and the group's thread count reaches 0, the
process keeps its `sz` of five pages. -/
theorem all_LWP_counts_on_the_thread :
    lwp_fields ex_two_free 1 = some (procstate.RUNNING, 0, 0, 4096) ∧
    ex_two_threads.map (fun s => lwp_fields s 1)
      = some (some (procstate.RUNNING, 2, 0, 20480)) ∧
    ex_two_threads.map (fun s => lwp_fields s 2)
      = some (some (procstate.RUNNABLE, 0, 1, 12288)) ∧
    ex_two_threads.map (fun s => lwp_fields s 3)
      = some (some (procstate.RUNNABLE, 0, 1, 20480)) ∧
    ex_last_thread_exit.map (fun s => lwp_fields s 1)
      = some (some (procstate.ZOMBIE, 0, 0, 20480)) := by
  refine ⟨?_, ?_, ?_, ?_, ?_⟩ <;> decide

/-- Claim C23 at the failing input `ex_mlfq` (slot 3 free, with `pid == 0`,
three entries in `q[0]`): a `fork` by slot 1 whose kernel-stack allocation
fails, and one whose address-space copy fails, return -1 and leave slot 3
UNUSED with `kstack == null`, but with `pid == 4` and as a fourth entry of
`q[0]`. Only the `fork` that finds no UNUSED slot (`ex_used_up`) leaves the
state as it was. -/
theorem failed_fork_leaves_queue_entry :
    (getProc ex_mlfq 3).map (fun p => (p.state, p.pid, p.kstack, p.parent))
      = some (procstate.UNUSED, 0, none, none) ∧
    qlist ex_mlfq 0 = [some 0, some 1, some 2] ∧
    (fork ex_mlfq 1 none (some 9)).map (fun r => r.1) = some (-1) ∧
    (fork ex_mlfq 1 none (some 9)).map (fun r =>
        (getProc r.2 3).map (fun p => (p.state, p.pid, p.kstack, p.parent)))
      = some (some (procstate.UNUSED, 4, none, none)) ∧
    (fork ex_mlfq 1 none (some 9)).map (fun r => (qlist r.2 0, r.2.q_count.a0))
      = some ([some 0, some 1, some 2, some 3], 3) ∧
    (fork ex_mlfq 1 (some 7) none).map (fun r => r.1) = some (-1) ∧
    (fork ex_mlfq 1 (some 7) none).map (fun r =>
        (getProc r.2 3).map (fun p => (p.state, p.pid, p.kstack, p.parent)))
      = some (some (procstate.UNUSED, 4, none, none)) ∧
    (fork ex_mlfq 1 (some 7) none).map (fun r => (qlist r.2 0, r.2.q_count.a0))
      = some ([some 0, some 1, some 2, some 3], 3) ∧
    fork ex_used_up 1 (some 7) (some 9) = some (-1, ex_used_up) := by
  refine ⟨?_, ?_, ?_, ?_, ?_, ?_, ?_, ?_, ?_⟩ <;> decide

/-- Claim C25 at the failing input `ex_mlfq`: the share 0 passes both tests of
`set_cpu_share` (`0 >= 0` and `100 - 0 > 20`), and for the caller in slot 1,
which has no threads, the function then computes `10000 / share` with
`share == 0`: the call has no result. For a caller with a thread (`ex_thread`)
the divisor is `0 / 1 + 1` and the call returns 0. -/
theorem set_cpu_share_zero_divides_by_zero :
    ¬ ((0 : Int) < 0) ∧ ¬ (ex_mlfq.mlfq_share - 0 ≤ 20) ∧
    (getProc ex_mlfq 1).map (fun p => p.num_LWP) = some 0 ∧
    cdiv 10000 0 = none ∧
    set_cpu_share ex_mlfq 1 0 = none ∧
    (set_cpu_share ex_mlfq 1 1).map (fun r => r.1) = some 1 ∧
    (set_cpu_share ex_thread 1 0).map (fun r => r.1) = some 0 := by
  decide

/-- The state in which the level scan of `ex_stuck` runs: after the decision
for the MLFQ, `mlfq_pass` has advanced by `mlfq_stride`. -/
theorem ex_stuck_decide :
    scheduler_decide ex_stuck = (none, { ex_stuck with mlfq_pass := 225 }) := by
  decide

theorem ex_stuck_boost : boost { ex_stuck with mlfq_pass := 225 }
    = some { ex_stuck with mlfq_pass := 225 } := by
  decide

/-- The scan of `q[0]` in `ex_stuck` skips the EMBRYO and ends with
`mlfq_turn` still set. -/
theorem ex_stuck_inner (body : Body) (n : Nat) :
    mlfq_inner body 0 (n + 2) 0 { ex_stuck with mlfq_pass := 225 } true []
      = Outcome.done ({ ex_stuck with mlfq_pass := 225 }, true, []) := by
  rfl

/-- At level 0 the scan of `ex_stuck` finds nothing to run, at level 1 it
restarts from level 0: no number of iterations ends it. -/
theorem ex_stuck_level_scan (body : Body) : ∀ n : Nat,
    level_scan body n 0 { ex_stuck with mlfq_pass := 225 } true [] = Outcome.timeout := by
  intro n
  induction n using Nat.strong_induction_on with
  | _ n ih =>
    match n with
    | 0 => rfl
    | 1 => rfl
    | 2 => rfl
    | m + 3 =>
      have h1 : level_scan body (m + 3) 0 { ex_stuck with mlfq_pass := 225 } true []
          = level_scan body (m + 2) 1 { ex_stuck with mlfq_pass := 225 } true [] := by
        show (match mlfq_inner body 0 (m + 2) 0 { ex_stuck with mlfq_pass := 225 } true [] with
          | Outcome.done (s1, turn1, ran1) => level_scan body (m + 2) (0 + 1) s1 turn1 ran1
          | Outcome.fault => Outcome.fault
          | Outcome.timeout => Outcome.timeout) = _
        rw [ex_stuck_inner]
        rfl
      have h2 : level_scan body (m + 2) 1 { ex_stuck with mlfq_pass := 225 } true []
          = level_scan body (m + 1) 0 { ex_stuck with mlfq_pass := 225 } true [] := rfl
      rw [h1, h2]
      exact ih (m + 1) (by omega)

/-- The inner loop over a level whose entries are all valid slots that are not
RUNNABLE runs through them without switching into any, if its fuel lasts. -/
theorem mlfq_inner_skip (body : Body) (level : Int) (s : Kernel) (cnt : Int) (row : Row)
    (turn : Bool) (ran : List Nat)
    (hc : s.q_count.get? level = some cnt) (hr : s.q.get? level = some row)
    (hall : ∀ i : Nat, (i : Int) ≤ cnt → ∃ pidx p, row[i]? = some (some pidx) ∧
      getProc s pidx = some p ∧ p.state ≠ procstate.RUNNABLE) :
    ∀ (k i n : Nat), (i : Int) + k = cnt + 1 →
      mlfq_inner body level n i s turn ran
        = if n ≤ k then Outcome.timeout else Outcome.done (s, turn, ran) := by
  intro k
  induction k with
  | zero =>
    intro i n hik
    cases n with
    | zero => rfl
    | succ n =>
      have hgt : ¬ ((i : Int) ≤ cnt) := by omega
      simp only [mlfq_inner, hc, hr, if_neg hgt]
      simp
  | succ k ih =>
    intro i n hik
    cases n with
    | zero => simp [mlfq_inner]
    | succ n =>
      have hle : (i : Int) ≤ cnt := by omega
      obtain ⟨pidx, p, h1, h2, h3⟩ := hall i hle
      have hrd : rd row (i : Int) = some (some pidx) := by
        rw [rd_natCast]; exact h1
      simp only [mlfq_inner, hc, hr, if_pos hle, hrd, h2, if_pos h3]
      have := ih (i + 1) n (by push_cast; omega)
      rw [show ((i : Int) + 1) = ((i + 1 : Nat) : Int) by push_cast; rfl, this]
      simp

/-- Whenever `q[0]` is non-empty and holds only valid slots that are not
RUNNABLE, the level scan entered with `mlfq_turn` set does not end: it finds
nothing at level 0 and at level 1 it restarts from level 0. -/
theorem level_scan_stuck (body : Body) (s : Kernel) (cnt : Int) (ran : List Nat)
    (hc : s.q_count.a0 = cnt) (h0 : 0 ≤ cnt)
    (hall : ∀ i : Nat, (i : Int) ≤ cnt → ∃ pidx p, s.q.a0[i]? = some (some pidx) ∧
      getProc s pidx = some p ∧ p.state ≠ procstate.RUNNABLE) :
    ∀ n : Nat, level_scan body n 0 s true ran = Outcome.timeout := by
  have hq : s.q_count.get? 0 = some cnt := by rw [Arr3.get?_zero, hc]
  have hr : s.q.get? 0 = some s.q.a0 := Arr3.get?_zero _
  have hk : ((0 : Nat) : Int) + (cnt + 1).toNat = cnt + 1 := by
    rw [Int.toNat_of_nonneg (by omega)]; simp
  have hinner : ∀ n : Nat, mlfq_inner body 0 n 0 s true ran
      = if n ≤ (cnt + 1).toNat then Outcome.timeout else Outcome.done (s, true, ran) := by
    intro n
    have := mlfq_inner_skip body 0 s cnt s.q.a0 true ran hq hr hall (cnt + 1).toNat 0 n hk
    simpa using this
  have hne : cnt ≠ -1 := by omega
  intro n
  induction n using Nat.strong_induction_on with
  | _ n ih =>
    cases n with
    | zero => rfl
    | succ n =>
      by_cases hn : n ≤ (cnt + 1).toNat
      · simp [level_scan, hq, hne, hinner n, hn]
      · cases n with
        | zero => omega
        | succ m =>
          simp only [level_scan, hq, hinner (m + 1), if_neg hn]
          simp only [hne, ne_eq, not_false_eq_true, and_self, if_true]
          simp
          rw [hc, if_neg hne]
          exact ih m (by omega)

/-- Claim C24 at the failing input `ex_stuck`: every stored queue entry is a
valid slot, `q[0]` holds only the EMBRYO in slot 2 and `q[1]` holds the
RUNNABLE slot 3. The scheduler iteration that starts there takes the MLFQ turn,
and its level scan does not end within any number `fuel` of loop iterations,
whatever the processes would do when run: level 0 has nothing RUNNABLE, and at
level 1 the scan restarts from level 0 because `q[0]` is not empty. Slot 3 is
never switched into. -/
theorem level_scan_never_ends (body : Body) (fuel : Nat) :
    qlist ex_stuck 0 = [some 2] ∧
    (getProc ex_stuck 2).map (fun p => p.state) = some procstate.EMBRYO ∧
    qlist ex_stuck 1 = [some 3] ∧
    (getProc ex_stuck 3).map (fun p => p.state) = some procstate.RUNNABLE ∧
    (scheduler_decide ex_stuck).1 = none ∧
    scheduler_iter body fuel ex_stuck = Outcome.timeout := by
  refine ⟨by decide, by decide, by decide, by decide, by decide, ?_⟩
  simp only [scheduler_iter, ex_stuck_decide, mlfq_turn, ex_stuck_boost,
    ex_stuck_level_scan body fuel]

/-- Taking a slot (it has no share and no threads afterwards) and then
storing fields other than `cpu_share` and `num_LWP` into it is a `quiet`
stage. -/
theorem quiet_fresh {X : Nat → Prop} {s sa s1 : Kernel} {i : Nat} {v w : proc}
    (hpt : sa.ptable = s.ptable.set i w) (h3 : s1.ptable = sa.ptable.set i v)
    (h1 : s1.mlfq_share = s.mlfq_share) (h2 : s1.mlfq_stride = s.mlfq_stride)
    (hc : w.cpu_share = 0) (hn : w.num_LWP = 0)
    (hvc : v.cpu_share = w.cpu_share) (hvn : v.num_LWP = w.num_LWP) :
    quiet X s s1 := by
  have h3a : s1.ptable = s.ptable.set i v := by rw [h3, hpt, List.set_set]
  refine ⟨h1, h2, by rw [h3a, List.length_set], fun j q q1 hq hq1 => ?_⟩
  rw [h3a] at hq1
  by_cases hj : i = j
  · subst hj
    rw [List.getElem?_set_self (List.getElem?_eq_some.1 hq).1] at hq1
    cases hq1
    exact ⟨Or.inr (hvc.trans hc), fun _ => Or.inr (hvn.trans hn)⟩
  · rw [List.getElem?_set_ne hj, hq] at hq1
    cases hq1
    exact ⟨Or.inl rfl, fun _ => Or.inl ⟨rfl, fun h => h⟩⟩

/-- The function `fork` does no share accounting: it is a `quiet` stage,
whether it succeeds or fails. -/
theorem fork_quiet {X : Nat → Prop} {s s1 : Kernel} {cur : Nat} {kalloc copyuvm : Option Nat}
    {r : Int} (h : fork s cur kalloc copyuvm = some (r, s1)) : quiet X s s1 := by
  unfold fork at h
  split at h
  · cases h
  · rename_i sa ha
    cases h
    exact allocproc_quiet ha
  · rename_i np sa ha
    obtain ⟨m1, m2, hsh⟩ := allocproc_frame ha
    rcases hsh with ⟨_, e⟩ | ⟨np1, p, p1, hp, hu, hpt, c1, c2, hr⟩
    · cases e
    rcases hr with e | ⟨e, _⟩
    · cases e
    cases e
    have hlt : np < s.ptable.length := (List.getElem?_eq_some.1 hp).1
    have r1 : getProc sa np = some p1 := by
      show sa.ptable[np]? = some p1
      rw [hpt]; exact List.getElem?_set_self hlt
    simp only [r1] at h
    split at h
    · cases h
      exact quiet_fresh hpt rfl m1 m2 c1 c2 rfl rfl
    · split at h
      · cases h
      · cases h
        exact quiet_fresh hpt rfl m1 m2 c1 c2 rfl rfl

end Xv6
